import Mathlib

/-!
Verification development for the NixCore wallet transaction engine
(src/wallet/wallet.cpp): a shallow embedding of the ledger index
(AddToWallet, GetConflicts, MarkConflicted, AbandonTransaction), the
balance view (IsTrusted, GetBalance), the coin selector
(ApproximateBestSubset, SelectCoinsMinConf) and the transaction builder
(CreateTransaction), together with theorems about them.

Conventions of the embedding:
- `CAmount` (int64_t) is modelled as `Int`; the claims under study involve
  no overflowing arithmetic.
- `uint256` hashes are modelled as `Nat`; the null hash is `0` and
  `ABANDON_HASH` (uint256 value 1) is `1`.
- scripts (`CScript`) are opaque and modelled as `Nat` tokens.
- external collaborators (chain index, mempool, fee estimator, ownership
  predicate `::IsMine`, RNG, wallet database) are oracle functions carried
  in environment structures.
- C++ `std::set` iteration in smallest-first order is modelled by sorted
  deduplicated lists (`insSorted`).
-/

namespace NixWallet

abbrev Amount := Int
abbrev Hash := Nat

def nullHash : Hash := 0

/-- CMerkleTx::ABANDON_HASH, the uint256 constant 0x...01 (wallet.cpp line 73). -/
def ABANDON_HASH : Hash := 1

/-- COutPoint: (transaction id, output index). -/
structure OutPoint where
  txhash : Hash
  n : Nat
deriving DecidableEq, Repr

/-- CTxOut: an output value plus its destination script. -/
structure CTxOut where
  nValue : Amount
  scriptPubKey : Nat
deriving DecidableEq, Repr

/-- CTxIn: an input referencing the outpoint it spends; the signature
script is an opaque token (cleared by IsEquivalentTo). -/
structure CTxIn where
  prevout : OutPoint
  scriptSig : Nat
deriving DecidableEq, Repr

/-- CTransaction. `txid` stands for GetHash(); it is carried as a field
(the hash excludes witness data, so two records with equal `txid` fields
model transactions that hash equal). -/
structure CTransaction where
  txid : Hash
  vin : List CTxIn
  vout : List CTxOut
  hasWitness : Bool
  isCoinBase : Bool
  isZerocoinSpend : Bool
deriving DecidableEq, Repr

/-- CInputCoin: a candidate UTXO reduced to (outpoint, amount) for
selection arithmetic. -/
structure CInputCoin where
  outpoint : OutPoint
  nValue : Amount
deriving DecidableEq, Repr

/-- Modelled from the spec: the fixed minimal-change threshold MIN_CHANGE
used by SelectCoinsMinConf.  wallet.h is not part of the sources given;
the spec calls it "a fixed minimal-change threshold", and Bitcoin-derived
wallets define it as CENT = 1000000. -/
def MIN_CHANGE : Amount := 1000000

/-- Modelled from the spec: MIN_FINAL_CHANGE, the smallest change output
the fee loop will shrink change down to (wallet.h, MIN_CHANGE / 2). -/
def MIN_FINAL_CHANGE : Amount := MIN_CHANGE / 2

def sumValues (l : List CInputCoin) : Amount := (l.map (fun c => c.nValue)).sum

def sumOuts (l : List CTxOut) : Amount := (l.map (fun o => o.nValue)).sum

/-! ## Coin selector: ApproximateBestSubset (wallet.cpp 2507-2551)

The randomized subset-sum search.  The per-call FastRandomContext is
modelled by an explicit boolean stream `rnd : Nat → Bool`; iteration
`nRep` of the search reads the bits `rnd (nRep * n + i)` in its first
pass over the `n` coins (pass 1 consumes no randomness). -/

/-- State of one repetition of the search (vfIncluded, nTotal,
fReachedTarget) together with the best solution found so far
(nBest, vfBest). -/
structure ABSRepState where
  vfIncluded : List Bool
  nTotal : Amount
  fReachedTarget : Bool
  nBest : Amount
  vfBest : List Bool
deriving DecidableEq, Repr

/-- Body of the innermost loop of ApproximateBestSubset for coin `i`,
given the already-drawn inclusion decision `fInc`: tentatively include
the coin; if the target is reached, record the subset when it beats
nBest, then back the coin out again. -/
def absCoinStep (vValue : List CInputCoin) (nTargetValue : Amount) (fInc : Bool) (i : Nat)
    (s : ABSRepState) : ABSRepState :=
  if fInc then
    let v := match vValue.get? i with
      | some c => c.nValue
      | none => 0
    let nTotal := s.nTotal + v
    let vfIncluded := s.vfIncluded.set i true
    if nTargetValue ≤ nTotal then
      if nTotal < s.nBest then
        { vfIncluded := vfIncluded.set i false, nTotal := nTotal - v,
          fReachedTarget := true, nBest := nTotal, vfBest := vfIncluded }
      else
        { vfIncluded := vfIncluded.set i false, nTotal := nTotal - v,
          fReachedTarget := true, nBest := s.nBest, vfBest := s.vfBest }
    else
      { s with vfIncluded := vfIncluded, nTotal := nTotal }
  else s

/-- One pass (`nPass` fixed) over coins `i, i+1, ...` with `fuel`
steps remaining; in the first pass the inclusion decision is the random
bit `rnd (base + i)`, in the second pass it is `!vfIncluded[i]`. -/
def absPassGo (vValue : List CInputCoin) (nTargetValue : Amount) (firstPass : Bool)
    (rnd : Nat → Bool) (base : Nat) : Nat → Nat → ABSRepState → ABSRepState
  | 0, _, s => s
  | fuel + 1, i, s =>
    let fInc := if firstPass then rnd (base + i) else !(s.vfIncluded.getD i false)
    absPassGo vValue nTargetValue firstPass rnd base fuel (i + 1)
      (absCoinStep vValue nTargetValue fInc i s)

/-- One repetition (one `nRep` iteration) of ApproximateBestSubset:
reset vfIncluded and nTotal, run pass 0, and run pass 1 only when the
target was not reached in pass 0. -/
def absOneRep (vValue : List CInputCoin) (nTargetValue : Amount) (rnd : Nat → Bool)
    (base : Nat) (nBest : Amount) (vfBest : List Bool) : Amount × List Bool :=
  let s0 : ABSRepState :=
    { vfIncluded := List.replicate vValue.length false, nTotal := 0,
      fReachedTarget := false, nBest := nBest, vfBest := vfBest }
  let s1 := absPassGo vValue nTargetValue true rnd base vValue.length 0 s0
  let s2 := if s1.fReachedTarget then s1
            else absPassGo vValue nTargetValue false rnd base vValue.length 0 s1
  (s2.nBest, s2.vfBest)

/-- The outer repetition loop: run up to `fuel` more repetitions,
stopping early as soon as nBest equals the target. -/
def absLoop (vValue : List CInputCoin) (nTargetValue : Amount) (rnd : Nat → Bool) :
    Nat → Nat → Amount × List Bool → Amount × List Bool
  | 0, _, st => st
  | fuel + 1, nRep, st =>
    if st.1 = nTargetValue then st
    else absLoop vValue nTargetValue rnd fuel (nRep + 1)
      (absOneRep vValue nTargetValue rnd (nRep * vValue.length) st.1 st.2)

/-- ApproximateBestSubset (wallet.cpp 2507): vfBest starts as the full
subset with nBest = nTotalLower, then `iterations` randomized
repetitions try to improve it toward the target. -/
def ApproximateBestSubset (vValue : List CInputCoin) (nTotalLower nTargetValue : Amount)
    (rnd : Nat → Bool) (iterations : Nat) : Amount × List Bool :=
  absLoop vValue nTargetValue rnd iterations 0 (nTotalLower, List.replicate vValue.length true)

/-! ## Coin selector: SelectCoinsMinConf (wallet.cpp 2553-2657) -/

/-- COutput as consumed by SelectCoinsMinConf: the candidate coin
together with the values the filter consults.  `fromMeAll` is the value
of `pcoin->IsFromMe(ISMINE_ALL)` and `withinChainLimit` the value of
`mempool.TransactionWithinChainLimit(hash, nMaxAncestors)`, both
supplied by the surrounding wallet/mempool. -/
structure COutput where
  outpoint : OutPoint
  nValue : Amount
  nDepth : Int
  fSpendable : Bool
  fromMeAll : Bool
  withinChainLimit : Bool
deriving DecidableEq, Repr

/-- State accumulated by the classification loop of SelectCoinsMinConf:
the lowest coin at least MIN_CHANGE above target seen so far, the list
of smaller coins (vValue) and their total (nTotalLower). -/
structure ClassifyState where
  coinLowestLarger : Option CInputCoin
  vValue : List CInputCoin
  nTotalLower : Amount
deriving DecidableEq, Repr

/-- The first loop of SelectCoinsMinConf (2566-2598): filter each
candidate by spendability, confirmation depth and ancestor-chain limit,
return immediately on an exact match, and otherwise classify it as
"small" (below target + MIN_CHANGE) or as a candidate lowest-larger
coin. -/
def classifyCoins (nTargetValue : Amount) (nConfMine nConfTheirs : Int) :
    List COutput → ClassifyState → Sum CInputCoin ClassifyState
  | [], st => Sum.inr st
  | o :: rest, st =>
    if !o.fSpendable then classifyCoins nTargetValue nConfMine nConfTheirs rest st
    else if o.nDepth < (if o.fromMeAll then nConfMine else nConfTheirs) then
      classifyCoins nTargetValue nConfMine nConfTheirs rest st
    else if !o.withinChainLimit then classifyCoins nTargetValue nConfMine nConfTheirs rest st
    else
      let coin : CInputCoin := { outpoint := o.outpoint, nValue := o.nValue }
      if coin.nValue = nTargetValue then Sum.inl coin
      else if coin.nValue < nTargetValue + MIN_CHANGE then
        classifyCoins nTargetValue nConfMine nConfTheirs rest
          { st with vValue := st.vValue ++ [coin], nTotalLower := st.nTotalLower + coin.nValue }
      else
        let better := match st.coinLowestLarger with
          | none => true
          | some c => decide (coin.nValue < c.nValue)
        if better then
          classifyCoins nTargetValue nConfMine nConfTheirs rest
            { st with coinLowestLarger := some coin }
        else classifyCoins nTargetValue nConfMine nConfTheirs rest st

/-- Insert a coin into a list sorted by decreasing value (stable):
models `std::sort(CompareValueOnly)` followed by `std::reverse`. -/
def insertSortedDesc (c : CInputCoin) : List CInputCoin → List CInputCoin
  | [] => [c]
  | d :: rest => if d.nValue < c.nValue then c :: d :: rest else d :: insertSortedDesc c rest

/-- Sort the small-coin list by decreasing value (wallet.cpp 2620-2621). -/
def sortDescByValue : List CInputCoin → List CInputCoin
  | [] => []
  | c :: rest => insertSortedDesc c (sortDescByValue rest)

/-- Collect vValue[i] for every i with vfBest[i] (wallet.cpp 2638-2643). -/
def maskSelect : List CInputCoin → List Bool → List CInputCoin
  | c :: cs, b :: bs => if b then c :: maskSelect cs bs else maskSelect cs bs
  | _, _ => []

/-- The stochastic-approximation tail of SelectCoinsMinConf (2619-2656):
sort descending, run ApproximateBestSubset (retrying once at
target + MIN_CHANGE), and compare the result against the single
lowest-larger coin.  The two ApproximateBestSubset calls each construct
a fresh FastRandomContext, modelled by the two streams rnd1 and rnd2. -/
def finishSelection (nTargetValue : Amount) (st : ClassifyState)
    (rnd1 rnd2 : Nat → Bool) : Bool × List CInputCoin × Amount :=
  let vValue := sortDescByValue st.vValue
  let r1 := ApproximateBestSubset vValue st.nTotalLower nTargetValue rnd1 1000
  let r2 :=
    if r1.1 ≠ nTargetValue ∧ nTargetValue + MIN_CHANGE ≤ st.nTotalLower then
      ApproximateBestSubset vValue st.nTotalLower (nTargetValue + MIN_CHANGE) rnd2 1000
    else r1
  let nBest := r2.1
  let vfBest := r2.2
  let useLarger := match st.coinLowestLarger with
    | none => false
    | some c => decide ((nBest ≠ nTargetValue ∧ nBest < nTargetValue + MIN_CHANGE) ∨ c.nValue ≤ nBest)
  match st.coinLowestLarger, useLarger with
  | some c, true => (true, [c], c.nValue)
  | _, _ =>
    let sel := maskSelect vValue vfBest
    (true, sel, sumValues sel)

/-- SelectCoinsMinConf (wallet.cpp 2553-2657).  The result triple is
(return value, setCoinsRet, nValueRet); both out-parameters are cleared
at entry, so the failure return carries ([], 0).  The caller-side
`random_shuffle` of vCoins is modelled by quantifying theorems over the
order of `vCoins`. -/
def selectCoinsMinConf (nTargetValue : Amount) (nConfMine nConfTheirs : Int)
    (vCoins : List COutput) (rnd1 rnd2 : Nat → Bool) : Bool × List CInputCoin × Amount :=
  match classifyCoins nTargetValue nConfMine nConfTheirs vCoins
      { coinLowestLarger := none, vValue := [], nTotalLower := 0 } with
  | Sum.inl coin => (true, [coin], coin.nValue)
  | Sum.inr st =>
    if st.nTotalLower = nTargetValue then (true, st.vValue, sumValues st.vValue)
    else if st.nTotalLower < nTargetValue then
      match st.coinLowestLarger with
      | none => (false, [], 0)
      | some c => (true, [c], c.nValue)
    else finishSelection nTargetValue st rnd1 rnd2

/-! ## Transaction builder: CreateTransaction (wallet.cpp 2834-3255)

The fee/size fixed-point loop.  External collaborators (fee estimator,
dust policy, serialized-size computation, SelectCoins, RNG, key pool,
signer) are oracle functions in `BuildEnv`.  The loop is driven with
explicit fuel; `createTransaction` returns `none` for every failure path
and for fuel exhaustion, and conservation is claimed only of successful
results. -/

/-- CRecipient: destination script, requested amount, subtract-fee flag. -/
structure CRecipient where
  scriptPubKey : Nat
  nAmount : Amount
  fSubtractFeeFromAmount : Bool
deriving DecidableEq, Repr

/-- Oracles consumed by CreateTransaction.  Dust thresholds are functions
of the script only (the value is compared against them); `txSize` is the
virtual size of the dummy-signed transaction as a function of the inputs
and outputs; `selectCoins` is the SelectCoins collaborator; `randInt n`
models GetRandInt(n), whose contract is a value in [0, n). -/
structure BuildEnv where
  dustThresholdRelay : Nat → Amount
  dustThresholdChange : Nat → Amount
  discardThreshold : Nat → Amount
  getMinimumFee : Nat → Amount
  minRelayFee : Nat → Amount
  txSize : List CInputCoin → List CTxOut → Nat
  selectCoins : Amount → Option (List CInputCoin)
  randInt : Nat → Nat
  changeScript : Nat
  changeDestSet : Bool
  keypoolOk : Bool
  changePrototypeSize : Nat
  dummySignOk : Bool
  signRequested : Bool
  signOk : Bool
  withinWeightLimit : Bool
  rejectLongChains : Bool
  chainLimitOk : Bool

/-- Modelled from the spec: IsDust(txout, ::dustRelayFee) (policy.cpp is
not among the sources); an output is dust when its value is below the
script-dependent threshold at the given rate. -/
def isDustRelay (env : BuildEnv) (o : CTxOut) : Bool :=
  o.nValue < env.dustThresholdRelay o.scriptPubKey

/-- Modelled from the spec: CTxOut::IsDust() at the minimum relay rate,
the variant used for change outputs (primitives/policy are not among the
sources). -/
def isDustChange (env : BuildEnv) (o : CTxOut) : Bool :=
  o.nValue < env.dustThresholdChange o.scriptPubKey

/-- The recipient-output construction loop (wallet.cpp 2956-2986):
subtract the fee share from each flagged recipient, the first flagged
recipient also paying the remainder of the division, and fail when an
output ends up dust.  C++ division of nonnegative CAmount by the count
truncates, hence Int.tdiv / Int.tmod. -/
def mkRecipientOutputs (env : BuildEnv) (nFeeRet : Amount) (nSubtract : Nat) :
    List CRecipient → Bool → Option (List CTxOut)
  | [], _ => some []
  | r :: rest, fFirst =>
    let v1 := if r.fSubtractFeeFromAmount then r.nAmount - nFeeRet.tdiv (nSubtract : Int)
              else r.nAmount
    let v2 := if r.fSubtractFeeFromAmount ∧ fFirst then v1 - nFeeRet.tmod (nSubtract : Int)
              else v1
    let txout : CTxOut := { nValue := v2, scriptPubKey := r.scriptPubKey }
    if isDustRelay env txout then none
    else
      match mkRecipientOutputs env nFeeRet nSubtract rest (fFirst && !r.fSubtractFeeFromAmount) with
      | none => none
      | some outs => some (txout :: outs)

/-- The dust-raise compensation loop (wallet.cpp 3057-3068): subtract
nDust from the first fee-subtracting recipient output, failing when it
becomes dust; when no recipient carries the flag the loop falls through
leaving the outputs unchanged. -/
def subtractDustFromFirst (env : BuildEnv) (nDust : Amount) :
    List CRecipient → List CTxOut → Option (List CTxOut)
  | r :: rs, o :: os =>
    if r.fSubtractFeeFromAmount then
      let o2 : CTxOut := { o with nValue := o.nValue - nDust }
      if isDustChange env o2 then none else some (o2 :: os)
    else
      match subtractDustFromFirst env nDust rs os with
      | none => none
      | some os2 => some (o :: os2)
  | _, vout => some vout

/-- Result of the change-handling block of one loop iteration. -/
inductive ChangeRes where
  | fail
  | mk (vout : List CTxOut) (nFeeRet : Amount) (nChangePosInOut : Int)
deriving DecidableEq, Repr

/-- The change-handling block (wallet.cpp 3009-3091): when the selection
overshoots, either add the surplus to the fee (denominated mode), raise a
dust change output at the expense of a fee-subtracting recipient, fold a
dust change into the fee (reporting change position -1), or insert the
change output at the requested or a random position. -/
def applyChange (env : BuildEnv) (vecSend : List CRecipient) (coinTypeDenominated : Bool)
    (nSubtract : Nat) (voutRecip : List CTxOut) (nFeeRet nChange : Amount)
    (nChangePosInOut : Int) : ChangeRes :=
  if 0 < nChange then
    if coinTypeDenominated then ChangeRes.mk voutRecip (nFeeRet + nChange) nChangePosInOut
    else if ¬env.changeDestSet ∧ ¬env.keypoolOk then ChangeRes.fail
    else
      let newTxOut0 : CTxOut := { nValue := nChange, scriptPubKey := env.changeScript }
      let raised :=
        if 0 < nSubtract ∧ isDustChange env newTxOut0 then
          let nDust := env.dustThresholdChange newTxOut0.scriptPubKey - newTxOut0.nValue
          match subtractDustFromFirst env nDust vecSend voutRecip with
          | none => none
          | some vout2 => some ({ newTxOut0 with nValue := newTxOut0.nValue + nDust }, vout2)
        else some (newTxOut0, voutRecip)
      match raised with
      | none => ChangeRes.fail
      | some (newTxOut, vout2) =>
        if isDustChange env newTxOut then
          ChangeRes.mk vout2 (nFeeRet + nChange) (-1)
        else if nChangePosInOut = -1 then
          let pos := env.randInt (vout2.length + 1)
          ChangeRes.mk (vout2.insertIdx pos newTxOut) nFeeRet (pos : Int)
        else if nChangePosInOut < 0 ∨ (vout2.length : Int) < nChangePosInOut then ChangeRes.fail
        else ChangeRes.mk (vout2.insertIdx nChangePosInOut.toNat newTxOut) nFeeRet nChangePosInOut
  else ChangeRes.mk voutRecip nFeeRet nChangePosInOut

/-- A successful build: final outputs, selected coins with their total,
the fee paid and the change position (-1 for no change). -/
structure BuildResult where
  vout : List CTxOut
  setCoins : List CInputCoin
  nValueIn : Amount
  nFeeRet : Amount
  nChangePosInOut : Int
deriving DecidableEq, Repr

/-- State carried between iterations of the fee loop. -/
structure BuildLoopState where
  nFeeRet : Amount
  pickNewInputs : Bool
  setCoins : List CInputCoin
  nValueIn : Amount
deriving DecidableEq, Repr

/-- Outcome of one iteration of the fee loop. -/
inductive StepRes where
  | fail
  | done (r : BuildResult)
  | again (s : BuildLoopState)
deriving DecidableEq, Repr

/-- Fetch the output at a change position (Int); the source performs the
vector access without a bounds check, which is undefined behaviour when
the position is out of range, modelled here as `none` (abort). -/
def changeIndexGet (vout : List CTxOut) (i : Int) : Option (Nat × CTxOut) :=
  if i < 0 then none
  else match vout.get? i.toNat with
    | none => none
    | some o => some (i.toNat, o)

/-- The tail of one fee-loop iteration, from the computation of nChange
onward (wallet.cpp 3009-3193), on the recipient outputs and the selected
coins with their accumulated value. -/
def buildStepTail (env : BuildEnv) (vecSend : List CRecipient) (coinTypeDenominated : Bool)
    (nChangePosRequest : Int) (s : BuildLoopState) (voutRecip : List CTxOut)
    (setCoins : List CInputCoin) (nValueIn : Amount) : StepRes :=
  let nValue := (vecSend.map (fun r => r.nAmount)).sum
  let nSubtract := (vecSend.filter (fun r => r.fSubtractFeeFromAmount)).length
  let nValueToSelect := nValue + (if nSubtract = 0 then s.nFeeRet else 0)
  let nChange := nValueIn - nValueToSelect
  match applyChange env vecSend coinTypeDenominated nSubtract voutRecip s.nFeeRet nChange
      nChangePosRequest with
      | ChangeRes.fail => StepRes.fail
      | ChangeRes.mk vout nFeeRet1 nChangePosInOut =>
        if ¬env.dummySignOk then StepRes.fail
        else
          let nBytes := env.txSize setCoins vout
          let nFeeNeeded := env.getMinimumFee nBytes
          if nFeeNeeded < env.minRelayFee nBytes then StepRes.fail
          else if nFeeNeeded ≤ nFeeRet1 then
            if nChangePosInOut = -1 ∧ nSubtract = 0 ∧ s.pickNewInputs = true ∧
                env.getMinimumFee (nBytes + env.changePrototypeSize + 2) +
                  env.discardThreshold env.changeScript ≤ nFeeRet1 then
              StepRes.again
                { nFeeRet := env.getMinimumFee (nBytes + env.changePrototypeSize + 2),
                  pickNewInputs := false, setCoins := setCoins, nValueIn := nValueIn }
            else if nFeeNeeded < nFeeRet1 ∧ nChangePosInOut ≠ -1 ∧ nSubtract = 0 then
              match changeIndexGet vout nChangePosInOut with
              | none => StepRes.fail
              | some (pos, o) =>
                let extra := nFeeRet1 - nFeeNeeded
                StepRes.done
                  { vout := vout.set pos { o with nValue := o.nValue + extra },
                    setCoins := setCoins, nValueIn := nValueIn,
                    nFeeRet := nFeeRet1 - extra, nChangePosInOut := nChangePosInOut }
            else
              StepRes.done
                { vout := vout, setCoins := setCoins, nValueIn := nValueIn,
                  nFeeRet := nFeeRet1, nChangePosInOut := nChangePosInOut }
          else if s.pickNewInputs = false then StepRes.fail
          else
            let tryReduce :=
              if nChangePosInOut ≠ -1 ∧ nSubtract = 0 then
                match changeIndexGet vout nChangePosInOut with
                | none => none
                | some (pos, o) =>
                  let additional := nFeeNeeded - nFeeRet1
                  if MIN_FINAL_CHANGE + additional ≤ o.nValue then
                    some (StepRes.done
                      { vout := vout.set pos { o with nValue := o.nValue - additional },
                        setCoins := setCoins, nValueIn := nValueIn,
                        nFeeRet := nFeeRet1 + additional, nChangePosInOut := nChangePosInOut })
                  else none
              else none
            match tryReduce with
            | some res => res
            | none =>
              StepRes.again
                { nFeeRet := nFeeNeeded,
                  pickNewInputs := if 0 < nSubtract then false else s.pickNewInputs,
                  setCoins := setCoins, nValueIn := nValueIn }

/-- One iteration of the fee loop of CreateTransaction (wallet.cpp
2944-3193).  SelectCoins reports its accumulated nValueIn alongside the
chosen set; it always equals the sum of the selected values, so the model
computes it as that sum. -/
def buildStep (env : BuildEnv) (vecSend : List CRecipient) (coinTypeDenominated : Bool)
    (nChangePosRequest : Int) (s : BuildLoopState) : StepRes :=
  match mkRecipientOutputs env s.nFeeRet
      ((vecSend.filter (fun r => r.fSubtractFeeFromAmount)).length) vecSend true with
  | none => StepRes.fail
  | some voutRecip =>
    match (if s.pickNewInputs then
             match env.selectCoins ((vecSend.map (fun r => r.nAmount)).sum +
                 (if (vecSend.filter (fun r => r.fSubtractFeeFromAmount)).length = 0
                  then s.nFeeRet else 0)) with
             | none => none
             | some coins => some (coins, sumValues coins)
           else some (s.setCoins, s.nValueIn) :
           Option (List CInputCoin × Amount)) with
    | none => StepRes.fail
    | some (setCoins, nValueIn) =>
      buildStepTail env vecSend coinTypeDenominated nChangePosRequest s voutRecip setCoins
        nValueIn

/-- The fee loop with explicit fuel. -/
def buildLoop (env : BuildEnv) (vecSend : List CRecipient) (coinTypeDenominated : Bool)
    (nChangePosRequest : Int) : Nat → BuildLoopState → Option BuildResult
  | 0, _ => none
  | fuel + 1, s =>
    match buildStep env vecSend coinTypeDenominated nChangePosRequest s with
    | StepRes.fail => none
    | StepRes.done r => some r
    | StepRes.again s2 => buildLoop env vecSend coinTypeDenominated nChangePosRequest fuel s2

/-- CreateTransaction (wallet.cpp 2834-3255).  The running-sum negativity
check of the source (`nValue < 0 || recipient.nAmount < 0`) is equivalent
to some recipient amount being negative.  The post-loop signing, weight
and mempool-chain checks can only turn success into failure and are
oracle booleans. -/
def createTransaction (env : BuildEnv) (vecSend : List CRecipient)
    (coinTypeDenominated : Bool) (nChangePosRequest : Int) (fuel : Nat) : Option BuildResult :=
  if vecSend.any (fun r => r.nAmount < 0) then none
  else if vecSend.isEmpty then none
  else if ¬env.changeDestSet ∧ ¬env.keypoolOk then none
  else
    match buildLoop env vecSend coinTypeDenominated nChangePosRequest fuel
        { nFeeRet := 0, pickNewInputs := true, setCoins := [], nValueIn := 0 } with
    | none => none
    | some r =>
      if env.signRequested ∧ ¬env.signOk then none
      else if ¬env.withinWeightLimit then none
      else if env.rejectLongChains ∧ ¬env.chainLimitOk then none
      else some r

/-! ## Ledger index: wallet state and chain environment -/

/-- isminetype bit values.  Modelled from the spec (script/ismine.h is
not among the sources): ISMINE_WATCH_ONLY = 3, ISMINE_SPENDABLE = 4,
ISMINE_ALL = 7, the values Bitcoin-derived wallets use. -/
def ISMINE_WATCH_ONLY : Nat := 3
def ISMINE_SPENDABLE : Nat := 4
def ISMINE_ALL : Nat := 7

/-- A wallet transaction record (CWalletTx).  The metadata copied by
SyncMetaData (mapValue, vOrderForm, strFromAccount) is abstracted into a
single `meta` token, and the mutable cached-amount fields with their
dirty bits are modelled as `Option Amount` (`none` = dirty). -/
structure CWalletTx where
  tx : CTransaction
  hashBlock : Hash
  nIndex : Int
  nOrderPos : Int
  nTimeReceived : Int
  nTimeSmart : Int
  fFromMe : Bool
  fInMempool : Bool
  meta : Nat
  cDebit : Option Amount
  cWatchDebit : Option Amount
  cAvailCredit : Option Amount
deriving DecidableEq, Repr

/-- CWalletTx::MarkDirty(): invalidate the cached amounts. -/
def markDirtyOne (r : CWalletTx) : CWalletTx :=
  { r with cDebit := none, cWatchDebit := none, cAvailCredit := none }

/-- uint256::IsNull() || hashBlock == ABANDON_HASH, i.e. hashUnset(). -/
def hashUnset (h : Hash) : Bool := h = nullHash ∨ h = ABANDON_HASH

/-- CMerkleTx::isAbandoned(). -/
def isAbandoned (r : CWalletTx) : Bool := r.hashBlock = ABANDON_HASH

/-- The wallet state: mapWallet keyed by txid (association list in map
order), the TxSpends multimap, the ordered-transaction index and the
next insertion-order counter. -/
structure CWallet where
  mapWallet : List (Hash × CWalletTx)
  mapTxSpends : List (OutPoint × Hash)
  wtxOrdered : List (Int × Hash)
  nOrderPosNext : Int
deriving DecidableEq, Repr

/-- std::map::find over an association list. -/
def assocFind : List (Hash × CWalletTx) → Hash → Option CWalletTx
  | [], _ => none
  | p :: rest, h => if p.1 = h then some p.2 else assocFind rest h

def lookupTx (w : CWallet) (h : Hash) : Option CWalletTx :=
  assocFind w.mapWallet h

def updateTx (w : CWallet) (h : Hash) (f : CWalletTx → CWalletTx) : CWallet :=
  { w with mapWallet := w.mapWallet.map (fun p => if p.1 = h then (p.1, f p.2) else p) }

/-- External collaborators of the ledger index: the chain oracle
(`blockHeightActive h` is the height of block `h` when it is in
mapBlockIndex *and* on the active chain, else `none`; `inBlockIndex` and
`blockTime` serve ComputeTimeSmart, which consults mapBlockIndex without
the chain-membership test), per-transaction finality, the global
bSpendZeroConfChange flag, the script-ownership oracle ::IsMine, the
adjusted clock and the wallet-database write outcome. -/
structure Env where
  blockHeightActive : Hash → Option Int
  tipHeight : Int
  inBlockIndex : Hash → Bool
  blockTime : Hash → Int
  checkFinalTx : Hash → Bool
  spendZeroConfChange : Bool
  isMine : Nat → Nat
  adjustedTime : Int
  dbWriteOk : Bool

/-- CMerkleTx::GetDepthInMainChain (wallet.cpp 4435-4452).  Modelled from
the spec: the zero-argument wrapper used at the call sites lives in
wallet.h, which is not among the sources; the spec describes plain
confirmation depth, so the wrapper is taken to be this overload (no
InstantSend boost). -/
def getDepthInMainChain (env : Env) (r : CWalletTx) : Int :=
  if hashUnset r.hashBlock then 0
  else
    match env.blockHeightActive r.hashBlock with
    | none => 0
    | some h => (if r.nIndex = -1 then -1 else 1) * (env.tipHeight - h + 1)

/-! ## Ledger index: GetConflicts (wallet.cpp 580-601) -/

def countSpends (w : CWallet) (o : OutPoint) : Nat :=
  (w.mapTxSpends.filter (fun p => p.1 = o)).length

/-- The equal_range of mapTxSpends at an outpoint, as the list of
spending txids. -/
def spendersOf (w : CWallet) (o : OutPoint) : List Hash :=
  (w.mapTxSpends.filter (fun p => p.1 = o)).map (fun p => p.2)

/-- Insert into a sorted deduplicated list (std::set insert). -/
def insSorted (x : Nat) : List Nat → List Nat
  | [] => [x]
  | y :: rest =>
    if x < y then x :: y :: rest
    else if x = y then y :: rest
    else y :: insSorted x rest

/-- CWallet::GetConflicts: for every input of the transaction whose
outpoint has more than one indexed spender, insert every spender of that
outpoint into the result set. -/
def getConflicts (w : CWallet) (txid : Hash) : List Hash :=
  match lookupTx w txid with
  | none => []
  | some wtx =>
    wtx.tx.vin.foldl
      (fun acc txin =>
        if countSpends w txin.prevout ≤ 1 then acc
        else (spendersOf w txin.prevout).foldl (fun a h => insSorted h a) acc)
      []

/-! ## Ledger index: MarkConflicted (wallet.cpp 1245-1304) and
AbandonTransaction (wallet.cpp 1184-1243)

Both walk the spend graph breadth-first with todo/done sets (std::set,
smallest-first iteration, modelled by `insSorted` lists).  Fuel is an
explicit bound computed from the wallet; `outOfFuel` is a model artifact
shown unreachable, and `abortAssert` models a failed assert(). -/

inductive LedgerRes where
  | ok (w : CWallet)
  | abortAssert
  | outOfFuel
deriving DecidableEq, Repr

/-- The wallet transactions spending any output of `now`: the
mapTxSpends entries whose outpoint hash is `now` (the lower_bound scan
at wallet.cpp 1287-1293). -/
def spendersOfTx (w : CWallet) (now : Hash) : List Hash :=
  (w.mapTxSpends.filter (fun p => p.1.txhash = now)).map (fun p => p.2)

/-- Mark one record conflicted with the given block (wallet.cpp
1282-1284): position -1, conflicting block stored, caches dirty. -/
def markOneConflicted (hashBlock : Hash) (r : CWalletTx) : CWalletTx :=
  markDirtyOne { r with nIndex := -1, hashBlock := hashBlock }

/-- Invalidate the cached amounts of every wallet parent of `r`
(wallet.cpp 1296-1301). -/
def markParentsDirty (w : CWallet) (r : CWalletTx) : CWallet :=
  r.tx.vin.foldl (fun acc txin => updateTx acc txin.prevout.txhash markDirtyOne) w

/-- Enqueue the spenders not yet done (wallet.cpp 1288-1293). -/
def enqueueSpenders (spenders : List Hash) (done todo : List Hash) : List Hash :=
  spenders.foldl (fun acc h => if h ∈ done then acc else insSorted h acc) todo

/-- The MarkConflicted worklist loop (wallet.cpp 1271-1303). -/
def mcLoop (env : Env) (hashBlock : Hash) (conflictconfirms : Int) :
    Nat → List Hash → List Hash → CWallet → LedgerRes
  | _, [], _, w => LedgerRes.ok w
  | 0, _ :: _, _, _ => LedgerRes.outOfFuel
  | fuel + 1, now :: todoRest, done, w =>
    let done2 := insSorted now done
    match lookupTx w now with
    | none => LedgerRes.abortAssert
    | some wtx =>
      if conflictconfirms < getDepthInMainChain env wtx then
        let w1 := updateTx w now (markOneConflicted hashBlock)
        let todo2 := enqueueSpenders (spendersOfTx w now) done2 todoRest
        let w2 := markParentsDirty w1 wtx
        mcLoop env hashBlock conflictconfirms fuel todo2 done2 w2
      else mcLoop env hashBlock conflictconfirms fuel todoRest done2 w

/-- Fuel bound for the worklist loops: every popped hash is new and
drawn from the initial hash, the wallet keys or the spend-index values,
so one more than the length of that listing suffices. -/
def wlFuel (w : CWallet) (h0 : Hash) : Nat :=
  (h0 :: w.mapWallet.map (fun p => p.1) ++ w.mapTxSpends.map (fun p => p.2)).length + 1

/-- CWallet::MarkConflicted: compute how deeply the block conflicts with
the active chain; no-op unless that is negative; then propagate over the
spend graph. -/
def markConflicted (env : Env) (w : CWallet) (hashBlock hashTx : Hash) : LedgerRes :=
  let conflictconfirms : Int :=
    match env.blockHeightActive hashBlock with
    | some h => -(env.tipHeight - h + 1)
    | none => 0
  if 0 ≤ conflictconfirms then LedgerRes.ok w
  else mcLoop env hashBlock conflictconfirms (wlFuel w hashTx) [hashTx] [] w

/-- Result of AbandonTransaction: the returned bool plus the final
wallet state, or an assert failure, or fuel exhaustion. -/
inductive AbandonRes where
  | ok (b : Bool) (w : CWallet)
  | abortAssert
  | outOfFuel
deriving DecidableEq, Repr

/-- Mark one record abandoned (wallet.cpp 1217-1219): position -1,
hashBlock := ABANDON_HASH, caches dirty. -/
def markOneAbandoned (r : CWalletTx) : CWalletTx :=
  markDirtyOne { r with nIndex := -1, hashBlock := ABANDON_HASH }

/-- The AbandonTransaction worklist loop (wallet.cpp 1203-1240),
including its asserts: every popped transaction must be tracked, must
have depth ≤ 0, and, when it is about to be abandoned, must not be in
the mempool. -/
def abandonLoop (env : Env) : Nat → List Hash → List Hash → CWallet → LedgerRes
  | _, [], _, w => LedgerRes.ok w
  | 0, _ :: _, _, _ => LedgerRes.outOfFuel
  | fuel + 1, now :: todoRest, done, w =>
    let done2 := insSorted now done
    match lookupTx w now with
    | none => LedgerRes.abortAssert
    | some wtx =>
      if 0 < getDepthInMainChain env wtx then LedgerRes.abortAssert
      else if getDepthInMainChain env wtx = 0 ∧ ¬isAbandoned wtx then
        if wtx.fInMempool then LedgerRes.abortAssert
        else
          let w1 := updateTx w now markOneAbandoned
          let todo2 := enqueueSpenders (spendersOfTx w now) done2 todoRest
          let w2 := markParentsDirty w1 wtx
          abandonLoop env fuel todo2 done2 w2
      else abandonLoop env fuel todoRest done2 w

/-- CWallet::AbandonTransaction (wallet.cpp 1184-1243): assert the
transaction is tracked; refuse (returning false, mutating nothing) when
it is confirmed or in the mempool; otherwise abandon it and everything
spending it. -/
def abandonTransaction (env : Env) (w : CWallet) (hashTx : Hash) : AbandonRes :=
  match lookupTx w hashTx with
  | none => AbandonRes.abortAssert
  | some origtx =>
    if 0 < getDepthInMainChain env origtx ∨ origtx.fInMempool then AbandonRes.ok false w
    else
      match abandonLoop env (wlFuel w hashTx) [hashTx] [] w with
      | LedgerRes.ok w2 => AbandonRes.ok true w2
      | LedgerRes.abortAssert => AbandonRes.abortAssert
      | LedgerRes.outOfFuel => AbandonRes.outOfFuel

/-! ## Ledger index: AddToWallet (wallet.cpp 989-1071) with
ComputeTimeSmart (4062-4106), AddToSpends (676-695) and SyncMetaData
(615-651) -/

/-- CWalletTx::IsEquivalentTo (wallet.cpp 2083-2090): equality of the
two transactions with signature scripts cleared, i.e. of everything the
(witness-excluding) txid commits to except the signatures. -/
def isEquivalentTo (t1 t2 : CTransaction) : Bool :=
  t1.vin.map (fun i => i.prevout) = t2.vin.map (fun i => i.prevout) ∧
  t1.vout = t2.vout ∧ t1.isCoinBase = t2.isCoinBase ∧ t1.isZerocoinSpend = t2.isZerocoinSpend

/-- The copyFrom scan of SyncMetaData (wallet.cpp 621-629): the first
spender in range order whose nOrderPos is strictly smallest. -/
def findCopyFrom (w : CWallet) : List Hash → Option (Int × Hash) → Option (Int × Hash)
  | [], acc => acc
  | h :: rest, acc =>
    match lookupTx w h with
    | none => findCopyFrom w rest acc
    | some r =>
      match acc with
      | none => findCopyFrom w rest (some (r.nOrderPos, h))
      | some (m, h0) =>
        if r.nOrderPos < m then findCopyFrom w rest (some (r.nOrderPos, h))
        else findCopyFrom w rest (some (m, h0))

/-- CWallet::SyncMetaData over the spenders of one outpoint: copy the
user metadata, smart time and from-me flag of the oldest spender to
every other equivalent spender. -/
def syncMetaData (w : CWallet) (o : OutPoint) : CWallet :=
  let hs := spendersOf w o
  match findCopyFrom w hs none with
  | none => w
  | some (_, hFrom) =>
    match lookupTx w hFrom with
    | none => w
    | some rFrom =>
      hs.foldl
        (fun acc h =>
          if h = hFrom then acc
          else
            updateTx acc h (fun rTo =>
              if isEquivalentTo rFrom.tx rTo.tx then
                { rTo with meta := rFrom.meta, nTimeSmart := rFrom.nTimeSmart,
                           fFromMe := rFrom.fFromMe }
              else rTo))
        w

/-- CWallet::AddToSpends for one outpoint: record the spend, then sync
metadata across the now-extended range. -/
def addToSpendsOutpoint (w : CWallet) (o : OutPoint) (wtxid : Hash) : CWallet :=
  syncMetaData { w with mapTxSpends := w.mapTxSpends ++ [(o, wtxid)] } o

/-- CWallet::AddToSpends(wtxid) (wallet.cpp 686-695); the source asserts
the record exists, which AddToWallet guarantees by inserting first, so
the untracked case (unreachable from `addToWallet`) is a no-op here. -/
def addToSpends (w : CWallet) (wtxid : Hash) : CWallet :=
  match lookupTx w wtxid with
  | none => w
  | some thisTx =>
    if thisTx.tx.isCoinBase ∨ thisTx.tx.isZerocoinSpend then w
    else thisTx.tx.vin.foldl (fun acc txin => addToSpendsOutpoint acc txin.prevout wtxid) w

/-- The smart time of a wtxOrdered entry (wallet.cpp 4079-4084): the
record's nTimeSmart, or its nTimeReceived when that is zero. -/
def smartTimeOfEntry (w : CWallet) (h : Hash) : Option Int :=
  match lookupTx w h with
  | none => none
  | some r => some (if r.nTimeSmart ≠ 0 then r.nTimeSmart else r.nTimeReceived)

/-- The descending scan of wtxOrdered in ComputeTimeSmart (wallet.cpp
4072-4096): the first entry other than the new transaction itself whose
smart time is within tolerance. -/
def ctsScan (w : CWallet) (selfTxid : Hash) (latestTolerated : Int) :
    List (Int × Hash) → Option Int
  | [] => none
  | (_, h) :: rest =>
    if h = selfTxid then ctsScan w selfTxid latestTolerated rest
    else
      match smartTimeOfEntry w h with
      | none => ctsScan w selfTxid latestTolerated rest
      | some t => if t ≤ latestTolerated then some t else ctsScan w selfTxid latestTolerated rest

/-- CWallet::ComputeTimeSmart (wallet.cpp 4062-4106): clamp a confirmed
transaction's apparent time between the latest tolerated recorded smart
time and min(block time, first-seen time); unconfirmed transactions keep
their first-seen time.  wtxOrdered is kept ascending by nOrderPos, so
the reverse is the descending iteration of the source. -/
def computeTimeSmart (env : Env) (w : CWallet) (selfTxid : Hash) (r : CWalletTx) : Int :=
  if ¬hashUnset r.hashBlock then
    if env.inBlockIndex r.hashBlock then
      let latestTolerated := r.nTimeReceived + 300
      let found := ctsScan w selfTxid latestTolerated w.wtxOrdered.reverse
      let latestEntry := match found with
        | none => 0
        | some t => t
      let latestNow := match found with
        | none => r.nTimeReceived
        | some t => max r.nTimeReceived t
      max latestEntry (min (env.blockTime r.hashBlock) latestNow)
    else r.nTimeReceived
  else r.nTimeReceived

/-- The field-merge sequence of AddToWallet for an already-tracked
transaction (wallet.cpp 1012-1045): merge block reference, position,
from-me flag and a witness-bearing transaction body, each condition
reading the record as mutated by the previous ones; returns the merged
record and fUpdated. -/
def mergeWtx (wtxIn wtxOld : CWalletTx) : CWalletTx × Bool :=
  let st1 :=
    if ¬hashUnset wtxIn.hashBlock ∧ wtxIn.hashBlock ≠ wtxOld.hashBlock then
      ({ wtxOld with hashBlock := wtxIn.hashBlock }, true)
    else (wtxOld, false)
  let st2 :=
    if wtxIn.hashBlock = nullHash ∧ isAbandoned st1.1 then
      ({ st1.1 with hashBlock := wtxIn.hashBlock }, true)
    else st1
  let st3 :=
    if wtxIn.nIndex ≠ -1 ∧ wtxIn.nIndex ≠ st2.1.nIndex then
      ({ st2.1 with nIndex := wtxIn.nIndex }, true)
    else st2
  let st4 :=
    if wtxIn.fFromMe = true ∧ wtxIn.fFromMe ≠ st3.1.fFromMe then
      ({ st3.1 with fFromMe := wtxIn.fFromMe }, true)
    else st3
  if wtxIn.tx.hasWitness ∧ ¬st4.1.tx.hasWitness then
    ({ st4.1 with tx := wtxIn.tx }, true)
  else st4

/-- The fInsertedNew branch of AddToWallet (wallet.cpp 1002-1009 with
the shared tail 1050-1070): stamp receive time, assign the next
insertion order, index the ordered-transaction map, compute the smart
time and index every input as a spend.  A failing database write returns
false after the map mutation but before MarkDirty, exactly as the early
return of the source does; otherwise the record's caches are invalidated
unconditionally. -/
def addToWalletInsert (env : Env) (w : CWallet) (wtxIn : CWalletTx) : Bool × CWallet :=
  let hash := wtxIn.tx.txid
  let wtx0 := { wtxIn with nTimeReceived := env.adjustedTime, nOrderPos := w.nOrderPosNext }
  let w1 : CWallet :=
    { mapWallet := w.mapWallet ++ [(hash, wtx0)]
      mapTxSpends := w.mapTxSpends
      wtxOrdered := w.wtxOrdered ++ [(wtx0.nOrderPos, hash)]
      nOrderPosNext := w.nOrderPosNext + 1 }
  let smart := computeTimeSmart env w1 hash wtx0
  let w2 := updateTx w1 hash (fun r => { r with nTimeSmart := smart })
  let w3 := addToSpends w2 hash
  if ¬env.dbWriteOk then (false, w3)
  else (true, updateTx w3 hash markDirtyOne)

/-- The merge branch of AddToWallet (wallet.cpp 1012-1045 with the
shared tail 1050-1070). -/
def addToWalletUpdate (env : Env) (w : CWallet) (wtxIn wtxOld : CWalletTx) : Bool × CWallet :=
  let hash := wtxIn.tx.txid
  let st5 := mergeWtx wtxIn wtxOld
  let w1 := updateTx w hash (fun _ => st5.1)
  if st5.2 ∧ ¬env.dbWriteOk then (false, w1)
  else (true, updateTx w1 hash markDirtyOne)

/-- CWallet::AddToWallet (wallet.cpp 989-1071): insert a newly observed
transaction or merge observable fields into the existing record. -/
def addToWallet (env : Env) (w : CWallet) (wtxIn : CWalletTx) : Bool × CWallet :=
  match lookupTx w wtxIn.tx.txid with
  | none => addToWalletInsert env w wtxIn
  | some wtxOld => addToWalletUpdate env w wtxIn wtxOld

/-! ## Balance view: IsTrusted (wallet.cpp 2052-2081) and GetBalance
(wallet.cpp 2151-2165) -/

/-- CWallet::GetDebit(txin, filter) (wallet.cpp 1415-1429). -/
def getDebitIn (env : Env) (w : CWallet) (txin : CTxIn) (filterMask : Nat) : Amount :=
  match lookupTx w txin.prevout.txhash with
  | none => 0
  | some prev =>
    match prev.tx.vout.get? txin.prevout.n with
    | none => 0
    | some out => if env.isMine out.scriptPubKey &&& filterMask ≠ 0 then out.nValue else 0

/-- CWallet::GetDebit(tx, filter) (wallet.cpp 1485). -/
def getDebitTx (env : Env) (w : CWallet) (t : CTransaction) (filterMask : Nat) : Amount :=
  (t.vin.map (fun txin => getDebitIn env w txin filterMask)).sum

/-- CWalletTx::GetDebit(filter) (wallet.cpp 1887-1916): the per-filter
cached debit, reading through the spendable and watch-only caches. -/
def getDebitCached (env : Env) (w : CWallet) (r : CWalletTx) (filterMask : Nat) : Amount :=
  if r.tx.vin.isEmpty then 0
  else
    (if filterMask &&& ISMINE_SPENDABLE ≠ 0 then
      match r.cDebit with
      | some v => v
      | none => getDebitTx env w r.tx ISMINE_SPENDABLE
     else 0) +
    (if filterMask &&& ISMINE_WATCH_ONLY ≠ 0 then
      match r.cWatchDebit with
      | some v => v
      | none => getDebitTx env w r.tx ISMINE_WATCH_ONLY
     else 0)

/-- Modelled from the spec: CWalletTx::IsFromMe(filter) (wallet.h, not
among the sources) returns GetDebit(filter) > 0, per the IsTrusted
comment "using wtx's cached debit". -/
def isFromMeTx (env : Env) (w : CWallet) (r : CWalletTx) : Bool :=
  0 < getDebitCached env w r ISMINE_ALL

/-- CWalletTx::IsTrusted (wallet.cpp 2052-2081).  The unchecked
`parent->tx->vout[prevout.n]` access of the source is undefined
behaviour out of range; the model returns untrusted there. -/
def isTrusted (env : Env) (w : CWallet) (r : CWalletTx) : Bool :=
  if ¬env.checkFinalTx r.tx.txid then false
  else
    let nDepth := getDepthInMainChain env r
    if 1 ≤ nDepth then true
    else if nDepth < 0 then false
    else if ¬env.spendZeroConfChange ∨ ¬isFromMeTx env w r then false
    else if ¬r.fInMempool then false
    else
      r.tx.vin.all (fun txin =>
        match lookupTx w txin.prevout.txhash with
        | none => false
        | some parent =>
          match parent.tx.vout.get? txin.prevout.n with
          | none => false
          | some out => env.isMine out.scriptPubKey = ISMINE_SPENDABLE)

/-- CWallet::IsSpent (wallet.cpp 657-674): some indexed spender of the
outpoint is tracked and is either confirmed or unconfirmed-but-not-
abandoned. -/
def isSpent (env : Env) (w : CWallet) (h : Hash) (n : Nat) : Bool :=
  (spendersOf w { txhash := h, n := n }).any (fun wtxid =>
    match lookupTx w wtxid with
    | none => false
    | some r =>
      let d := getDepthInMainChain env r
      0 < d ∨ (d = 0 ∧ ¬isAbandoned r))

/-- CWallet::GetCredit(txout, filter) (wallet.cpp 1436-1441). -/
def getCredit (env : Env) (out : CTxOut) (filterMask : Nat) : Amount :=
  if env.isMine out.scriptPubKey &&& filterMask ≠ 0 then out.nValue else 0

/-- Modelled from the spec: COINBASE_MATURITY (consensus parameters are
not among the sources); immature coinbase credit is excluded until a
maturity depth of 100 is reached. -/
def COINBASE_MATURITY : Int := 100

/-- CMerkleTx::GetBlocksToMaturity (wallet.cpp 4454-4459). -/
def getBlocksToMaturity (env : Env) (r : CWalletTx) : Int :=
  if ¬r.tx.isCoinBase then 0
  else max 0 (COINBASE_MATURITY + 1 - getDepthInMainChain env r)

/-- CWalletTx::GetAvailableCredit (wallet.cpp 1965-1993), at the default
fUseCache = true: zero for immature coinbases, else the cached value if
present, else the spendable credit of the still-unspent outputs. -/
def getAvailableCredit (env : Env) (w : CWallet) (r : CWalletTx) : Amount :=
  if r.tx.isCoinBase ∧ 0 < getBlocksToMaturity env r then 0
  else
    match r.cAvailCredit with
    | some v => v
    | none =>
      (r.tx.vout.enum.map (fun p =>
        if ¬isSpent env w r.tx.txid p.1 then getCredit env p.2 ISMINE_SPENDABLE else 0)).sum

/-- CWallet::GetBalance (wallet.cpp 2151-2165): sum the available credit
of every trusted record. -/
def getBalance (env : Env) (w : CWallet) : Amount :=
  w.mapWallet.foldl
    (fun acc p => if isTrusted env w p.2 then acc + getAvailableCredit env w p.2 else acc) 0

/-! ## The trust predicate as worded by the specification

Used only to compare the specification sentence against the code; the
recursion over ancestors is bounded by explicit fuel (the sentence
quantifies over all ancestors, which need not terminate on a cyclic
wallet, so any comparison instance supplies fuel exceeding the ancestor
depth). -/

/-- The specification's "this input is self-originated": the parent is a
tracked wallet transaction whose spent output belongs to the wallet. -/
def specSelfOriginated (env : Env) (w : CWallet) (txin : CTxIn) : Bool :=
  match lookupTx w txin.prevout.txhash with
  | none => false
  | some parent =>
    match parent.tx.vout.get? txin.prevout.n with
    | none => false
    | some out => env.isMine out.scriptPubKey = ISMINE_SPENDABLE

/-- The specification's "every one of its ancestors, recursively, is
self-originated and in the mempool". -/
def specAncestorsOk (env : Env) (w : CWallet) : Nat → CWalletTx → Bool
  | 0, _ => false
  | fuel + 1, r =>
    r.tx.vin.all (fun txin =>
      match lookupTx w txin.prevout.txhash with
      | none => false
      | some parent =>
        parent.fInMempool && parent.tx.vin.all (specSelfOriginated env w) &&
          (parent.tx.vin.isEmpty || specAncestorsOk env w fuel parent))

/-- The trust predicate exactly as the claim words it: finality, and
depth ≥ 1 or (depth 0, all inputs self-originated, present in the
mempool, and all ancestors recursively self-originated and in the
mempool). -/
def specTrustedClaim (env : Env) (w : CWallet) (fuel : Nat) (r : CWalletTx) : Bool :=
  env.checkFinalTx r.tx.txid &&
    (decide (1 ≤ getDepthInMainChain env r) ||
      (decide (getDepthInMainChain env r = 0) &&
        r.tx.vin.all (specSelfOriginated env w) && r.fInMempool &&
        specAncestorsOk env w fuel r))

/-! ## Auxiliary notions used by theorem statements -/

/-- The conflict depth MarkConflicted computes for a block
(wallet.cpp 1249-1255). -/
def ccOf (env : Env) (hashBlock : Hash) : Int :=
  match env.blockHeightActive hashBlock with
  | some h => -(env.tipHeight - h + 1)
  | none => 0

/-- Conflict-propagation reachability: the transactions reachable from
the root by repeatedly stepping to spenders, where every transaction on
the path (the root included) has recorded confirmation state shallower
than the conflict depth `cc`.  Depths are read from the pre-call wallet
`w`; one MarkConflicted call marks exactly along such paths. -/
inductive ConflictReach (env : Env) (w : CWallet) (cc : Int) (root : Hash) : Hash → Prop
  | root (r : CWalletTx) : lookupTx w root = some r →
      cc < getDepthInMainChain env r → ConflictReach env w cc root root
  | step (t s : Hash) (r : CWalletTx) : ConflictReach env w cc root t →
      s ∈ spendersOfTx w t → lookupTx w s = some r →
      cc < getDepthInMainChain env r → ConflictReach env w cc root s

/-- Project the final wallet out of a LedgerRes. -/
def resWallet : LedgerRes → Option CWallet
  | LedgerRes.ok w => some w
  | _ => none

/-- The confirmation-determining fields of a record: the recorded block
hash and the in-block position.  getDepthInMainChain reads nothing else
of the record, and marking a record conflicted sets exactly these. -/
def dfields (r : CWalletTx) : Hash × Int := (r.hashBlock, r.nIndex)

/-- A transaction whose pre-call record is strictly shallower than the
conflict depth `cc`: MarkConflicted re-marks exactly such records. -/
def hotTx (env : Env) (cc : Int) (w : CWallet) (x : Hash) : Prop :=
  ∃ r, lookupTx w x = some r ∧ cc < getDepthInMainChain env r

/-- nSubtractFeeFromAmount: the number of fee-subtracting recipients. -/
def nSubOf (vecSend : List CRecipient) : Nat :=
  (vecSend.filter (fun r => r.fSubtractFeeFromAmount)).length

/-- nValue of CreateTransaction: the total recipient amount. -/
def sendTotal (vecSend : List CRecipient) : Amount :=
  (vecSend.map (fun r => r.nAmount)).sum

/-- Invariant of the fee-loop state: the running nValueIn is the sum of
the selected coins and, once inputs are locked (pick_new_inputs false),
the retained selection still covers the next iteration's target. -/
def buildInv (vecSend : List CRecipient) (s : BuildLoopState) : Prop :=
  s.nValueIn = sumValues s.setCoins ∧
    (s.pickNewInputs = false →
      sendTotal vecSend + (if nSubOf vecSend = 0 then s.nFeeRet else 0) ≤ s.nValueIn)

/-- The candidates of SelectCoinsMinConf surviving the
spendability/depth/ancestor filter (wallet.cpp 2566-2577). -/
def passesFilters (nConfMine nConfTheirs : Int) (o : COutput) : Bool :=
  o.fSpendable && !(o.nDepth < (if o.fromMeAll then nConfMine else nConfTheirs)) &&
    o.withinChainLimit

def filteredCoins (nConfMine nConfTheirs : Int) (vCoins : List COutput) : List CInputCoin :=
  (vCoins.filter (passesFilters nConfMine nConfTheirs)).map
    (fun o => { outpoint := o.outpoint, nValue := o.nValue })

/-- The "small" class of the classification loop: filtered coins below
target + MIN_CHANGE. -/
def smallCoins (nTargetValue : Amount) (l : List CInputCoin) : List CInputCoin :=
  l.filter (fun c => c.nValue < nTargetValue + MIN_CHANGE)

/-- The complementary class feeding coinLowestLarger. -/
def largeCoins (nTargetValue : Amount) (l : List CInputCoin) : List CInputCoin :=
  l.filter (fun c => nTargetValue + MIN_CHANGE ≤ c.nValue)

/-- The coinLowestLarger accumulation of the classification loop, as a
fold. -/
def lowestLargerFold (acc : Option CInputCoin) (l : List CInputCoin) : Option CInputCoin :=
  l.foldl
    (fun a c =>
      match a with
      | none => some c
      | some b => if c.nValue < b.nValue then some c else a)
    acc

/-- A random stream determined by its first three bits. -/
def rndOf (b0 b1 b2 : Bool) : Nat → Bool :=
  fun n => if n = 0 then b0 else if n = 1 then b1 else b2

/-- The adversarial stream (true, false, false) repeated: in every
repetition of the subset-sum search over three coins, only the first
coin is offered in the random pass. -/
def rndAdv : Nat → Bool := fun n => n % 3 == 0

/-! ## Concrete instances used by witnesses and counterexamples -/

/-- A constant random stream. -/
def rndF : Nat → Bool := fun _ => false

/-- A plain spendable selector candidate of the given value. -/
def mkOut (h : Hash) (v : Amount) : COutput :=
  { outpoint := { txhash := h, n := 0 }, nValue := v, nDepth := 10,
    fSpendable := true, fromMeAll := false, withinChainLimit := true }

/-- A transaction with the given id, inputs and outputs and no special
flags. -/
def mkTx (id : Hash) (vin : List OutPoint) (vout : List Amount) : CTransaction :=
  { txid := id, vin := vin.map (fun o => { prevout := o, scriptSig := 0 }),
    vout := vout.map (fun v => { nValue := v, scriptPubKey := 1 }),
    hasWitness := false, isCoinBase := false, isZerocoinSpend := false }

/-- A fresh unconfirmed record for a transaction. -/
def mkRec (t : CTransaction) : CWalletTx :=
  { tx := t, hashBlock := 0, nIndex := 0, nOrderPos := 0, nTimeReceived := 0,
    nTimeSmart := 0, fFromMe := false, fInMempool := false, meta := 0,
    cDebit := none, cWatchDebit := none, cAvailCredit := none }

/-- A base chain environment: empty chain, everything final, zero-conf
spending enabled, nothing owned, database writes succeed. -/
def cEnv : Env :=
  { blockHeightActive := fun _ => none, tipHeight := 0, inBlockIndex := fun _ => false,
    blockTime := fun _ => 0, checkFinalTx := fun _ => true, spendZeroConfChange := true,
    isMine := fun _ => 0, adjustedTime := 0, dbWriteOk := true }

/-- C5 instance: a single in-mempool record with id 5. -/
def w5 : CWallet :=
  { mapWallet := [(5, { mkRec (mkTx 5 [] [7]) with fInMempool := true })],
    mapTxSpends := [], wtxOrdered := [(0, 5)], nOrderPosNext := 1 }

/-- C3 instance: transactions 10 and 11 both spend outpoint (7,0). -/
def w3 : CWallet :=
  { mapWallet := [(10, mkRec (mkTx 10 [{ txhash := 7, n := 0 }] [])),
                  (11, mkRec (mkTx 11 [{ txhash := 7, n := 0 }] []))],
    mapTxSpends := [({ txhash := 7, n := 0 }, 10), ({ txhash := 7, n := 0 }, 11)],
    wtxOrdered := [], nOrderPosNext := 0 }

/-- C4 chain: block 100 sits at the tip (height 99), block 200 at
height 95. -/
def env4 : Env :=
  { cEnv with
    tipHeight := 99
    blockHeightActive := fun h =>
      if h = 100 then some 99 else if h = 200 then some 95 else none }

/-- C4 instance: 2 spends output (1,0) of 1 and is already conflicted
five deep (block 200); 3 spends output (2,0) of 2 and is fresh. -/
def w4 : CWallet :=
  { mapWallet := [(1, mkRec (mkTx 1 [] [50])),
                  (2, { mkRec (mkTx 2 [{ txhash := 1, n := 0 }] [49]) with
                        hashBlock := 200, nIndex := -1 }),
                  (3, mkRec (mkTx 3 [{ txhash := 2, n := 0 }] []))],
    mapTxSpends := [({ txhash := 1, n := 0 }, 2), ({ txhash := 2, n := 0 }, 3)],
    wtxOrdered := [], nOrderPosNext := 0 }

/-- The wallet MarkConflicted produces on the C4 instance. -/
def w4marked : CWallet :=
  match markConflicted env4 w4 100 1 with
  | LedgerRes.ok w => w
  | _ => w4

/-- C9 instance: a record observed once. -/
def wtx9 : CWalletTx := mkRec (mkTx 9 [{ txhash := 8, n := 0 }] [3])

/-- C2 instance: 20 is an in-mempool, from-me transaction whose only
input spends the wallet-owned output (21,0); its parent 21 is tracked
but *not* in the mempool, and 21 itself spends an outpoint whose parent
the wallet does not know. -/
def env2 : Env := { cEnv with isMine := fun s => if s = 1 then ISMINE_SPENDABLE else 0 }

def w2 : CWallet :=
  { mapWallet := [(20, { mkRec (mkTx 20 [{ txhash := 21, n := 0 }] [4]) with
                          fInMempool := true }),
                  (21, mkRec (mkTx 21 [{ txhash := 22, n := 0 }] [5]))],
    mapTxSpends := [({ txhash := 21, n := 0 }, 20), ({ txhash := 22, n := 0 }, 21)],
    wtxOrdered := [], nOrderPosNext := 0 }

def rec20 : CWalletTx := { mkRec (mkTx 20 [{ txhash := 21, n := 0 }] [4]) with fInMempool := true }

/-- C1 instance: free transactions, one plain recipient of 50, a single
candidate coin of 60, change threshold 1. -/
def envB : BuildEnv :=
  { dustThresholdRelay := fun _ => 1
    dustThresholdChange := fun _ => 1
    discardThreshold := fun _ => 0
    getMinimumFee := fun _ => 0
    minRelayFee := fun _ => 0
    txSize := fun _ _ => 100
    selectCoins := fun t =>
      if t ≤ 60 then some [{ outpoint := { txhash := 30, n := 0 }, nValue := 60 }] else none
    randInt := fun _ => 0
    changeScript := 7
    changeDestSet := true
    keypoolOk := true
    changePrototypeSize := 10
    dummySignOk := true
    signRequested := false
    signOk := true
    withinWeightLimit := true
    rejectLongChains := false
    chainLimitOk := true }

def recB : CRecipient := { scriptPubKey := 5, nAmount := 50, fSubtractFeeFromAmount := false }

/-- The result CreateTransaction produces on the C1 instance. -/
def rB : BuildResult :=
  match createTransaction envB [recB] false (-1) 5 with
  | some r => r
  | none => { vout := [], setCoins := [], nValueIn := 0, nFeeRet := 0, nChangePosInOut := 0 }

/-- C8 instance: one fee-subtracting recipient of 1000, a single coin of
1010, change-dust threshold 50, so the candidate change 10 is dust. -/
def env8 : BuildEnv :=
  { dustThresholdRelay := fun _ => 1
    dustThresholdChange := fun _ => 50
    discardThreshold := fun _ => 0
    getMinimumFee := fun _ => 0
    minRelayFee := fun _ => 0
    txSize := fun _ _ => 100
    selectCoins := fun t =>
      if t ≤ 1010 then some [{ outpoint := { txhash := 31, n := 0 }, nValue := 1010 }] else none
    randInt := fun _ => 0
    changeScript := 7
    changeDestSet := true
    keypoolOk := true
    changePrototypeSize := 10
    dummySignOk := true
    signRequested := false
    signOk := true
    withinWeightLimit := true
    rejectLongChains := false
    chainLimitOk := true }

def rec8 : CRecipient := { scriptPubKey := 5, nAmount := 1000, fSubtractFeeFromAmount := true }

/-- The result CreateTransaction produces on the C8 instance. -/
def r8 : BuildResult :=
  match createTransaction env8 [rec8] false (-1) 10 with
  | some r => r
  | none => { vout := [], setCoins := [], nValueIn := 0, nFeeRet := 0, nChangePosInOut := 0 }

/-! # Theorems -/

/-! ## Shared lemmas -/

theorem mem_insSorted {a x : Nat} : ∀ {l : List Nat}, a ∈ insSorted x l ↔ a = x ∨ a ∈ l := by
  intro l
  induction l with
  | nil => simp [insSorted]
  | cons y rest ih =>
    by_cases h1 : x < y
    · simp [insSorted, h1]
    · by_cases h2 : x = y
      · subst h2; simp [insSorted, h1]
      · simp only [insSorted, if_neg h1, if_neg h2, List.mem_cons, ih]
        tauto

theorem mem_foldl_insSorted {t : Nat} :
    ∀ (hs : List Nat) (acc : List Nat),
      t ∈ hs.foldl (fun a h => insSorted h a) acc ↔ t ∈ hs ∨ t ∈ acc := by
  intro hs
  induction hs with
  | nil => intro acc; simp
  | cons h rest ih =>
    intro acc
    simp only [List.foldl_cons, ih, mem_insSorted, List.mem_cons]
    tauto

theorem finishSelection_fst (nT : Amount) (st : ClassifyState) (r1 r2 : Nat → Bool) :
    (finishSelection nT st r1 r2).1 = true := by
  unfold finishSelection
  rcases hll : st.coinLowestLarger with _ | c
  · simp [hll]
  · simp only [hll]
    split <;> simp_all

/-! ## C10: a failed SelectCoinsMinConf tier returns the empty selection -/

/-- C10: SelectCoinsMinConf clears its result parameters at entry, so
whenever it returns failure the returned selection is empty and the
returned value is 0. -/
theorem selectCoinsMinConf_failure_empty (nT : Amount) (cm ct : Int) (vCoins : List COutput)
    (rnd1 rnd2 : Nat → Bool)
    (hfail : (selectCoinsMinConf nT cm ct vCoins rnd1 rnd2).1 = false) :
    (selectCoinsMinConf nT cm ct vCoins rnd1 rnd2).2.1 = [] ∧
      (selectCoinsMinConf nT cm ct vCoins rnd1 rnd2).2.2 = 0 := by
  unfold selectCoinsMinConf at hfail ⊢
  rcases hc : classifyCoins nT cm ct vCoins { coinLowestLarger := none, vValue := [], nTotalLower := 0 }
    with coin | st
  · rw [hc] at hfail
    simp at hfail
  · rw [hc] at hfail
    dsimp only at hfail ⊢
    by_cases h1 : st.nTotalLower = nT
    · simp [h1] at hfail
    · by_cases h2 : st.nTotalLower < nT
      · rcases hll : st.coinLowestLarger with _ | c
        · simp [h1, h2, hll]
        · simp [h1, h2, hll] at hfail
      · simp only [if_neg h1, if_neg h2] at hfail
        rw [finishSelection_fst] at hfail
        simp at hfail

/-- C10 witness: candidates {1, 2} with target 10 fail and return the
cleared out-parameters. -/
theorem selectCoinsMinConf_failure_empty_witness :
    (selectCoinsMinConf 10 1 1 [mkOut 1 1, mkOut 2 2] rndF rndF).1 = false ∧
      (selectCoinsMinConf 10 1 1 [mkOut 1 1, mkOut 2 2] rndF rndF).2.1 = [] ∧
      (selectCoinsMinConf 10 1 1 [mkOut 1 1, mkOut 2 2] rndF rndF).2.2 = 0 :=
  ⟨by decide, selectCoinsMinConf_failure_empty 10 1 1 [mkOut 1 1, mkOut 2 2] rndF rndF (by decide)⟩

/-! ## C5: abandon refuses confirmed or mempool transactions without
mutating anything -/

/-- C5: AbandonTransaction on a tracked transaction with positive
confirmation depth or present in the mempool returns false and leaves
the wallet state untouched. -/
theorem abandonTransaction_precondition (env : Env) (w : CWallet) (h : Hash) (r : CWalletTx)
    (hl : lookupTx w h = some r)
    (hpre : 0 < getDepthInMainChain env r ∨ r.fInMempool = true) :
    abandonTransaction env w h = AbandonRes.ok false w := by
  unfold abandonTransaction
  rw [hl]
  simp only []
  rw [if_pos]
  rcases hpre with h1 | h1
  · exact Or.inl h1
  · exact Or.inr h1

/-- C5 witness: abandoning the in-mempool transaction 5 fails and
returns the wallet unchanged. -/
theorem abandonTransaction_precondition_witness :
    abandonTransaction cEnv w5 5 = AbandonRes.ok false w5 :=
  abandonTransaction_precondition cEnv w5 5
    { mkRec (mkTx 5 [] [7]) with fInMempool := true } (by decide) (Or.inr (by decide))

/-! ## C3: what GetConflicts returns -/

theorem mem_gcFold (w : CWallet) (t : Hash) :
    ∀ (vin : List CTxIn) (acc : List Hash),
      t ∈ vin.foldl
          (fun acc txin =>
            if countSpends w txin.prevout ≤ 1 then acc
            else (spendersOf w txin.prevout).foldl (fun a h => insSorted h a) acc)
          acc ↔
        (∃ txin ∈ vin, 2 ≤ countSpends w txin.prevout ∧ t ∈ spendersOf w txin.prevout) ∨
          t ∈ acc := by
  intro vin
  induction vin with
  | nil => intro acc; simp
  | cons txin rest ih =>
    intro acc
    by_cases hc : countSpends w txin.prevout ≤ 1
    · have hc2 : ¬ 2 ≤ countSpends w txin.prevout := by omega
      simp only [List.foldl_cons, if_pos hc, ih, List.mem_cons]
      constructor
      · rintro (⟨i, hi, h2⟩ | h2)
        · exact Or.inl ⟨i, Or.inr hi, h2⟩
        · exact Or.inr h2
      · rintro (⟨i, hi | hi, h2⟩ | h2)
        · subst hi; exact absurd h2.1 hc2
        · exact Or.inl ⟨i, hi, h2⟩
        · exact Or.inr h2
    · have hc2 : 2 ≤ countSpends w txin.prevout := by omega
      simp only [List.foldl_cons, if_neg hc, ih, mem_foldl_insSorted, List.mem_cons]
      constructor
      · rintro (⟨i, hi, h2⟩ | h2 | h2)
        · exact Or.inl ⟨i, Or.inr hi, h2⟩
        · exact Or.inl ⟨txin, Or.inl rfl, hc2, h2⟩
        · exact Or.inr h2
      · rintro (⟨i, hi | hi, h2⟩ | h2)
        · subst hi; exact Or.inr (Or.inl h2.2)
        · exact Or.inl ⟨i, hi, h2⟩
        · exact Or.inr (Or.inr h2)

/-- C3 amended: GetConflicts(txid) contains exactly the spenders —
the queried transaction itself included — of every outpoint that some
input of txid spends and that has at least two indexed spenders. -/
theorem getConflicts_mem (w : CWallet) (txid t : Hash) :
    t ∈ getConflicts w txid ↔
      ∃ r, lookupTx w txid = some r ∧
        ∃ txin ∈ r.tx.vin, 2 ≤ countSpends w txin.prevout ∧ t ∈ spendersOf w txin.prevout := by
  unfold getConflicts
  rcases hl : lookupTx w txid with _ | r
  · simp
  · rw [mem_gcFold]
    simp

/-- C3 counterexample: transactions 10 and 11 both spend outpoint
(7,0); GetConflicts(10) contains the queried transaction 10 itself,
refuting "the returned set never contains the queried transaction id". -/
theorem getConflicts_contains_self :
    10 ∈ getConflicts w3 10 ∧ 11 ∈ getConflicts w3 10 := by decide

/-! ## C6/C7: lemmas about the classification loop of SelectCoinsMinConf -/

theorem filteredCoins_cons (cm ct : Int) (o : COutput) (rest : List COutput) :
    filteredCoins cm ct (o :: rest) =
      if passesFilters cm ct o then
        { outpoint := o.outpoint, nValue := o.nValue } :: filteredCoins cm ct rest
      else filteredCoins cm ct rest := by
  by_cases hp : passesFilters cm ct o
  · simp [filteredCoins, List.filter_cons, hp]
  · simp [filteredCoins, List.filter_cons, hp]

theorem lowestLargerFold_eq_none :
    ∀ (l : List CInputCoin) (acc : Option CInputCoin),
      lowestLargerFold acc l = none → acc = none ∧ l = [] := by
  intro l
  induction l with
  | nil => intro acc h; exact ⟨h, rfl⟩
  | cons c rest ih =>
    intro acc h
    exfalso
    rcases acc with _ | b
    · simp only [lowestLargerFold, List.foldl_cons] at h
      have h2 := (ih (some c) h).1
      simp at h2
    · by_cases hlt : c.nValue < b.nValue
      · simp only [lowestLargerFold, List.foldl_cons, if_pos hlt] at h
        have h2 := (ih (some c) h).1
        simp at h2
      · simp only [lowestLargerFold, List.foldl_cons, if_neg hlt] at h
        have h2 := (ih (some b) h).1
        simp at h2

theorem lowestLargerFold_spec :
    ∀ (l : List CInputCoin) (acc : Option CInputCoin) (c : CInputCoin),
      lowestLargerFold acc l = some c →
        (c ∈ l ∨ acc = some c) ∧ (∀ d ∈ l, c.nValue ≤ d.nValue) ∧
          (∀ b, acc = some b → c.nValue ≤ b.nValue) := by
  intro l
  induction l with
  | nil =>
    intro acc c h
    refine ⟨Or.inr h, by simp, ?_⟩
    intro b hb
    rw [hb] at h
    cases h
    exact le_refl _
  | cons hd rest ih =>
    intro acc c h
    rcases acc with _ | b0
    · simp only [lowestLargerFold, List.foldl_cons] at h
      obtain ⟨hmem, hle, hacc⟩ := ih (some hd) c h
      have hhd : c.nValue ≤ hd.nValue := hacc hd rfl
      refine ⟨?_, ?_, ?_⟩
      · rcases hmem with hm | hm
        · exact Or.inl (List.mem_cons_of_mem _ hm)
        · injection hm with hm2
          exact Or.inl (by rw [hm2]; exact List.mem_cons_self _ _)
      · intro d hd2
        rcases List.mem_cons.mp hd2 with h3 | h3
        · rw [h3]; exact hhd
        · exact hle d h3
      · intro b hb
        exact absurd hb (by simp)
    · by_cases hlt : hd.nValue < b0.nValue
      · simp only [lowestLargerFold, List.foldl_cons, if_pos hlt] at h
        obtain ⟨hmem, hle, hacc⟩ := ih (some hd) c h
        have hhd : c.nValue ≤ hd.nValue := hacc hd rfl
        refine ⟨?_, ?_, ?_⟩
        · rcases hmem with hm | hm
          · exact Or.inl (List.mem_cons_of_mem _ hm)
          · injection hm with hm2
            exact Or.inl (by rw [hm2]; exact List.mem_cons_self _ _)
        · intro d hd2
          rcases List.mem_cons.mp hd2 with h3 | h3
          · rw [h3]; exact hhd
          · exact hle d h3
        · intro b hb
          injection hb with hb2
          subst hb2
          exact le_of_lt (lt_of_le_of_lt hhd hlt)
      · simp only [lowestLargerFold, List.foldl_cons, if_neg hlt] at h
        obtain ⟨hmem, hle, hacc⟩ := ih (some b0) c h
        have hb0 : c.nValue ≤ b0.nValue := hacc b0 rfl
        have hhd : c.nValue ≤ hd.nValue := le_trans hb0 (not_lt.mp hlt)
        refine ⟨?_, ?_, ?_⟩
        · rcases hmem with hm | hm
          · exact Or.inl (List.mem_cons_of_mem _ hm)
          · exact Or.inr hm
        · intro d hd2
          rcases List.mem_cons.mp hd2 with h3 | h3
          · rw [h3]; exact hhd
          · exact hle d h3
        · intro b hb
          injection hb with hb2
          subst hb2
          exact hb0

theorem classifyCoins_no_exact (nT : Amount) (cm ct : Int) :
    ∀ (l : List COutput) (st : ClassifyState),
      (∀ c ∈ filteredCoins cm ct l, c.nValue ≠ nT) →
      classifyCoins nT cm ct l st = Sum.inr
        { coinLowestLarger :=
            lowestLargerFold st.coinLowestLarger (largeCoins nT (filteredCoins cm ct l)),
          vValue := st.vValue ++ smallCoins nT (filteredCoins cm ct l),
          nTotalLower := st.nTotalLower + sumValues (smallCoins nT (filteredCoins cm ct l)) } := by
  intro l
  induction l with
  | nil =>
    intro st _
    simp [classifyCoins, filteredCoins, smallCoins, largeCoins, lowestLargerFold, sumValues]
  | cons o rest ih =>
    intro st h
    by_cases hsp : o.fSpendable
    · by_cases hdep : o.nDepth < (if o.fromMeAll then cm else ct)
      · have hpf : passesFilters cm ct o = false := by
          simp [passesFilters, hsp, hdep]
        rw [filteredCoins_cons, if_neg (by simp [hpf])] at h ⊢
        simp only [classifyCoins, hsp, Bool.not_true, Bool.false_eq_true, if_false,
          if_pos hdep]
        exact ih st h
      · by_cases hcl : o.withinChainLimit
        · have hpf : passesFilters cm ct o = true := by
            simp [passesFilters, hsp, hdep, hcl]
          rw [filteredCoins_cons, if_pos (by simp [hpf])] at h ⊢
          have hne : ({ outpoint := o.outpoint, nValue := o.nValue } : CInputCoin).nValue ≠ nT :=
            h _ (List.mem_cons_self _ _)
          have hrest : ∀ c ∈ filteredCoins cm ct rest, c.nValue ≠ nT := by
            intro c hc
            exact h c (List.mem_cons_of_mem _ hc)
          simp only [classifyCoins, hsp, Bool.not_true, Bool.false_eq_true, if_false,
            if_neg hdep, hcl, if_neg (by simp : ¬ (!true : Bool) = true)]
          rw [if_neg hne]
          by_cases hsm : o.nValue < nT + MIN_CHANGE
          · rw [if_pos hsm]
            rw [ih _ hrest]
            have hsmall : smallCoins nT
                (({ outpoint := o.outpoint, nValue := o.nValue } : CInputCoin) ::
                  filteredCoins cm ct rest) =
                { outpoint := o.outpoint, nValue := o.nValue } ::
                  smallCoins nT (filteredCoins cm ct rest) := by
              simp [smallCoins, List.filter_cons, hsm]
            have hlarge : largeCoins nT
                (({ outpoint := o.outpoint, nValue := o.nValue } : CInputCoin) ::
                  filteredCoins cm ct rest) =
                largeCoins nT (filteredCoins cm ct rest) := by
              simp [largeCoins, List.filter_cons, not_le.mpr hsm]
            rw [hsmall, hlarge]
            simp [sumValues, List.append_assoc, add_assoc]
          · rw [if_neg hsm]
            have hsmall : smallCoins nT
                (({ outpoint := o.outpoint, nValue := o.nValue } : CInputCoin) ::
                  filteredCoins cm ct rest) =
                smallCoins nT (filteredCoins cm ct rest) := by
              simp [smallCoins, List.filter_cons, hsm]
            have hlarge : largeCoins nT
                (({ outpoint := o.outpoint, nValue := o.nValue } : CInputCoin) ::
                  filteredCoins cm ct rest) =
                ({ outpoint := o.outpoint, nValue := o.nValue } : CInputCoin) ::
                  largeCoins nT (filteredCoins cm ct rest) := by
              simp [largeCoins, List.filter_cons, not_lt.mp hsm]
            rw [hsmall, hlarge]
            rcases hacc : st.coinLowestLarger with _ | b
            · simp only [hacc]
              rw [ih _ hrest]
              rfl
            · simp only [hacc]
              by_cases hlt : o.nValue < b.nValue
              · rw [if_pos (by simp [hlt])]
                rw [ih _ hrest]
                simp only [lowestLargerFold, List.foldl_cons]
                rw [if_pos hlt]
              · rw [if_neg (by simp [hlt])]
                rw [ih _ hrest]
                simp only [lowestLargerFold, List.foldl_cons]
                rw [if_neg hlt]
                rw [hacc]
        · have hpf : passesFilters cm ct o = false := by
            simp [passesFilters, hcl]
          rw [filteredCoins_cons, if_neg (by simp [hpf])] at h ⊢
          simp only [classifyCoins, hsp, Bool.not_true, Bool.false_eq_true, if_false,
            if_neg hdep, hcl]
          simp only [Bool.not_false, if_true]
          exact ih st h
    · have hpf : passesFilters cm ct o = false := by
        simp [passesFilters, hsp]
      rw [filteredCoins_cons, if_neg (by simp [hpf])] at h ⊢
      have hsp2 : o.fSpendable = false := by
        rcases hb : o.fSpendable
        · rfl
        · exact absurd hb hsp
      simp only [classifyCoins, hsp2, Bool.not_false, if_true]
      exact ih st h

theorem absOneRep_single (c : CInputCoin) (tgt : Amount) (rnd : Nat → Bool) (base : Nat)
    (nB : Amount) (vf : List Bool) (h1 : tgt ≤ c.nValue) (h2 : nB ≤ c.nValue) :
    absOneRep [c] tgt rnd base nB vf = (nB, vf) := by
  have hnlt : ¬ (c.nValue < nB) := not_lt.mpr h2
  cases hr : rnd base <;>
    simp [absOneRep, absPassGo, absCoinStep, hr, h1, hnlt]

theorem absLoop_single (c : CInputCoin) (tgt : Amount) (rnd : Nat → Bool) (vf : List Bool)
    (nB : Amount) (h1 : tgt ≤ c.nValue) (h2 : nB ≤ c.nValue) :
    ∀ (fuel rep : Nat), absLoop [c] tgt rnd fuel rep (nB, vf) = (nB, vf) := by
  intro fuel
  induction fuel with
  | zero => intro _; rfl
  | succ n ih =>
    intro rep
    simp only [absLoop]
    by_cases he : nB = tgt
    · rw [if_pos he]
    · rw [if_neg he]
      rw [absOneRep_single c tgt rnd _ nB vf h1 h2]
      exact ih (rep + 1)

/-! ## C6: the shortfall path of SelectCoinsMinConf -/

/-- C6: when no filtered candidate equals the target and the total of
the coins below target + MIN_CHANGE falls short of the target,
SelectCoinsMinConf returns the single smallest coin larger than the
target when one exists, and otherwise fails with InsufficientFunds
(false with cleared out-parameters); in particular candidates {100} with
target 10 return {100} on every run, and candidates {1, 2} with target
10 fail. -/
theorem selectCoinsMinConf_shortfall :
    (∀ (nT : Amount) (cm ct : Int) (vCoins : List COutput) (rnd1 rnd2 : Nat → Bool),
      (∀ c ∈ filteredCoins cm ct vCoins, 0 ≤ c.nValue) →
      (∀ c ∈ filteredCoins cm ct vCoins, c.nValue ≠ nT) →
      sumValues (smallCoins nT (filteredCoins cm ct vCoins)) < nT →
      ((largeCoins nT (filteredCoins cm ct vCoins) = [] →
          selectCoinsMinConf nT cm ct vCoins rnd1 rnd2 = (false, [], 0)) ∧
        (largeCoins nT (filteredCoins cm ct vCoins) ≠ [] →
          ∃ c, c ∈ filteredCoins cm ct vCoins ∧ nT < c.nValue ∧
            (∀ d ∈ filteredCoins cm ct vCoins, nT < d.nValue → c.nValue ≤ d.nValue) ∧
            selectCoinsMinConf nT cm ct vCoins rnd1 rnd2 = (true, [c], c.nValue)))) ∧
    (∀ rnd1 rnd2 : Nat → Bool,
      selectCoinsMinConf 10 1 1 [mkOut 1 100] rnd1 rnd2 =
        (true, [{ outpoint := { txhash := 1, n := 0 }, nValue := 100 }], 100)) ∧
    (∀ rnd1 rnd2 : Nat → Bool,
      selectCoinsMinConf 10 1 1 [mkOut 1 1, mkOut 2 2] rnd1 rnd2 = (false, [], 0)) := by
  refine ⟨?_, ?_, ?_⟩
  · intro nT cm ct vCoins rnd1 rnd2 h0 h1 h2
    have hcls := classifyCoins_no_exact nT cm ct vCoins
      { coinLowestLarger := none, vValue := [], nTotalLower := 0 } h1
    have hne : ¬ ((0:Amount) + sumValues (smallCoins nT (filteredCoins cm ct vCoins)) = nT) := by
      rw [zero_add]
      exact ne_of_lt h2
    have hlt : (0:Amount) + sumValues (smallCoins nT (filteredCoins cm ct vCoins)) < nT := by
      rwa [zero_add]
    constructor
    · intro hL
      unfold selectCoinsMinConf
      rw [hcls]
      dsimp only
      rw [if_neg hne, if_pos hlt, hL]
      rfl
    · intro hL
      obtain ⟨c, hcfold⟩ : ∃ c,
          lowestLargerFold none (largeCoins nT (filteredCoins cm ct vCoins)) = some c := by
        rcases hf : lowestLargerFold none (largeCoins nT (filteredCoins cm ct vCoins))
          with _ | c
        · exact absurd (lowestLargerFold_eq_none _ _ hf).2 hL
        · exact ⟨c, rfl⟩
      obtain ⟨hmem0, hmin0, _⟩ := lowestLargerFold_spec _ _ _ hcfold
      have hcmem : c ∈ largeCoins nT (filteredCoins cm ct vCoins) := by
        rcases hmem0 with hm | hm
        · exact hm
        · exact absurd hm (by simp)
      have hcF : c ∈ filteredCoins cm ct vCoins ∧ nT + MIN_CHANGE ≤ c.nValue := by
        simpa [largeCoins, List.mem_filter] using hcmem
      have hMC : (0:Amount) < MIN_CHANGE := by norm_num [MIN_CHANGE]
      have hcgt : nT < c.nValue := by
        have h3 := hcF.2
        linarith
      refine ⟨c, hcF.1, hcgt, ?_, ?_⟩
      · intro d hdF hdgt
        by_cases hds : d.nValue < nT + MIN_CHANGE
        · exfalso
          have hdS : d ∈ smallCoins nT (filteredCoins cm ct vCoins) := by
            simp [smallCoins, List.mem_filter, hdF, hds]
          have hsum : d.nValue ≤ sumValues (smallCoins nT (filteredCoins cm ct vCoins)) := by
            have h0S : ∀ x ∈ (smallCoins nT (filteredCoins cm ct vCoins)).map
                (fun e => e.nValue), 0 ≤ x := by
              intro x hx
              obtain ⟨e, he, rfl⟩ := List.mem_map.mp hx
              exact h0 e (List.mem_of_mem_filter he)
            exact List.single_le_sum h0S _ (List.mem_map_of_mem _ hdS)
          linarith
        · have hdL : d ∈ largeCoins nT (filteredCoins cm ct vCoins) := by
            simp [largeCoins, List.mem_filter, hdF, not_lt.mp hds]
          exact hmin0 d hdL
      · unfold selectCoinsMinConf
        rw [hcls]
        dsimp only
        rw [if_neg hne, if_pos hlt, hcfold]
  · intro rnd1 rnd2
    have hcls : classifyCoins 10 1 1 [mkOut 1 100]
        { coinLowestLarger := none, vValue := [], nTotalLower := 0 } =
        Sum.inr { coinLowestLarger := none,
                  vValue := [{ outpoint := { txhash := 1, n := 0 }, nValue := 100 }],
                  nTotalLower := 100 } := by decide
    unfold selectCoinsMinConf
    rw [hcls]
    dsimp only
    rw [if_neg (by norm_num), if_neg (by norm_num)]
    unfold finishSelection
    dsimp only
    have habs : ApproximateBestSubset
        (sortDescByValue [{ outpoint := { txhash := 1, n := 0 }, nValue := 100 }])
        100 10 rnd1 1000 = (100, [true]) := by
      show absLoop [{ outpoint := { txhash := 1, n := 0 }, nValue := 100 }] 10 rnd1 1000 0
        (100, List.replicate 1 true) = (100, [true])
      have := absLoop_single { outpoint := { txhash := 1, n := 0 }, nValue := 100 } 10 rnd1
        [true] 100 (by norm_num) (le_refl _) 1000 0
      simpa using this
    rw [habs]
    rw [if_neg (by norm_num [MIN_CHANGE])]
    rfl
  · intro rnd1 rnd2
    rfl

/-- C6 witness: candidates {1, 2} with target 10 satisfy the shortfall
hypotheses and fail with the cleared out-parameters. -/
theorem selectCoinsMinConf_shortfall_witness :
    selectCoinsMinConf 10 1 1 [mkOut 1 1, mkOut 2 2] rndF rndF = (false, [], 0) :=
  (selectCoinsMinConf_shortfall.1 10 1 1 [mkOut 1 1, mkOut 2 2] rndF rndF
    (by decide) (by decide) (by decide)).1 (by decide)

/-! ## C7: selection on {10, 20, 5} with target 15

The claim asserts exactly {10, 5} is returned on every run.  On a run
whose random pass only ever offers the coin 20, the search records 20,
sets fReachedTarget (skipping the deterministic second pass) and keeps
{20} as the best subset for all 1000 repetitions, so the selector
returns {20}: the claim fails.  What does hold for every run is that
the result is {10, 5} (sum 15) or the single coin {20}. -/

theorem absLoop_succ (vV : List CInputCoin) (t : Amount) (rnd : Nat → Bool)
    (fuel nRep : Nat) (st : Amount × List Bool) :
    absLoop vV t rnd (fuel + 1) nRep st =
      if st.1 = t then st
      else absLoop vV t rnd fuel (nRep + 1)
        (absOneRep vV t rnd (nRep * vV.length) st.1 st.2) := rfl

theorem absPassGo_congr (vV : List CInputCoin) (t : Amount) (fp : Bool)
    (rnd rnd2 : Nat → Bool) (base : Nat) :
    ∀ (fuel i : Nat) (s : ABSRepState),
      (∀ k, k < fuel → rnd (base + (i + k)) = rnd2 (base + (i + k))) →
      absPassGo vV t fp rnd base fuel i s = absPassGo vV t fp rnd2 base fuel i s := by
  intro fuel
  induction fuel with
  | zero => intro i s _; rfl
  | succ n ih =>
    intro i s hk
    simp only [absPassGo]
    have h0 : rnd (base + i) = rnd2 (base + i) := by
      have := hk 0 (Nat.succ_pos n)
      simpa using this
    rw [h0]
    apply ih
    intro k hk2
    have h3 := hk (k + 1) (Nat.succ_lt_succ hk2)
    have e : i + (k + 1) = i + 1 + k := by omega
    rw [e] at h3
    exact h3

theorem absOneRep_congr (vV : List CInputCoin) (t : Amount) (rnd rnd2 : Nat → Bool)
    (base : Nat) (nB : Amount) (vf : List Bool)
    (h : ∀ k, k < vV.length → rnd (base + k) = rnd2 (base + k)) :
    absOneRep vV t rnd base nB vf = absOneRep vV t rnd2 base nB vf := by
  unfold absOneRep
  dsimp only
  rw [absPassGo_congr vV t true rnd rnd2 base vV.length 0 _
    (by intro k hk; simpa using h k hk)]
  rw [absPassGo_congr vV t false rnd rnd2 base vV.length 0 _
    (by intro k hk; simpa using h k hk)]

theorem absOneRep_shift (vV : List CInputCoin) (t : Amount) (rnd : Nat → Bool)
    (base : Nat) (nB : Amount) (vf : List Bool) :
    absOneRep vV t rnd base nB vf = absOneRep vV t (fun n => rnd (base + n)) 0 nB vf := by
  have h : ∀ fuel i s, absPassGo vV t true rnd base fuel i s =
      absPassGo vV t true (fun n => rnd (base + n)) 0 fuel i s := by
    intro fuel
    induction fuel with
    | zero => intro i s; rfl
    | succ n ih =>
      intro i s
      simp only [absPassGo]
      rw [Nat.zero_add]
      exact ih (i + 1) _
  have h2 : ∀ fuel i s, absPassGo vV t false rnd base fuel i s =
      absPassGo vV t false (fun n => rnd (base + n)) 0 fuel i s := by
    intro fuel
    induction fuel with
    | zero => intro i s; rfl
    | succ n ih =>
      intro i s
      simp only [absPassGo]
      exact ih (i + 1) _
  unfold absOneRep
  dsimp only
  rw [h, h2]

theorem absOneRep_c7_init_all : ∀ b0 b1 b2 : Bool,
    absOneRep [{ outpoint := { txhash := 2, n := 0 }, nValue := 20 },
               { outpoint := { txhash := 1, n := 0 }, nValue := 10 },
               { outpoint := { txhash := 3, n := 0 }, nValue := 5 }] 15
        (rndOf b0 b1 b2) 0 35 [true, true, true] = (15, [false, true, true]) ∨
    absOneRep [{ outpoint := { txhash := 2, n := 0 }, nValue := 20 },
               { outpoint := { txhash := 1, n := 0 }, nValue := 10 },
               { outpoint := { txhash := 3, n := 0 }, nValue := 5 }] 15
        (rndOf b0 b1 b2) 0 35 [true, true, true] = (20, [true, false, false]) := by decide

theorem absOneRep_c7_from20_all : ∀ b0 b1 b2 : Bool,
    absOneRep [{ outpoint := { txhash := 2, n := 0 }, nValue := 20 },
               { outpoint := { txhash := 1, n := 0 }, nValue := 10 },
               { outpoint := { txhash := 3, n := 0 }, nValue := 5 }] 15
        (rndOf b0 b1 b2) 0 20 [true, false, false] = (15, [false, true, true]) ∨
    absOneRep [{ outpoint := { txhash := 2, n := 0 }, nValue := 20 },
               { outpoint := { txhash := 1, n := 0 }, nValue := 10 },
               { outpoint := { txhash := 3, n := 0 }, nValue := 5 }] 15
        (rndOf b0 b1 b2) 0 20 [true, false, false] = (20, [true, false, false]) := by decide

theorem absOneRep_c7_to_rndOf (rnd : Nat → Bool) (base : Nat) (nB : Amount) (vf : List Bool) :
    absOneRep [{ outpoint := { txhash := 2, n := 0 }, nValue := 20 },
               { outpoint := { txhash := 1, n := 0 }, nValue := 10 },
               { outpoint := { txhash := 3, n := 0 }, nValue := 5 }] 15 rnd base nB vf =
    absOneRep [{ outpoint := { txhash := 2, n := 0 }, nValue := 20 },
               { outpoint := { txhash := 1, n := 0 }, nValue := 10 },
               { outpoint := { txhash := 3, n := 0 }, nValue := 5 }] 15
      (rndOf (rnd (base + 0)) (rnd (base + 1)) (rnd (base + 2))) 0 nB vf := by
  rw [absOneRep_shift]
  apply absOneRep_congr
  intro k hk
  have hk3 : k < 3 := by simpa using hk
  interval_cases k <;> rfl

theorem absOneRep_c7_init (rnd : Nat → Bool) (base : Nat) :
    absOneRep [{ outpoint := { txhash := 2, n := 0 }, nValue := 20 },
               { outpoint := { txhash := 1, n := 0 }, nValue := 10 },
               { outpoint := { txhash := 3, n := 0 }, nValue := 5 }] 15
        rnd base 35 [true, true, true] = (15, [false, true, true]) ∨
    absOneRep [{ outpoint := { txhash := 2, n := 0 }, nValue := 20 },
               { outpoint := { txhash := 1, n := 0 }, nValue := 10 },
               { outpoint := { txhash := 3, n := 0 }, nValue := 5 }] 15
        rnd base 35 [true, true, true] = (20, [true, false, false]) := by
  rw [absOneRep_c7_to_rndOf]
  exact absOneRep_c7_init_all (rnd (base + 0)) (rnd (base + 1)) (rnd (base + 2))

theorem absOneRep_c7_from20 (rnd : Nat → Bool) (base : Nat) :
    absOneRep [{ outpoint := { txhash := 2, n := 0 }, nValue := 20 },
               { outpoint := { txhash := 1, n := 0 }, nValue := 10 },
               { outpoint := { txhash := 3, n := 0 }, nValue := 5 }] 15
        rnd base 20 [true, false, false] = (15, [false, true, true]) ∨
    absOneRep [{ outpoint := { txhash := 2, n := 0 }, nValue := 20 },
               { outpoint := { txhash := 1, n := 0 }, nValue := 10 },
               { outpoint := { txhash := 3, n := 0 }, nValue := 5 }] 15
        rnd base 20 [true, false, false] = (20, [true, false, false]) := by
  rw [absOneRep_c7_to_rndOf]
  exact absOneRep_c7_from20_all (rnd (base + 0)) (rnd (base + 1)) (rnd (base + 2))

theorem absLoop_c7_inv (rnd : Nat → Bool) :
    ∀ (fuel rep : Nat) (st : Amount × List Bool),
      (st = (15, [false, true, true]) ∨ st = (20, [true, false, false])) →
      (absLoop [{ outpoint := { txhash := 2, n := 0 }, nValue := 20 },
                { outpoint := { txhash := 1, n := 0 }, nValue := 10 },
                { outpoint := { txhash := 3, n := 0 }, nValue := 5 }] 15 rnd fuel rep st =
          (15, [false, true, true]) ∨
        absLoop [{ outpoint := { txhash := 2, n := 0 }, nValue := 20 },
                 { outpoint := { txhash := 1, n := 0 }, nValue := 10 },
                 { outpoint := { txhash := 3, n := 0 }, nValue := 5 }] 15 rnd fuel rep st =
          (20, [true, false, false])) := by
  intro fuel
  induction fuel with
  | zero =>
    intro rep st h
    exact h
  | succ n ih =>
    intro rep st h
    rcases h with rfl | rfl
    · rw [absLoop_succ, if_pos rfl]
      exact Or.inl rfl
    · rw [absLoop_succ, if_neg (by norm_num)]
      rcases absOneRep_c7_from20 rnd (rep * 3) with h2 | h2
      · rw [show (rep * List.length
          [({ outpoint := { txhash := 2, n := 0 }, nValue := 20 } : CInputCoin),
           { outpoint := { txhash := 1, n := 0 }, nValue := 10 },
           { outpoint := { txhash := 3, n := 0 }, nValue := 5 }]) = rep * 3 from rfl, h2]
        exact ih (rep + 1) _ (Or.inl rfl)
      · rw [show (rep * List.length
          [({ outpoint := { txhash := 2, n := 0 }, nValue := 20 } : CInputCoin),
           { outpoint := { txhash := 1, n := 0 }, nValue := 10 },
           { outpoint := { txhash := 3, n := 0 }, nValue := 5 }]) = rep * 3 from rfl, h2]
        exact ih (rep + 1) _ (Or.inr rfl)

theorem abs_c7 (rnd : Nat → Bool) :
    ApproximateBestSubset [{ outpoint := { txhash := 2, n := 0 }, nValue := 20 },
                           { outpoint := { txhash := 1, n := 0 }, nValue := 10 },
                           { outpoint := { txhash := 3, n := 0 }, nValue := 5 }]
        35 15 rnd 1000 = (15, [false, true, true]) ∨
    ApproximateBestSubset [{ outpoint := { txhash := 2, n := 0 }, nValue := 20 },
                           { outpoint := { txhash := 1, n := 0 }, nValue := 10 },
                           { outpoint := { txhash := 3, n := 0 }, nValue := 5 }]
        35 15 rnd 1000 = (20, [true, false, false]) := by
  show absLoop _ 15 rnd 1000 0 (35, List.replicate 3 true) = _ ∨
    absLoop _ 15 rnd 1000 0 (35, List.replicate 3 true) = _
  rw [show (1000 : Nat) = 999 + 1 from rfl, absLoop_succ, if_neg (by norm_num)]
  rw [show List.replicate 3 true = [true, true, true] from rfl]
  rcases absOneRep_c7_init rnd (0 * 3) with h2 | h2
  · rw [show (0 * List.length
      [({ outpoint := { txhash := 2, n := 0 }, nValue := 20 } : CInputCoin),
       { outpoint := { txhash := 1, n := 0 }, nValue := 10 },
       { outpoint := { txhash := 3, n := 0 }, nValue := 5 }]) = 0 * 3 from rfl, h2]
    exact absLoop_c7_inv rnd 999 1 _ (Or.inl rfl)
  · rw [show (0 * List.length
      [({ outpoint := { txhash := 2, n := 0 }, nValue := 20 } : CInputCoin),
       { outpoint := { txhash := 1, n := 0 }, nValue := 10 },
       { outpoint := { txhash := 3, n := 0 }, nValue := 5 }]) = 0 * 3 from rfl, h2]
    exact absLoop_c7_inv rnd 999 1 _ (Or.inr rfl)

theorem finishSelection_c7 (v : List CInputCoin)
    (hs : sortDescByValue v =
      [{ outpoint := { txhash := 2, n := 0 }, nValue := 20 },
       { outpoint := { txhash := 1, n := 0 }, nValue := 10 },
       { outpoint := { txhash := 3, n := 0 }, nValue := 5 }])
    (rnd1 rnd2 : Nat → Bool) :
    finishSelection 15 { coinLowestLarger := none, vValue := v, nTotalLower := 35 } rnd1 rnd2 =
      (true, [{ outpoint := { txhash := 1, n := 0 }, nValue := 10 },
              { outpoint := { txhash := 3, n := 0 }, nValue := 5 }], 15) ∨
    finishSelection 15 { coinLowestLarger := none, vValue := v, nTotalLower := 35 } rnd1 rnd2 =
      (true, [{ outpoint := { txhash := 2, n := 0 }, nValue := 20 }], 20) := by
  unfold finishSelection
  dsimp only
  rw [hs]
  rcases abs_c7 rnd1 with h | h <;> rw [h]
  · rw [if_neg (by norm_num [MIN_CHANGE])]
    exact Or.inl rfl
  · rw [if_neg (by norm_num [MIN_CHANGE])]
    exact Or.inr rfl

theorem select_c7_of_classify (l : List COutput) (v : List CInputCoin)
    (hc : classifyCoins 15 1 1 l { coinLowestLarger := none, vValue := [], nTotalLower := 0 } =
      Sum.inr { coinLowestLarger := none, vValue := v, nTotalLower := 35 })
    (hs : sortDescByValue v =
      [{ outpoint := { txhash := 2, n := 0 }, nValue := 20 },
       { outpoint := { txhash := 1, n := 0 }, nValue := 10 },
       { outpoint := { txhash := 3, n := 0 }, nValue := 5 }])
    (rnd1 rnd2 : Nat → Bool) :
    selectCoinsMinConf 15 1 1 l rnd1 rnd2 =
      (true, [{ outpoint := { txhash := 1, n := 0 }, nValue := 10 },
              { outpoint := { txhash := 3, n := 0 }, nValue := 5 }], 15) ∨
    selectCoinsMinConf 15 1 1 l rnd1 rnd2 =
      (true, [{ outpoint := { txhash := 2, n := 0 }, nValue := 20 }], 20) := by
  unfold selectCoinsMinConf
  rw [hc]
  dsimp only
  rw [if_neg (by norm_num), if_neg (by norm_num)]
  exact finishSelection_c7 v hs rnd1 rnd2

set_option maxRecDepth 100000 in
set_option maxHeartbeats 1000000 in
/-- C7 counterexample: on the run whose random pass offers only the
coin 20 in every repetition, candidates {10, 20, 5} with target 15
return the single coin {20}, not the exact subset {10, 5} the claim
asserts for every run. -/
theorem selectCoinsMinConf_c7_counterexample :
    selectCoinsMinConf 15 1 1 [mkOut 1 10, mkOut 2 20, mkOut 3 5] rndAdv rndF =
      (true, [{ outpoint := { txhash := 2, n := 0 }, nValue := 20 }], 20) := by decide

/-- C7 amended: on every run, candidates {10, 20, 5} with target 15
return either exactly the subset {10, 5}, whose sum equals the target,
or the single coin {20} (when every repetition of the randomized search
reaches the target only through the coin 20); no larger-single-coin
fallback is involved, and a run whose first repetition includes no coin
in the random pass — the all-false stream — returns {10, 5}. -/
theorem selectCoinsMinConf_exact_sum_or_single :
    (∀ (l : List COutput) (rnd1 rnd2 : Nat → Bool),
      l.Perm [mkOut 1 10, mkOut 2 20, mkOut 3 5] →
      (selectCoinsMinConf 15 1 1 l rnd1 rnd2 =
          (true, [{ outpoint := { txhash := 1, n := 0 }, nValue := 10 },
                  { outpoint := { txhash := 3, n := 0 }, nValue := 5 }], 15) ∨
        selectCoinsMinConf 15 1 1 l rnd1 rnd2 =
          (true, [{ outpoint := { txhash := 2, n := 0 }, nValue := 20 }], 20))) ∧
    selectCoinsMinConf 15 1 1 [mkOut 1 10, mkOut 2 20, mkOut 3 5] rndF rndF =
      (true, [{ outpoint := { txhash := 1, n := 0 }, nValue := 10 },
              { outpoint := { txhash := 3, n := 0 }, nValue := 5 }], 15) := by
  constructor
  · intro l rnd1 rnd2 hperm
    have hmem : l ∈ ([mkOut 1 10, mkOut 2 20, mkOut 3 5]).permutations' :=
      List.mem_permutations'.mpr hperm
    have hperms : ([mkOut 1 10, mkOut 2 20, mkOut 3 5]).permutations' =
        [[mkOut 1 10, mkOut 2 20, mkOut 3 5],
         [mkOut 2 20, mkOut 1 10, mkOut 3 5],
         [mkOut 2 20, mkOut 3 5, mkOut 1 10],
         [mkOut 1 10, mkOut 3 5, mkOut 2 20],
         [mkOut 3 5, mkOut 1 10, mkOut 2 20],
         [mkOut 3 5, mkOut 2 20, mkOut 1 10]] := by decide
    rw [hperms] at hmem
    simp only [List.mem_cons, List.not_mem_nil, or_false] at hmem
    rcases hmem with rfl | rfl | rfl | rfl | rfl | rfl
    · exact select_c7_of_classify _
        [{ outpoint := { txhash := 1, n := 0 }, nValue := 10 },
         { outpoint := { txhash := 2, n := 0 }, nValue := 20 },
         { outpoint := { txhash := 3, n := 0 }, nValue := 5 }] (by decide) (by decide) rnd1 rnd2
    · exact select_c7_of_classify _
        [{ outpoint := { txhash := 2, n := 0 }, nValue := 20 },
         { outpoint := { txhash := 1, n := 0 }, nValue := 10 },
         { outpoint := { txhash := 3, n := 0 }, nValue := 5 }] (by decide) (by decide) rnd1 rnd2
    · exact select_c7_of_classify _
        [{ outpoint := { txhash := 2, n := 0 }, nValue := 20 },
         { outpoint := { txhash := 3, n := 0 }, nValue := 5 },
         { outpoint := { txhash := 1, n := 0 }, nValue := 10 }] (by decide) (by decide) rnd1 rnd2
    · exact select_c7_of_classify _
        [{ outpoint := { txhash := 1, n := 0 }, nValue := 10 },
         { outpoint := { txhash := 3, n := 0 }, nValue := 5 },
         { outpoint := { txhash := 2, n := 0 }, nValue := 20 }] (by decide) (by decide) rnd1 rnd2
    · exact select_c7_of_classify _
        [{ outpoint := { txhash := 3, n := 0 }, nValue := 5 },
         { outpoint := { txhash := 1, n := 0 }, nValue := 10 },
         { outpoint := { txhash := 2, n := 0 }, nValue := 20 }] (by decide) (by decide) rnd1 rnd2
    · exact select_c7_of_classify _
        [{ outpoint := { txhash := 3, n := 0 }, nValue := 5 },
         { outpoint := { txhash := 2, n := 0 }, nValue := 20 },
         { outpoint := { txhash := 1, n := 0 }, nValue := 10 }] (by decide) (by decide) rnd1 rnd2
  · decide

/-- C7 witness: the identity order with the constant-false streams
yields one of the two amended outcomes. -/
theorem selectCoinsMinConf_exact_sum_or_single_witness :
    selectCoinsMinConf 15 1 1 [mkOut 1 10, mkOut 2 20, mkOut 3 5] rndF rndF =
      (true, [{ outpoint := { txhash := 1, n := 0 }, nValue := 10 },
              { outpoint := { txhash := 3, n := 0 }, nValue := 5 }], 15) ∨
    selectCoinsMinConf 15 1 1 [mkOut 1 10, mkOut 2 20, mkOut 3 5] rndF rndF =
      (true, [{ outpoint := { txhash := 2, n := 0 }, nValue := 20 }], 20) :=
  selectCoinsMinConf_exact_sum_or_single.1 [mkOut 1 10, mkOut 2 20, mkOut 3 5] rndF rndF
    (by decide)



/-! ## C2: the trust predicate and the available balance -/

theorem trusted_parent_iff (env : Env) (w : CWallet) (txin : CTxIn) :
    ((match lookupTx w txin.prevout.txhash with
      | none => false
      | some parent =>
        match parent.tx.vout.get? txin.prevout.n with
        | none => false
        | some out => decide (env.isMine out.scriptPubKey = ISMINE_SPENDABLE)) = true) ↔
      ∃ parent, lookupTx w txin.prevout.txhash = some parent ∧
        ∃ out, parent.tx.vout.get? txin.prevout.n = some out ∧
          env.isMine out.scriptPubKey = ISMINE_SPENDABLE := by
  rcases hl : lookupTx w txin.prevout.txhash with _ | parent
  · simp
  · dsimp only
    rcases ho : parent.tx.vout.get? txin.prevout.n with _ | out
    all_goals rw [List.get?_eq_getElem?] at ho
    · simp [ho]
    · simp [ho]

theorem foldl_balance (env : Env) (w : CWallet) :
    ∀ (l : List (Hash × CWalletTx)) (acc : Amount),
      l.foldl (fun acc p =>
        if isTrusted env w p.2 then acc + getAvailableCredit env w p.2 else acc) acc =
      acc + ((l.filter (fun p => isTrusted env w p.2)).map
        (fun p => getAvailableCredit env w p.2)).sum := by
  intro l
  induction l with
  | nil => intro acc; simp
  | cons p rest ih =>
    intro acc
    rw [List.foldl_cons, List.filter_cons]
    by_cases hp : isTrusted env w p.2
    · rw [if_pos hp, ih]
      simp [hp, add_assoc]
    · rw [if_neg hp, ih]
      simp [hp]

/-- C2 amended: a record is trusted iff it passes the finality check
and either has depth ≥ 1, or has depth 0, the global zero-conf-change
flag is enabled, its cached debit says it is from the wallet, it is in
the mempool, and every *immediate* parent is a tracked transaction
whose spent output is owned spendable (no recursion into deeper
ancestors and no mempool test on the parents); the available balance
sums the available credit exactly over the records satisfying this
predicate. -/
theorem isTrusted_characterization :
    (∀ (env : Env) (w : CWallet) (r : CWalletTx),
      isTrusted env w r = true ↔
        (env.checkFinalTx r.tx.txid = true ∧
          (1 ≤ getDepthInMainChain env r ∨
            (getDepthInMainChain env r = 0 ∧ env.spendZeroConfChange = true ∧
              0 < getDebitCached env w r ISMINE_ALL ∧ r.fInMempool = true ∧
              ∀ txin ∈ r.tx.vin, ∃ parent, lookupTx w txin.prevout.txhash = some parent ∧
                ∃ out, parent.tx.vout.get? txin.prevout.n = some out ∧
                  env.isMine out.scriptPubKey = ISMINE_SPENDABLE)))) ∧
    (∀ (env : Env) (w : CWallet),
      getBalance env w = ((w.mapWallet.filter (fun p => isTrusted env w p.2)).map
        (fun p => getAvailableCredit env w p.2)).sum) := by
  constructor
  · intro env w r
    unfold isTrusted
    dsimp only
    by_cases hf : env.checkFinalTx r.tx.txid = true
    case neg =>
      rw [if_pos (by simp [hf])]
      simp [hf]
    case pos =>
      rw [if_neg (by simp [hf])]
      by_cases h1 : 1 ≤ getDepthInMainChain env r
      case pos =>
        rw [if_pos h1]
        simp [hf, h1]
      case neg =>
        rw [if_neg h1]
        by_cases h2 : getDepthInMainChain env r < 0
        case pos =>
          rw [if_pos h2]
          have h0 : ¬ getDepthInMainChain env r = 0 := by omega
          simp [hf, h1, h0]
        case neg =>
          rw [if_neg h2]
          have h0 : getDepthInMainChain env r = 0 := by omega
          by_cases hz : env.spendZeroConfChange = true
          case neg =>
            rw [if_pos (by simp [hz])]
            simp only [Bool.false_eq_true, false_iff]
            rintro ⟨-, hc | ⟨-, hz2, -⟩⟩
            · exact h1 hc
            · exact hz hz2
          case pos =>
            by_cases hm : isFromMeTx env w r = true
            case neg =>
              rw [if_pos (by simp [hz, hm])]
              simp only [Bool.false_eq_true, false_iff]
              rintro ⟨-, hc | ⟨-, -, hdeb, -⟩⟩
              · exact h1 hc
              · exact hm (by unfold isFromMeTx; simp [hdeb])
            case pos =>
              rw [if_neg (by simp [hz, hm])]
              by_cases hip : r.fInMempool = true
              case neg =>
                rw [if_pos (by simp [hip])]
                simp only [Bool.false_eq_true, false_iff]
                rintro ⟨-, hc | ⟨-, -, -, hip2, -⟩⟩
                · exact h1 hc
                · exact hip hip2
              case pos =>
                rw [if_neg (by simp [hip])]
                have hm2 : 0 < getDebitCached env w r ISMINE_ALL := by
                  unfold isFromMeTx at hm
                  simpa using hm
                constructor
                · intro hall
                  refine ⟨hf, Or.inr ⟨h0, hz, hm2, hip, ?_⟩⟩
                  intro txin htxin
                  have hone := List.all_eq_true.mp hall txin htxin
                  exact (trusted_parent_iff env w txin).mp hone
                · rintro ⟨-, hc | ⟨-, -, -, -, hall⟩⟩
                  · exact absurd hc h1
                  · apply List.all_eq_true.mpr
                    intro txin htxin
                    exact (trusted_parent_iff env w txin).mpr (hall txin htxin)
  · intro env w
    unfold getBalance
    rw [foldl_balance]
    simp

/-- C2 counterexample: transaction 20 is trusted by the code although
its immediate ancestor 21 is not in the mempool (and 21's own parent is
unknown to the wallet), so the claimed predicate — which demands every
ancestor recursively self-originated and in the mempool — evaluates
false where the code evaluates true. -/
theorem isTrusted_spec_counterexample :
    isTrusted env2 w2 rec20 = true ∧ lookupTx w2 20 = some rec20 ∧
      (lookupTx w2 21).map (fun r => r.fInMempool) = some false ∧
      specTrustedClaim env2 w2 5 rec20 = false := by decide

/-! ## C9: re-observing an unchanged transaction -/

theorem assocFind_append_fresh (h : Hash) (r : CWalletTx) :
    ∀ l : List (Hash × CWalletTx), assocFind l h = none →
      assocFind (l ++ [(h, r)]) h = some r := by
  intro l
  induction l with
  | nil => intro _; simp [assocFind]
  | cons p rest ih =>
    intro hnone
    simp only [assocFind] at hnone
    simp only [List.cons_append, assocFind]
    by_cases he : p.1 = h
    · rw [if_pos he] at hnone
      exact absurd hnone (by simp)
    · rw [if_neg he] at hnone
      rw [if_neg he]
      exact ih hnone

theorem assocFind_map_upd_self (h : Hash) (f : CWalletTx → CWalletTx) :
    ∀ l : List (Hash × CWalletTx),
      assocFind (l.map (fun p => if p.1 = h then (p.1, f p.2) else p)) h =
        (assocFind l h).map f := by
  intro l
  induction l with
  | nil => rfl
  | cons p rest ih =>
    by_cases he : p.1 = h
    · simp [assocFind, he]
    · simp only [List.map_cons, if_neg he]
      unfold assocFind
      rw [if_neg he, if_neg he]
      exact ih

theorem assocFind_map_upd_ne (h h2 : Hash) (f : CWalletTx → CWalletTx) (hne : h2 ≠ h) :
    ∀ l : List (Hash × CWalletTx),
      assocFind (l.map (fun p => if p.1 = h then (p.1, f p.2) else p)) h2 =
        assocFind l h2 := by
  intro l
  induction l with
  | nil => rfl
  | cons p rest ih =>
    by_cases he : p.1 = h
    · have hne2 : ¬ (p.1 = h2) := by rw [he]; exact fun hx => hne hx.symm
      simp only [List.map_cons, if_pos he]
      unfold assocFind
      rw [if_neg hne2, if_neg hne2]
      exact ih
    · simp only [List.map_cons, if_neg he]
      unfold assocFind
      by_cases he2 : p.1 = h2
      · rw [if_pos he2, if_pos he2]
      · rw [if_neg he2, if_neg he2]
        exact ih

theorem lookupTx_updateTx_self (w : CWallet) (h : Hash) (f : CWalletTx → CWalletTx) :
    lookupTx (updateTx w h f) h = (lookupTx w h).map f :=
  assocFind_map_upd_self h f w.mapWallet

theorem lookupTx_updateTx_ne (w : CWallet) (h h2 : Hash) (f : CWalletTx → CWalletTx)
    (hne : h2 ≠ h) : lookupTx (updateTx w h f) h2 = lookupTx w h2 :=
  assocFind_map_upd_ne h h2 f hne w.mapWallet

theorem lookupTx_isSome_updateTx (w : CWallet) (h h2 : Hash) (f : CWalletTx → CWalletTx) :
    (lookupTx (updateTx w h f) h2).isSome = (lookupTx w h2).isSome := by
  by_cases he : h2 = h
  · subst he
    rw [lookupTx_updateTx_self]
    cases lookupTx w h2 <;> rfl
  · rw [lookupTx_updateTx_ne w h h2 f he]

theorem lookupTx_isSome_syncFold (F : CWalletTx → CWalletTx) (hFrom : Hash) :
    ∀ (hs : List Hash) (w : CWallet) (h : Hash),
      (lookupTx (hs.foldl
          (fun acc h2 => if h2 = hFrom then acc else updateTx acc h2 F) w) h).isSome =
        (lookupTx w h).isSome := by
  intro hs
  induction hs with
  | nil => intro w h; rfl
  | cons h2 rest ih =>
    intro w h
    rw [List.foldl_cons]
    by_cases he : h2 = hFrom
    · rw [if_pos he]; exact ih w h
    · rw [if_neg he, ih, lookupTx_isSome_updateTx]

theorem lookupTx_isSome_syncMetaData (w : CWallet) (o : OutPoint) (h : Hash) :
    (lookupTx (syncMetaData w o) h).isSome = (lookupTx w h).isSome := by
  unfold syncMetaData
  dsimp only
  split
  · rfl
  · split
    · rfl
    · exact lookupTx_isSome_syncFold _ _ _ w h

theorem lookupTx_isSome_addToSpendsOutpoint (w : CWallet) (o : OutPoint) (id h : Hash) :
    (lookupTx (addToSpendsOutpoint w o id) h).isSome = (lookupTx w h).isSome := by
  unfold addToSpendsOutpoint
  rw [lookupTx_isSome_syncMetaData]
  rfl

theorem lookupTx_isSome_spendsFold (wtxid : Hash) :
    ∀ (vins : List CTxIn) (w : CWallet) (h : Hash),
      (lookupTx (vins.foldl
          (fun acc txin => addToSpendsOutpoint acc txin.prevout wtxid) w) h).isSome =
        (lookupTx w h).isSome := by
  intro vins
  induction vins with
  | nil => intro w h; rfl
  | cons txin rest ih =>
    intro w h
    rw [List.foldl_cons, ih, lookupTx_isSome_addToSpendsOutpoint]

theorem lookupTx_isSome_addToSpends (w : CWallet) (wtxid h : Hash) :
    (lookupTx (addToSpends w wtxid) h).isSome = (lookupTx w h).isSome := by
  unfold addToSpends
  split
  · rfl
  · split
    · rfl
    · exact lookupTx_isSome_spendsFold _ _ w h

theorem mergeWtx_preserves (a b : CWalletTx) :
    (mergeWtx a b).1.nOrderPos = b.nOrderPos ∧ (mergeWtx a b).1.cDebit = b.cDebit ∧
      (mergeWtx a b).1.cWatchDebit = b.cWatchDebit ∧
      (mergeWtx a b).1.cAvailCredit = b.cAvailCredit := by
  unfold mergeWtx
  dsimp only
  split_ifs <;> exact ⟨rfl, rfl, rfl, rfl⟩

/-- C9: calling AddToWallet a second time with the unchanged transaction
(and hence no new block reference) leaves the spend index, the
ordered-transaction index, the insertion-order counter, every record's
insertion order and every record's cached amounts exactly as they were
after the first call, provided the database write of the first call
succeeded. -/
theorem addToWallet_reobserve_noop (env : Env) (w : CWallet) (wtxIn : CWalletTx)
    (hdb : env.dbWriteOk = true) :
    ((addToWallet env (addToWallet env w wtxIn).2 wtxIn).2.mapTxSpends =
        (addToWallet env w wtxIn).2.mapTxSpends) ∧
    ((addToWallet env (addToWallet env w wtxIn).2 wtxIn).2.wtxOrdered =
        (addToWallet env w wtxIn).2.wtxOrdered) ∧
    ((addToWallet env (addToWallet env w wtxIn).2 wtxIn).2.nOrderPosNext =
        (addToWallet env w wtxIn).2.nOrderPosNext) ∧
    (∀ h, (lookupTx (addToWallet env (addToWallet env w wtxIn).2 wtxIn).2 h).map
            (fun r => r.nOrderPos) =
          (lookupTx (addToWallet env w wtxIn).2 h).map (fun r => r.nOrderPos)) ∧
    (∀ h, (lookupTx (addToWallet env (addToWallet env w wtxIn).2 wtxIn).2 h).map
            (fun r => (r.cDebit, r.cWatchDebit, r.cAvailCredit)) =
          (lookupTx (addToWallet env w wtxIn).2 h).map
            (fun r => (r.cDebit, r.cWatchDebit, r.cAvailCredit))) := by
  have hupd : ∀ (A : CWallet) (old : CWalletTx),
      (addToWalletUpdate env A wtxIn old).2 =
        updateTx (updateTx A wtxIn.tx.txid (fun _ => (mergeWtx wtxIn old).1))
          wtxIn.tx.txid markDirtyOne := by
    intro A old
    unfold addToWalletUpdate
    dsimp only
    have hguard : ¬ ((mergeWtx wtxIn old).2 = true ∧ ¬ env.dbWriteOk = true) := by
      rw [hdb]; exact fun hx => hx.2 rfl
    rw [if_neg hguard]
  have hins : ∀ w0 : CWallet, lookupTx w0 wtxIn.tx.txid = none →
      ∃ r1, lookupTx (addToWalletInsert env w0 wtxIn).2 wtxIn.tx.txid = some r1 ∧
        r1.cDebit = none ∧ r1.cWatchDebit = none ∧ r1.cAvailCredit = none := by
    intro w0 hl
    unfold addToWalletInsert
    dsimp only
    rw [if_neg (by rw [hdb]; exact fun hx => hx rfl)]
    dsimp only
    rw [lookupTx_updateTx_self]
    set wtx0 := { wtxIn with nTimeReceived := env.adjustedTime,
                             nOrderPos := w0.nOrderPosNext } with hwtx0
    set w1 : CWallet :=
      { mapWallet := w0.mapWallet ++ [(wtxIn.tx.txid, wtx0)]
        mapTxSpends := w0.mapTxSpends
        wtxOrdered := w0.wtxOrdered ++ [(wtx0.nOrderPos, wtxIn.tx.txid)]
        nOrderPosNext := w0.nOrderPosNext + 1 } with hw1
    have hfresh : lookupTx w1 wtxIn.tx.txid = some wtx0 := by
      rw [hw1]
      exact assocFind_append_fresh _ _ _ hl
    have hsome : (lookupTx (addToSpends
        (updateTx w1 wtxIn.tx.txid
          (fun r => { r with nTimeSmart := computeTimeSmart env w1 wtxIn.tx.txid wtx0 }))
        wtxIn.tx.txid) wtxIn.tx.txid).isSome = true := by
      rw [lookupTx_isSome_addToSpends, lookupTx_isSome_updateTx, hfresh]
      rfl
    obtain ⟨r3, hr3⟩ := Option.isSome_iff_exists.mp hsome
    refine ⟨markDirtyOne r3, ?_, rfl, rfl, rfl⟩
    rw [hr3]
    rfl
  have hstep1 : ∃ r1, lookupTx (addToWallet env w wtxIn).2 wtxIn.tx.txid = some r1 ∧
      r1.cDebit = none ∧ r1.cWatchDebit = none ∧ r1.cAvailCredit = none := by
    unfold addToWallet
    rcases hl : lookupTx w wtxIn.tx.txid with _ | wtxOld
    · exact hins w hl
    · dsimp only
      rw [hupd w wtxOld]
      refine ⟨markDirtyOne ((mergeWtx wtxIn wtxOld).1), ?_, rfl, rfl, rfl⟩
      rw [lookupTx_updateTx_self, lookupTx_updateTx_self, hl]
      rfl
  obtain ⟨r1, hr1, hc1, hc2, hc3⟩ := hstep1
  have hsecond : (addToWallet env (addToWallet env w wtxIn).2 wtxIn).2 =
      updateTx (updateTx (addToWallet env w wtxIn).2 wtxIn.tx.txid
        (fun _ => (mergeWtx wtxIn r1).1)) wtxIn.tx.txid markDirtyOne := by
    conv_lhs => rw [addToWallet]
    rw [hr1]
    exact hupd _ r1
  rw [hsecond]
  refine ⟨rfl, rfl, rfl, ?_, ?_⟩
  · intro h
    by_cases he : h = wtxIn.tx.txid
    · subst he
      rw [lookupTx_updateTx_self, lookupTx_updateTx_self, hr1]
      simp [markDirtyOne, (mergeWtx_preserves wtxIn r1).1]
    · rw [lookupTx_updateTx_ne _ _ _ _ he, lookupTx_updateTx_ne _ _ _ _ he]
  · intro h
    by_cases he : h = wtxIn.tx.txid
    · subst he
      rw [lookupTx_updateTx_self, lookupTx_updateTx_self, hr1]
      simp [markDirtyOne, hc1, hc2, hc3]
    · rw [lookupTx_updateTx_ne _ _ _ _ he, lookupTx_updateTx_ne _ _ _ _ he]

/-- C9 witness: re-observing transaction 9 in the empty wallet. -/
theorem addToWallet_reobserve_noop_witness :
    ((addToWallet cEnv (addToWallet cEnv
        { mapWallet := [], mapTxSpends := [], wtxOrdered := [], nOrderPosNext := 0 }
        wtx9).2 wtx9).2.mapTxSpends =
      (addToWallet cEnv
        { mapWallet := [], mapTxSpends := [], wtxOrdered := [], nOrderPosNext := 0 }
        wtx9).2.mapTxSpends) ∧
    ((addToWallet cEnv (addToWallet cEnv
        { mapWallet := [], mapTxSpends := [], wtxOrdered := [], nOrderPosNext := 0 }
        wtx9).2 wtx9).2.nOrderPosNext =
      (addToWallet cEnv
        { mapWallet := [], mapTxSpends := [], wtxOrdered := [], nOrderPosNext := 0 }
        wtx9).2.nOrderPosNext) :=
  ⟨(addToWallet_reobserve_noop cEnv
      { mapWallet := [], mapTxSpends := [], wtxOrdered := [], nOrderPosNext := 0 }
      wtx9 (by decide)).1,
   (addToWallet_reobserve_noop cEnv
      { mapWallet := [], mapTxSpends := [], wtxOrdered := [], nOrderPosNext := 0 }
      wtx9 (by decide)).2.2.1⟩

/-! ## C4: MarkConflicted propagation over the spend graph -/

theorem pairwise_insSorted {x : Nat} :
    ∀ {l : List Nat}, l.Pairwise (fun a b : Nat => a < b) →
      (insSorted x l).Pairwise (fun a b : Nat => a < b) := by
  intro l
  induction l with
  | nil => intro _; simp [insSorted]
  | cons y rest ih =>
    intro hp
    rcases List.pairwise_cons.mp hp with ⟨hy, hrest⟩
    by_cases h1 : x < y
    · simp only [insSorted, if_pos h1]
      refine List.pairwise_cons.mpr ⟨?_, hp⟩
      intro a ha
      rcases List.mem_cons.mp ha with rfl | har
      · exact h1
      · exact lt_trans h1 (hy a har)
    · by_cases h2 : x = y
      · subst h2
        simp only [insSorted, if_neg h1, if_pos rfl]
        exact hp
      · simp only [insSorted, if_neg h1, if_neg h2]
        refine List.pairwise_cons.mpr ⟨?_, ih hrest⟩
        intro a ha
        rcases mem_insSorted.mp ha with rfl | har
        · omega
        · exact hy a har

theorem length_insSorted_not_mem {x : Nat} :
    ∀ {l : List Nat}, x ∉ l → (insSorted x l).length = l.length + 1 := by
  intro l
  induction l with
  | nil => intro _; rfl
  | cons y rest ih =>
    intro hx
    have hxy : ¬ x = y := fun e => hx (by rw [e]; exact List.mem_cons_self y rest)
    by_cases h1 : x < y
    · simp [insSorted, h1]
    · simp only [insSorted, if_neg h1, if_neg hxy, List.length_cons]
      rw [ih (fun hm => hx (List.mem_cons_of_mem y hm))]

theorem enqueueSpenders_cons (h : Nat) (tl done todo : List Nat) :
    enqueueSpenders (h :: tl) done todo =
      enqueueSpenders tl done (if h ∈ done then todo else insSorted h todo) := rfl

theorem mem_enqueueSpenders {x : Nat} :
    ∀ (sp done todo : List Nat),
      x ∈ enqueueSpenders sp done todo ↔ (x ∈ sp ∧ x ∉ done) ∨ x ∈ todo := by
  intro sp
  induction sp with
  | nil => intro done todo; simp [enqueueSpenders]
  | cons h tl ih =>
    intro done todo
    rw [enqueueSpenders_cons]
    by_cases hd : h ∈ done
    · rw [if_pos hd, ih]
      simp only [List.mem_cons]
      constructor
      · rintro (⟨ht, hn⟩ | hto)
        · exact Or.inl ⟨Or.inr ht, hn⟩
        · exact Or.inr hto
      · rintro (⟨he | ht, hn⟩ | hto)
        · exact absurd (he ▸ hd) hn
        · exact Or.inl ⟨ht, hn⟩
        · exact Or.inr hto
    · rw [if_neg hd, ih]
      simp only [List.mem_cons, mem_insSorted]
      constructor
      · rintro (⟨ht, hn⟩ | he | hto)
        · exact Or.inl ⟨Or.inr ht, hn⟩
        · exact Or.inl ⟨Or.inl he, by rw [he]; exact hd⟩
        · exact Or.inr hto
      · rintro (⟨he | ht, hn⟩ | hto)
        · exact Or.inr (Or.inl he)
        · exact Or.inl ⟨ht, hn⟩
        · exact Or.inr (Or.inr hto)

theorem pairwise_enqueueSpenders :
    ∀ (sp done todo : List Nat), todo.Pairwise (fun a b : Nat => a < b) →
      (enqueueSpenders sp done todo).Pairwise (fun a b : Nat => a < b) := by
  intro sp
  induction sp with
  | nil => intro done todo h; exact h
  | cons h tl ih =>
    intro done todo hp
    rw [enqueueSpenders_cons]
    apply ih
    by_cases hd : h ∈ done
    · rw [if_pos hd]; exact hp
    · rw [if_neg hd]; exact pairwise_insSorted hp

theorem updateTx_mapTxSpends (w : CWallet) (h : Hash) (f : CWalletTx → CWalletTx) :
    (updateTx w h f).mapTxSpends = w.mapTxSpends := rfl

theorem foldl_updateDirty_mapTxSpends :
    ∀ (l : List CTxIn) (w : CWallet),
      (l.foldl (fun acc txin => updateTx acc txin.prevout.txhash markDirtyOne) w).mapTxSpends
        = w.mapTxSpends := by
  intro l
  induction l with
  | nil => intro w; rfl
  | cons t tl ih =>
    intro w
    rw [List.foldl_cons, ih]
    rfl

theorem markParentsDirty_mapTxSpends (w : CWallet) (r : CWalletTx) :
    (markParentsDirty w r).mapTxSpends = w.mapTxSpends :=
  foldl_updateDirty_mapTxSpends r.tx.vin w

theorem spendersOfTx_congr (w w2 : CWallet) (hs : w.mapTxSpends = w2.mapTxSpends)
    (t : Hash) : spendersOfTx w t = spendersOfTx w2 t := by
  unfold spendersOfTx
  rw [hs]

theorem lookup_dfields_updateDirty (w : CWallet) (h x : Hash) :
    (lookupTx (updateTx w h markDirtyOne) x).map dfields = (lookupTx w x).map dfields := by
  by_cases he : x = h
  · subst he
    rw [lookupTx_updateTx_self]
    cases lookupTx w x <;> rfl
  · rw [lookupTx_updateTx_ne w h x markDirtyOne he]

theorem foldl_updateDirty_lookup_dfields :
    ∀ (l : List CTxIn) (w : CWallet) (x : Hash),
      (lookupTx (l.foldl (fun acc txin => updateTx acc txin.prevout.txhash markDirtyOne) w) x).map
          dfields
        = (lookupTx w x).map dfields := by
  intro l
  induction l with
  | nil => intro w x; rfl
  | cons t tl ih =>
    intro w x
    rw [List.foldl_cons, ih, lookup_dfields_updateDirty]

theorem markParentsDirty_lookup_dfields (w : CWallet) (r : CWalletTx) (x : Hash) :
    (lookupTx (markParentsDirty w r) x).map dfields = (lookupTx w x).map dfields :=
  foldl_updateDirty_lookup_dfields r.tx.vin w x

theorem dfields_markOneConflicted (bh : Hash) (r : CWalletTx) :
    dfields (markOneConflicted bh r) = (bh, -1) := rfl

theorem getDepth_congr_dfields (env : Env) (r1 r2 : CWalletTx) (h : dfields r1 = dfields r2) :
    getDepthInMainChain env r1 = getDepthInMainChain env r2 := by
  have h1 : r1.hashBlock = r2.hashBlock := congrArg Prod.fst h
  have h2 : r1.nIndex = r2.nIndex := congrArg Prod.snd h
  unfold getDepthInMainChain
  rw [h1, h2]

theorem getDepth_marked (env : Env) (bh : Hash) (hgt : Int) (r : CWalletTx)
    (hbh : env.blockHeightActive bh = some hgt)
    (hb0 : bh ≠ nullHash) (hb1 : bh ≠ ABANDON_HASH)
    (h : dfields r = (bh, -1)) :
    getDepthInMainChain env r = -(env.tipHeight - hgt + 1) := by
  have h1 : r.hashBlock = bh := congrArg Prod.fst h
  have h2 : r.nIndex = -1 := congrArg Prod.snd h
  have hu : hashUnset bh = false := by
    unfold hashUnset
    simp [hb0, hb1]
  unfold getDepthInMainChain
  rw [h1, h2, hu, hbh]
  simp

theorem mcLoop_nil (env : Env) (bh : Hash) (cc : Int) (fuel : Nat) (done : List Hash)
    (w : CWallet) : mcLoop env bh cc fuel [] done w = LedgerRes.ok w := by
  cases fuel <;> rfl

theorem mcLoop_cons (env : Env) (bh : Hash) (cc : Int) (fuel : Nat) (now : Hash)
    (todoRest done : List Hash) (w : CWallet) :
    mcLoop env bh cc (fuel + 1) (now :: todoRest) done w =
      match lookupTx w now with
      | none => LedgerRes.abortAssert
      | some wtx =>
        if cc < getDepthInMainChain env wtx then
          mcLoop env bh cc fuel
            (enqueueSpenders (spendersOfTx w now) (insSorted now done) todoRest)
            (insSorted now done)
            (markParentsDirty (updateTx w now (markOneConflicted bh)) wtx)
        else mcLoop env bh cc fuel todoRest (insSorted now done) w := rfl

theorem mcLoop_fuel_sufficient (env : Env) (bh : Hash) (cc : Int) (S : List Nat) :
    ∀ (fuel : Nat) (todo done : List Nat) (w : CWallet),
      (∀ x ∈ todo, x ∈ S) → (∀ x ∈ todo, x ∉ done) →
      todo.Pairwise (fun a b : Nat => a < b) →
      done.Pairwise (fun a b : Nat => a < b) →
      (∀ x ∈ done, x ∈ S) →
      (∀ p ∈ w.mapTxSpends, p.2 ∈ S) →
      S.toFinset.card < done.length + fuel →
      mcLoop env bh cc fuel todo done w ≠ LedgerRes.outOfFuel := by
  intro fuel
  induction fuel with
  | zero =>
    intro todo done w _ _ _ hdp hds _ hcard
    cases todo with
    | nil => rw [mcLoop_nil]; intro hx; exact LedgerRes.noConfusion hx
    | cons now rest =>
      exfalso
      have hnd : done.Nodup := hdp.imp (fun hab => Nat.ne_of_lt hab)
      have hsubf : done.toFinset ⊆ S.toFinset := by
        intro a ha
        rw [List.mem_toFinset] at ha ⊢
        exact hds a ha
      have hle : done.length ≤ S.toFinset.card := by
        rw [← List.toFinset_card_of_nodup hnd]
        exact Finset.card_le_card hsubf
      omega
  | succ f ih =>
    intro todo done w h1 h2 h3 h4 h5 h6 hcard
    cases todo with
    | nil => rw [mcLoop_nil]; intro hx; exact LedgerRes.noConfusion hx
    | cons now rest =>
      rw [mcLoop_cons]
      cases hl : lookupTx w now with
      | none => intro hx; exact LedgerRes.noConfusion hx
      | some wtx =>
        dsimp only
        have hnowS : now ∈ S := h1 now (List.mem_cons_self now rest)
        have hnowd : now ∉ done := h2 now (List.mem_cons_self now rest)
        rcases List.pairwise_cons.mp h3 with ⟨hrel, hrest⟩
        have hlen2 : (insSorted now done).length = done.length + 1 :=
          length_insSorted_not_mem hnowd
        have hpw2 : (insSorted now done).Pairwise (fun a b : Nat => a < b) :=
          pairwise_insSorted h4
        have hsub2 : ∀ x ∈ insSorted now done, x ∈ S := by
          intro x hx
          rcases mem_insSorted.mp hx with rfl | hxd
          · exact hnowS
          · exact h5 x hxd
        have hcard2 : S.toFinset.card < (insSorted now done).length + f := by
          rw [hlen2]; omega
        have hrestd2 : ∀ x ∈ rest, x ∉ insSorted now done := by
          intro x hx hmem
          rcases mem_insSorted.mp hmem with rfl | hxd
          · exact absurd (hrel x hx) (lt_irrefl x)
          · exact h2 x (List.mem_cons_of_mem now hx) hxd
        by_cases hc : cc < getDepthInMainChain env wtx
        · rw [if_pos hc]
          apply ih
          · intro x hx
            rcases (mem_enqueueSpenders (spendersOfTx w now) (insSorted now done) rest).mp hx
              with ⟨hsp, _⟩ | hxr
            · unfold spendersOfTx at hsp
              rcases List.mem_map.mp hsp with ⟨p, hp, hpx⟩
              exact hpx ▸ h6 p (List.mem_filter.mp hp).1
            · exact h1 x (List.mem_cons_of_mem now hxr)
          · intro x hx
            rcases (mem_enqueueSpenders (spendersOfTx w now) (insSorted now done) rest).mp hx
              with ⟨_, hnd2⟩ | hxr
            · exact hnd2
            · exact hrestd2 x hxr
          · exact pairwise_enqueueSpenders _ _ _ hrest
          · exact hpw2
          · exact hsub2
          · intro p hp
            rw [markParentsDirty_mapTxSpends, updateTx_mapTxSpends] at hp
            exact h6 p hp
          · exact hcard2
        · rw [if_neg hc]
          apply ih
          · intro x hx; exact h1 x (List.mem_cons_of_mem now hx)
          · exact hrestd2
          · exact hrest
          · exact hpw2
          · exact hsub2
          · exact h6
          · exact hcard2

/-- Every transaction reachable along the gated spend paths is itself
shallower than the conflict depth. -/
theorem conflictReach_hot (env : Env) (w : CWallet) (cc : Int) (root t : Hash)
    (h : ConflictReach env w cc root t) : hotTx env cc w t := by
  cases h with
  | root r h1 h2 => exact ⟨r, h1, h2⟩
  | step t s r hre hs h1 h2 => exact ⟨r, h1, h2⟩

theorem markConflicted_eq (env : Env) (w : CWallet) (bh tx : Hash) :
    markConflicted env w bh tx =
      if 0 ≤ ccOf env bh then LedgerRes.ok w
      else mcLoop env bh (ccOf env bh) (wlFuel w tx) [tx] [] w := rfl

theorem mcLoop_zero (env : Env) (bh : Hash) (cc : Int) (now : Hash)
    (rest done : List Hash) (w : CWallet) :
    mcLoop env bh cc 0 (now :: rest) done w = LedgerRes.outOfFuel := rfl

/-- Exhausted-worklist state: every marked-and-shallow record has all of
its shallow spenders marked as well. -/
theorem mcLoop_marks_base (env : Env) (bh : Hash) (cc hgt : Int) (w0 : CWallet)
    (hbh : env.blockHeightActive bh = some hgt)
    (hcceq : cc = -(env.tipHeight - hgt + 1))
    (hb0 : bh ≠ nullHash) (hb1 : bh ≠ ABANDON_HASH)
    (done : List Nat) (w : CWallet)
    (hdf : ∀ x, x ∉ done → (lookupTx w x).map dfields = (lookupTx w0 x).map dfields)
    (hmk : ∀ x ∈ done, hotTx env cc w0 x → (lookupTx w x).map dfields = some (bh, -1))
    (hfr : ∀ x ∈ done, hotTx env cc w0 x → ∀ s ∈ spendersOfTx w0 x, s ∈ done) :
    ∀ x, hotTx env cc w0 x → (lookupTx w x).map dfields = some (bh, -1) →
      ∀ s ∈ spendersOfTx w0 x, hotTx env cc w0 s →
        (lookupTx w s).map dfields = some (bh, -1) := by
  intro x hhx hmkx s hs hhots
  by_cases hxd : x ∈ done
  · exact hmk s (hfr x hxd hhx s hs) hhots
  · exfalso
    rcases hhx with ⟨r0, hr0, hdep⟩
    have heq := hdf x hxd
    rw [hmkx, hr0] at heq
    have heq2 : some (bh, (-1 : Int)) = some (dfields r0) := heq
    have hdr : dfields r0 = (bh, -1) := by
      injection heq2 with hinj
      exact hinj.symm
    have hd2 : getDepthInMainChain env r0 = -(env.tipHeight - hgt + 1) :=
      getDepth_marked env bh hgt r0 hbh hb0 hb1 hdr
    rw [hd2, ← hcceq] at hdep
    exact lt_irrefl cc hdep

/-- Soundness of the MarkConflicted worklist: from a state whose done
set is marked and frontier-closed, a successful run marks every pending
and done transaction that is shallower than the conflict depth, and the
final wallet is closed under shallow spenders of marked transactions. -/
theorem mcLoop_marks (env : Env) (bh : Hash) (cc hgt : Int) (w0 : CWallet)
    (hbh : env.blockHeightActive bh = some hgt)
    (hcceq : cc = -(env.tipHeight - hgt + 1))
    (hb0 : bh ≠ nullHash) (hb1 : bh ≠ ABANDON_HASH) :
    ∀ (fuel : Nat) (todo done : List Nat) (w wF : CWallet),
      w.mapTxSpends = w0.mapTxSpends →
      (∀ x, x ∉ done → (lookupTx w x).map dfields = (lookupTx w0 x).map dfields) →
      (∀ x ∈ done, hotTx env cc w0 x → (lookupTx w x).map dfields = some (bh, -1)) →
      (∀ x ∈ done, hotTx env cc w0 x →
        ∀ s ∈ spendersOfTx w0 x, s ∈ done ∨ s ∈ todo) →
      (∀ x ∈ todo, x ∉ done) →
      todo.Pairwise (fun a b : Nat => a < b) →
      mcLoop env bh cc fuel todo done w = LedgerRes.ok wF →
      (∀ x ∈ todo, hotTx env cc w0 x → (lookupTx wF x).map dfields = some (bh, -1)) ∧
      (∀ x ∈ done, hotTx env cc w0 x → (lookupTx wF x).map dfields = some (bh, -1)) ∧
      (∀ x, hotTx env cc w0 x → (lookupTx wF x).map dfields = some (bh, -1) →
        ∀ s ∈ spendersOfTx w0 x, hotTx env cc w0 s →
          (lookupTx wF s).map dfields = some (bh, -1)) := by
  intro fuel
  induction fuel with
  | zero =>
    intro todo done w wF hsp hdf hmk hfr htd htp hres
    cases todo with
    | nil =>
      rw [mcLoop_nil] at hres
      injection hres with hww
      subst hww
      refine ⟨by intro x hx; simp at hx, hmk, ?_⟩
      refine mcLoop_marks_base env bh cc hgt w0 hbh hcceq hb0 hb1 done w hdf hmk ?_
      intro x hxd hhx s hs
      rcases hfr x hxd hhx s hs with hsd | hst
      · exact hsd
      · simp at hst
    | cons now rest =>
      rw [mcLoop_zero] at hres
      simp at hres
  | succ f ih =>
    intro todo done w wF hsp hdf hmk hfr htd htp hres
    cases todo with
    | nil =>
      rw [mcLoop_nil] at hres
      injection hres with hww
      subst hww
      refine ⟨by intro x hx; simp at hx, hmk, ?_⟩
      refine mcLoop_marks_base env bh cc hgt w0 hbh hcceq hb0 hb1 done w hdf hmk ?_
      intro x hxd hhx s hs
      rcases hfr x hxd hhx s hs with hsd | hst
      · exact hsd
      · simp at hst
    | cons now rest =>
      rw [mcLoop_cons] at hres
      have hnowd : now ∉ done := htd now (List.mem_cons_self now rest)
      rcases List.pairwise_cons.mp htp with ⟨hrel, hrest⟩
      have hrestd2 : ∀ x ∈ rest, x ∉ insSorted now done := by
        intro x hx hmem
        rcases mem_insSorted.mp hmem with rfl | hxd
        · exact absurd (hrel x hx) (lt_irrefl x)
        · exact htd x (List.mem_cons_of_mem now hx) hxd
      cases hl : lookupTx w now with
      | none =>
        rw [hl] at hres
        simp at hres
      | some wtx =>
        rw [hl] at hres
        dsimp only at hres
        have heqn := hdf now hnowd
        rw [hl] at heqn
        cases hl0 : lookupTx w0 now with
        | none =>
          rw [hl0] at heqn
          exact absurd heqn (by simp)
        | some r0 =>
          rw [hl0] at heqn
          have heqn2 : some (dfields wtx) = some (dfields r0) := heqn
          have hdf0 : dfields wtx = dfields r0 := by injection heqn2
          have hdepeq : getDepthInMainChain env wtx = getDepthInMainChain env r0 :=
            getDepth_congr_dfields env wtx r0 hdf0
          have hhotiff : hotTx env cc w0 now ↔ cc < getDepthInMainChain env wtx := by
            constructor
            · rintro ⟨r1, hr1, hd1⟩
              rw [hl0] at hr1
              injection hr1 with hr1
              rw [hdepeq, hr1]
              exact hd1
            · intro hd
              exact ⟨r0, hl0, hdepeq ▸ hd⟩
          by_cases hc : cc < getDepthInMainChain env wtx
          · rw [if_pos hc] at hres
            have hspw : spendersOfTx w now = spendersOfTx w0 now :=
              spendersOfTx_congr w w0 hsp now
            have hrec := ih
              (enqueueSpenders (spendersOfTx w now) (insSorted now done) rest)
              (insSorted now done)
              (markParentsDirty (updateTx w now (markOneConflicted bh)) wtx)
              wF
              (by rw [markParentsDirty_mapTxSpends, updateTx_mapTxSpends, hsp])
              (by
                intro x hx2
                have hxnow : x ≠ now := fun e => hx2 (mem_insSorted.mpr (Or.inl e))
                have hxd : x ∉ done := fun hd2 => hx2 (mem_insSorted.mpr (Or.inr hd2))
                rw [markParentsDirty_lookup_dfields, lookupTx_updateTx_ne _ _ _ _ hxnow]
                exact hdf x hxd)
              (by
                intro x hx2 hhx
                rcases mem_insSorted.mp hx2 with rfl | hxd
                · rw [markParentsDirty_lookup_dfields, lookupTx_updateTx_self, hl]
                  rfl
                · have hxnow : x ≠ now := by
                    rintro rfl
                    exact hnowd hxd
                  rw [markParentsDirty_lookup_dfields, lookupTx_updateTx_ne _ _ _ _ hxnow]
                  exact hmk x hxd hhx)
              (by
                intro x hx2 hhx s hs
                rcases mem_insSorted.mp hx2 with rfl | hxd
                · by_cases hsd2 : s ∈ insSorted x done
                  · exact Or.inl hsd2
                  · refine Or.inr ((mem_enqueueSpenders _ _ _).mpr (Or.inl ⟨?_, hsd2⟩))
                    rw [hspw]
                    exact hs
                · rcases hfr x hxd hhx s hs with hsd | hst
                  · exact Or.inl (mem_insSorted.mpr (Or.inr hsd))
                  · rcases List.mem_cons.mp hst with rfl | hsr
                    · exact Or.inl (mem_insSorted.mpr (Or.inl rfl))
                    · exact Or.inr ((mem_enqueueSpenders _ _ _).mpr (Or.inr hsr)))
              (by
                intro x hx
                rcases (mem_enqueueSpenders _ _ _).mp hx with ⟨_, hnd2⟩ | hxr
                · exact hnd2
                · exact hrestd2 x hxr)
              (pairwise_enqueueSpenders _ _ _ hrest)
              hres
            rcases hrec with ⟨T1, T2, T3⟩
            refine ⟨?_, ?_, T3⟩
            · intro x hx hhx
              rcases List.mem_cons.mp hx with rfl | hxr
              · exact T2 x (mem_insSorted.mpr (Or.inl rfl)) hhx
              · exact T1 x ((mem_enqueueSpenders _ _ _).mpr (Or.inr hxr)) hhx
            · intro x hxd hhx
              exact T2 x (mem_insSorted.mpr (Or.inr hxd)) hhx
          · rw [if_neg hc] at hres
            have hnothot : ¬ hotTx env cc w0 now := fun hh => hc (hhotiff.mp hh)
            have hrec := ih rest (insSorted now done) w wF hsp
              (by
                intro x hx2
                have hxd : x ∉ done := fun hd2 => hx2 (mem_insSorted.mpr (Or.inr hd2))
                exact hdf x hxd)
              (by
                intro x hx2 hhx
                rcases mem_insSorted.mp hx2 with rfl | hxd
                · exact absurd hhx hnothot
                · exact hmk x hxd hhx)
              (by
                intro x hx2 hhx s hs
                rcases mem_insSorted.mp hx2 with rfl | hxd
                · exact absurd hhx hnothot
                · rcases hfr x hxd hhx s hs with hsd | hst
                  · exact Or.inl (mem_insSorted.mpr (Or.inr hsd))
                  · rcases List.mem_cons.mp hst with rfl | hsr
                    · exact Or.inl (mem_insSorted.mpr (Or.inl rfl))
                    · exact Or.inr hsr)
              hrestd2
              hrest
              hres
            rcases hrec with ⟨T1, T2, T3⟩
            refine ⟨?_, ?_, T3⟩
            · intro x hx hhx
              rcases List.mem_cons.mp hx with rfl | hxr
              · exact absurd hhx hnothot
              · exact T1 x hxr hhx
            · intro x hxd hhx
              exact T2 x (mem_insSorted.mpr (Or.inr hxd)) hhx

/-- C4: a MarkConflicted call always terminates — on any finite spend
index, cyclic ones included, the worklist never exhausts the fuel bound,
because the done set only ever receives hashes drawn from the initial
transaction and the spend-index values and each popped hash is new — and
a call with a block conflicting more deeply than the current state of
the initial transaction marks as conflicted with that block every
transaction reachable from it along spend edges all of whose nodes
(the initial transaction included) were recorded strictly shallower
than the conflict depth.  Propagation inspects each spender's current
depth first, so it stops at a transaction already conflicted at least
as deeply and does not visit that transaction's own spenders. -/
theorem markConflicted_propagation :
    (∀ (env : Env) (w : CWallet) (bh tx : Hash),
      markConflicted env w bh tx ≠ LedgerRes.outOfFuel) ∧
    (∀ (env : Env) (w : CWallet) (bh tx : Hash) (wF : CWallet),
      ccOf env bh < 0 → bh ≠ nullHash → bh ≠ ABANDON_HASH →
      markConflicted env w bh tx = LedgerRes.ok wF →
      ∀ t, ConflictReach env w (ccOf env bh) tx t →
        (lookupTx wF t).map dfields = some (bh, -1)) := by
  constructor
  · intro env w bh tx
    rw [markConflicted_eq]
    by_cases hcc : 0 ≤ ccOf env bh
    · rw [if_pos hcc]
      intro hx
      exact LedgerRes.noConfusion hx
    · rw [if_neg hcc]
      apply mcLoop_fuel_sufficient env bh (ccOf env bh)
        (tx :: w.mapWallet.map (fun p => p.1) ++ w.mapTxSpends.map (fun p => p.2))
        (wlFuel w tx) [tx] [] w
      · intro x hx
        rw [List.mem_singleton] at hx
        subst hx
        exact List.mem_cons_self _ _
      · intro x _
        exact List.not_mem_nil x
      · simp
      · exact List.Pairwise.nil
      · intro x hx
        exact absurd hx (List.not_mem_nil x)
      · intro p hp
        exact List.mem_cons_of_mem tx (List.mem_append.mpr (Or.inr (List.mem_map.mpr ⟨p, hp, rfl⟩)))
      · have hle := List.toFinset_card_le
          (tx :: w.mapWallet.map (fun p => p.1) ++ w.mapTxSpends.map (fun p => p.2))
        unfold wlFuel
        simp only [List.length_nil]
        omega
  · intro env w bh tx wF hcc hb0 hb1 hres t hreach
    have hbha : ∃ hgt, env.blockHeightActive bh = some hgt := by
      unfold ccOf at hcc
      cases hx : env.blockHeightActive bh with
      | none =>
        rw [hx] at hcc
        simp at hcc
      | some hgt => exact ⟨hgt, rfl⟩
    rcases hbha with ⟨hgt, hbh⟩
    have hcceq : ccOf env bh = -(env.tipHeight - hgt + 1) := by
      unfold ccOf
      rw [hbh]
    rw [markConflicted_eq, if_neg (not_le.mpr hcc)] at hres
    have H := mcLoop_marks env bh (ccOf env bh) hgt w hbh hcceq hb0 hb1
      (wlFuel w tx) [tx] [] w wF rfl
      (by intro x _; rfl)
      (by intro x hx; exact absurd hx (List.not_mem_nil x))
      (by intro x hx; exact absurd hx (List.not_mem_nil x))
      (by intro x _; exact List.not_mem_nil x)
      (by simp)
      hres
    rcases H with ⟨T1, T2, T3⟩
    induction hreach with
    | root r h1 h2 =>
      exact T1 tx (List.mem_cons_self tx []) ⟨r, h1, h2⟩
    | step u s r hre hs hlk hd ihm =>
      exact T3 u (conflictReach_hot env w (ccOf env bh) tx u hre) ihm s hs ⟨r, hlk, hd⟩

/-- C4 witness: on the three-transaction wallet w4 the call conflicting
block 100 with transaction 1 terminates, and transaction 1 — trivially
reachable — ends up recorded as conflicting with block 100. -/
theorem markConflicted_propagation_witness :
    markConflicted env4 w4 100 1 ≠ LedgerRes.outOfFuel ∧
      (lookupTx w4marked 1).map dfields = some (100, -1) :=
  ⟨markConflicted_propagation.1 env4 w4 100 1,
   markConflicted_propagation.2 env4 w4 100 1 w4marked (by decide) (by decide) (by decide)
     (by decide) 1
     (ConflictReach.root (mkRec (mkTx 1 [] [50])) (by decide) (by decide))⟩

/-- C4 counterexample: transaction 2 spends transaction 1 but is already
conflicted five blocks deep (block 200), deeper than the new one-deep
conflict with block 100, so MarkConflicted(100, 1) stops at 2:
transaction 3, which transitively spends 1 through 2, keeps its
untouched unconfirmed record (no hashBlock, position 0) although the
claimed property demands that everything transitively spending 1 become
conflicted in the one call. -/
theorem markConflicted_not_transitive :
    markConflicted env4 w4 100 1 = LedgerRes.ok w4marked ∧
      (lookupTx w4marked 1).map dfields = some (100, -1) ∧
      spendersOfTx w4 1 = [2] ∧
      spendersOfTx w4 2 = [3] ∧
      (lookupTx w4marked 2).map dfields = some (200, -1) ∧
      (lookupTx w4marked 3).map dfields = some (0, 0) := by decide

/-! ## C1 and C8: the CreateTransaction fee loop -/

theorem sumOuts_nil : sumOuts [] = 0 := rfl

theorem sumOuts_cons (o : CTxOut) (l : List CTxOut) :
    sumOuts (o :: l) = o.nValue + sumOuts l := by
  unfold sumOuts
  simp

theorem sumOuts_insertIdx :
    ∀ (pos : Nat) (l : List CTxOut) (o : CTxOut), pos ≤ l.length →
      sumOuts (l.insertIdx pos o) = sumOuts l + o.nValue := by
  intro pos
  induction pos with
  | zero =>
    intro l o _
    rw [show l.insertIdx 0 o = o :: l from rfl, sumOuts_cons]
    ring
  | succ p ih =>
    intro l o h
    cases l with
    | nil => simp at h
    | cons x xs =>
      rw [show (x :: xs).insertIdx (p + 1) o = x :: xs.insertIdx p o from rfl]
      rw [sumOuts_cons, sumOuts_cons, ih xs o (by simpa using h)]
      ring

theorem sumOuts_set :
    ∀ (l : List CTxOut) (p : Nat) (o o2 : CTxOut), l.get? p = some o →
      sumOuts (l.set p o2) = sumOuts l - o.nValue + o2.nValue := by
  intro l
  induction l with
  | nil => intro p o o2 h; simp at h
  | cons x xs ih =>
    intro p o o2 h
    cases p with
    | zero =>
      rw [show (x :: xs).get? 0 = some x from rfl] at h
      injection h with h
      rw [show (x :: xs).set 0 o2 = o2 :: xs from rfl, sumOuts_cons, sumOuts_cons, ← h]
      ring
    | succ p =>
      rw [show (x :: xs).get? (p + 1) = xs.get? p from rfl] at h
      rw [show (x :: xs).set (p + 1) o2 = x :: xs.set p o2 from rfl]
      rw [sumOuts_cons, sumOuts_cons, ih p o o2 h]
      ring

theorem get_insertIdx_self :
    ∀ (pos : Nat) (l : List CTxOut) (o : CTxOut), pos ≤ l.length →
      (l.insertIdx pos o).get? pos = some o := by
  intro pos
  induction pos with
  | zero =>
    intro l o _
    rw [show l.insertIdx 0 o = o :: l from rfl]
    rfl
  | succ p ih =>
    intro l o h
    cases l with
    | nil => simp at h
    | cons x xs =>
      rw [show (x :: xs).insertIdx (p + 1) o = x :: xs.insertIdx p o from rfl]
      rw [show (x :: xs.insertIdx p o).get? (p + 1) = (xs.insertIdx p o).get? p from rfl]
      exact ih xs o (by simpa using h)

theorem get_set_self :
    ∀ (l : List CTxOut) (p : Nat) (o o2 : CTxOut), l.get? p = some o →
      (l.set p o2).get? p = some o2 := by
  intro l
  induction l with
  | nil => intro p o o2 h; simp at h
  | cons x xs ih =>
    intro p o o2 h
    cases p with
    | zero => rfl
    | succ p =>
      rw [show (x :: xs).get? (p + 1) = xs.get? p from rfl] at h
      rw [show (x :: xs).set (p + 1) o2 = x :: xs.set p o2 from rfl]
      rw [show (x :: xs.set p o2).get? (p + 1) = (xs.set p o2).get? p from rfl]
      exact ih p o o2 h

theorem mkRecipientOutputs_length (env : BuildEnv) (fee : Amount) (n : Nat) :
    ∀ (l : List CRecipient) (fFirst : Bool) (vout : List CTxOut),
      mkRecipientOutputs env fee n l fFirst = some vout → vout.length = l.length := by
  intro l
  induction l with
  | nil =>
    intro fFirst vout h
    rw [show mkRecipientOutputs env fee n [] fFirst = some [] from rfl] at h
    injection h with h
    rw [← h]
    rfl
  | cons r rest ih =>
    intro fFirst vout h
    simp only [mkRecipientOutputs] at h
    cases hsub : r.fSubtractFeeFromAmount <;> cases hf : fFirst <;>
      simp only [hsub, hf] at h <;>
      simp only [Bool.false_eq_true, Bool.true_eq_false, false_and, and_false, true_and,
        and_true, if_true, if_false, Bool.not_false, Bool.not_true, Bool.and_true,
        Bool.and_false, Bool.false_and, Bool.true_and] at h
    all_goals
      split at h
      · exact absurd h (by simp)
      · split at h
        · exact absurd h (by simp)
        · rename_i outs heq
          injection h with h
          rw [← h, List.length_cons, List.length_cons, ih _ _ heq]

theorem mkRecipientOutputs_sum (env : BuildEnv) (fee : Amount) (n : Nat) :
    ∀ (l : List CRecipient) (fFirst : Bool) (vout : List CTxOut),
      mkRecipientOutputs env fee n l fFirst = some vout →
      sumOuts vout =
        (l.map (fun r => r.nAmount)).sum
          - ((l.filter (fun r => r.fSubtractFeeFromAmount)).length : Int) * fee.tdiv (n : Int)
          - (if fFirst = true ∧ (l.filter (fun r => r.fSubtractFeeFromAmount)).length ≠ 0
             then fee.tmod (n : Int) else 0) := by
  intro l
  induction l with
  | nil =>
    intro fFirst vout h
    rw [show mkRecipientOutputs env fee n [] fFirst = some [] from rfl] at h
    injection h with h
    rw [← h]
    simp [sumOuts_nil]
  | cons r rest ih =>
    intro fFirst vout h
    simp only [mkRecipientOutputs] at h
    cases hsub : r.fSubtractFeeFromAmount <;> cases hf : fFirst <;>
      simp only [hsub, hf] at h <;>
      simp only [Bool.false_eq_true, Bool.true_eq_false, false_and, and_false, true_and,
        and_true, if_true, if_false, Bool.not_false, Bool.not_true, Bool.and_true,
        Bool.and_false, Bool.false_and, Bool.true_and] at h
    · split at h
      · exact absurd h (by simp)
      · split at h
        · exact absurd h (by simp)
        · rename_i outs heq
          injection h with h
          rw [← h, sumOuts_cons, ih _ _ heq]
          simp [List.filter_cons, hsub]
          ring
    · split at h
      · exact absurd h (by simp)
      · split at h
        · exact absurd h (by simp)
        · rename_i outs heq
          injection h with h
          rw [← h, sumOuts_cons, ih _ _ heq]
          simp [List.filter_cons, hsub]
          ring
    · split at h
      · exact absurd h (by simp)
      · split at h
        · exact absurd h (by simp)
        · rename_i outs heq
          injection h with h
          rw [← h, sumOuts_cons, ih _ _ heq]
          simp [List.filter_cons, hsub]
          ring
    · split at h
      · exact absurd h (by simp)
      · split at h
        · exact absurd h (by simp)
        · rename_i outs heq
          injection h with h
          rw [← h, sumOuts_cons, ih _ _ heq]
          simp [List.filter_cons, hsub, Nat.succ_ne_zero]
          ring

/-- The recipient outputs of one iteration sum to the total send amount,
less the whole fee when it is being subtracted from the recipients. -/
theorem mkRecipientOutputs_total (env : BuildEnv) (vecSend : List CRecipient) (fee : Amount)
    (vout : List CTxOut)
    (h : mkRecipientOutputs env fee (nSubOf vecSend) vecSend true = some vout) :
    sumOuts vout = sendTotal vecSend - (if nSubOf vecSend = 0 then 0 else fee) := by
  have H := mkRecipientOutputs_sum env fee (nSubOf vecSend) vecSend true vout h
  unfold sendTotal
  unfold nSubOf at H ⊢
  by_cases h0 : (vecSend.filter (fun r => r.fSubtractFeeFromAmount)).length = 0
  · rw [H]
    simp [h0]
  · rw [H]
    rw [if_neg h0]
    simp only [true_and, ne_eq, h0, not_false_eq_true, if_true, if_pos]
    have hdm := Int.tdiv_add_tmod fee
      (((vecSend.filter (fun r => r.fSubtractFeeFromAmount)).length : Nat) : Int)
    linarith

theorem subtractDust_sum (env : BuildEnv) (nDust : Amount) :
    ∀ (rs : List CRecipient) (os os2 : List CTxOut),
      (rs.filter (fun r => r.fSubtractFeeFromAmount)).length ≠ 0 →
      os.length = rs.length →
      subtractDustFromFirst env nDust rs os = some os2 →
      sumOuts os2 = sumOuts os - nDust := by
  intro rs
  induction rs with
  | nil => intro os os2 hfl _ _; simp at hfl
  | cons r rest ih =>
    intro os os2 hfl hlen h
    cases os with
    | nil => simp at hlen
    | cons o os1 =>
      simp only [subtractDustFromFirst] at h
      cases hflag : r.fSubtractFeeFromAmount with
      | true =>
        simp only [hflag, if_true] at h
        split at h
        · exact absurd h (by simp)
        · injection h with h
          rw [← h, sumOuts_cons, sumOuts_cons]
          simp
          ring
      | false =>
        simp only [hflag, Bool.false_eq_true, if_false] at h
        split at h
        · exact absurd h (by simp)
        · rename_i os3 heq
          injection h with h
          have hfl2 : (rest.filter (fun r => r.fSubtractFeeFromAmount)).length ≠ 0 := by
            simpa [List.filter_cons, hflag] using hfl
          have hlen2 : os1.length = rest.length := by
            simp only [List.length_cons] at hlen
            omega
          rw [← h, sumOuts_cons, sumOuts_cons, ih os1 os3 hfl2 hlen2 heq]
          ring

/-- Characterization of the change-handling block: any produced
(vout, fee, pos) conserves value, reports position -1 only with the
recipient outputs unchanged, and, for a default position request, either
reports no change or places at the reported position a change output
paying the wallet change script at least the change-dust threshold. -/
theorem applyChange_cases (env : BuildEnv) (vecSend : List CRecipient) (ctd : Bool)
    (nSubtract : Nat) (voutRecip : List CTxOut) (nFeeRet nChange : Amount) (req : Int)
    (hlen : voutRecip.length = vecSend.length)
    (hnsub : nSubtract = nSubOf vecSend)
    (hrand : ∀ n : Nat, 0 < n → env.randInt n < n) :
    ∀ cres, applyChange env vecSend ctd nSubtract voutRecip nFeeRet nChange req = cres →
      cres = ChangeRes.fail ∨
      ∃ vout fee1 pos, cres = ChangeRes.mk vout fee1 pos ∧
        (0 ≤ nChange → sumOuts vout + fee1 = sumOuts voutRecip + nFeeRet + nChange) ∧
        (pos = -1 → vout = voutRecip) ∧
        (req = -1 → pos = -1 ∨ ∃ o, changeIndexGet vout pos = some (pos.toNat, o) ∧
          isDustChange env o = false ∧ o.scriptPubKey = env.changeScript) := by
  intro cres hc
  unfold applyChange at hc
  by_cases h0 : 0 < nChange
  case neg =>
    rw [if_neg h0] at hc
    refine Or.inr ⟨voutRecip, nFeeRet, req, hc.symm, ?_, fun _ => rfl, fun hreq => Or.inl hreq⟩
    intro hch
    have hz : nChange = 0 := le_antisymm (not_lt.mp h0) hch
    rw [hz]
    ring
  case pos =>
    rw [if_pos h0] at hc
    cases hctd : ctd with
    | true =>
      simp only [hctd, if_true] at hc
      exact Or.inr ⟨voutRecip, nFeeRet + nChange, req, hc.symm, fun _ => by ring,
        fun _ => rfl, fun hreq => Or.inl hreq⟩
    | false =>
      simp only [hctd, Bool.false_eq_true, if_false] at hc
      by_cases hdk : ¬env.changeDestSet = true ∧ ¬env.keypoolOk = true
      · rw [if_pos hdk] at hc
        exact Or.inl hc.symm
      · rw [if_neg hdk] at hc
        by_cases hraise : 0 < nSubtract ∧
            isDustChange env { nValue := nChange, scriptPubKey := env.changeScript } = true
        · rw [if_pos hraise] at hc
          rcases hsd : subtractDustFromFirst env
              (env.dustThresholdChange env.changeScript - nChange) vecSend voutRecip
            with _ | vout2
          · rw [hsd] at hc
            dsimp only at hc
            exact Or.inl hc.symm
          · rw [hsd] at hc
            dsimp only at hc
            have hsum2 : sumOuts vout2 =
                sumOuts voutRecip - (env.dustThresholdChange env.changeScript - nChange) := by
              refine subtractDust_sum env _ vecSend voutRecip vout2 ?_ hlen hsd
              rw [hnsub] at hraise
              unfold nSubOf at hraise
              omega
            have hdust2 : isDustChange env
                { nValue := nChange + (env.dustThresholdChange env.changeScript - nChange),
                  scriptPubKey := env.changeScript } = false := by
              simp [isDustChange]
            rw [hdust2] at hc
            simp only [Bool.false_eq_true, if_false] at hc
            by_cases hreq : req = -1
            · rw [if_pos hreq] at hc
              have hple : env.randInt (vout2.length + 1) ≤ vout2.length :=
                Nat.lt_succ_iff.mp (hrand _ (Nat.succ_pos _))
              refine Or.inr ⟨_, _, _, hc.symm, ?_, ?_, ?_⟩
              · intro _
                rw [sumOuts_insertIdx _ _ _ hple, hsum2]
                dsimp only
                ring
              · intro hp
                omega
              · intro _
                refine Or.inr ⟨_, ?_, hdust2, rfl⟩
                unfold changeIndexGet
                rw [if_neg (by omega)]
                rw [Int.toNat_natCast]
                rw [get_insertIdx_self _ _ _ hple]
            · rw [if_neg hreq] at hc
              by_cases hbad : req < 0 ∨ (vout2.length : Int) < req
              · rw [if_pos hbad] at hc
                exact Or.inl hc.symm
              · rw [if_neg hbad] at hc
                push_neg at hbad
                refine Or.inr ⟨_, _, _, hc.symm, ?_, ?_, fun hr => absurd hr hreq⟩
                · intro _
                  rw [sumOuts_insertIdx _ _ _ (by omega), hsum2]
                  dsimp only
                  ring
                · intro hp
                  exact absurd hp hreq
        · rw [if_neg hraise] at hc
          dsimp only at hc
          cases hdust : isDustChange env { nValue := nChange, scriptPubKey := env.changeScript } with
          | true =>
            rw [hdust] at hc
            simp only [if_true] at hc
            exact Or.inr ⟨voutRecip, nFeeRet + nChange, -1, hc.symm, fun _ => by ring,
              fun _ => rfl, fun _ => Or.inl rfl⟩
          | false =>
            rw [hdust] at hc
            simp only [Bool.false_eq_true, if_false] at hc
            by_cases hreq : req = -1
            · rw [if_pos hreq] at hc
              have hple : env.randInt (voutRecip.length + 1) ≤ voutRecip.length :=
                Nat.lt_succ_iff.mp (hrand _ (Nat.succ_pos _))
              refine Or.inr ⟨_, _, _, hc.symm, ?_, ?_, ?_⟩
              · intro _
                rw [sumOuts_insertIdx _ _ _ hple]
                dsimp only
                ring
              · intro hp
                omega
              · intro _
                refine Or.inr ⟨_, ?_, hdust, rfl⟩
                unfold changeIndexGet
                rw [if_neg (by omega)]
                rw [Int.toNat_natCast]
                rw [get_insertIdx_self _ _ _ hple]
            · rw [if_neg hreq] at hc
              by_cases hbad : req < 0 ∨ (voutRecip.length : Int) < req
              · rw [if_pos hbad] at hc
                exact Or.inl hc.symm
              · rw [if_neg hbad] at hc
                push_neg at hbad
                refine Or.inr ⟨_, _, _, hc.symm, ?_, ?_, fun hr => absurd hr hreq⟩
                · intro _
                  rw [sumOuts_insertIdx _ _ _ (by omega)]
                  dsimp only
                  ring
                · intro hp
                  exact absurd hp hreq

theorem changeIndexGet_inv (vout : List CTxOut) (i : Int) (p : Nat) (o : CTxOut)
    (h : changeIndexGet vout i = some (p, o)) :
    p = i.toNat ∧ vout.get? i.toNat = some o ∧ 0 ≤ i := by
  unfold changeIndexGet at h
  by_cases hi : i < 0
  · rw [if_pos hi] at h
    exact absurd h (by simp)
  · rw [if_neg hi] at h
    rcases hg : vout.get? i.toNat with _ | o2
    · rw [hg] at h
      exact absurd h (by simp)
    · rw [hg] at h
      injection h with h3
      have h4 := congrArg Prod.fst h3
      have h5 := congrArg Prod.snd h3
      dsimp only at h4 h5
      exact ⟨h4.symm, congrArg some h5, not_lt.mp hi⟩

/-- Characterization of one fee-loop iteration past coin selection: a
done result returns the selected coins and conserves value against the
accumulated input value, and reports either no change or a non-dust
change output; an again result keeps the selection and, when it locks
the inputs, still covers the next target. -/
theorem buildStepTail_cases (env : BuildEnv) (vecSend : List CRecipient) (ctd : Bool)
    (req : Int) (s : BuildLoopState) (voutRecip : List CTxOut)
    (setCoins : List CInputCoin) (nValueIn : Amount)
    (hrand : ∀ n : Nat, 0 < n → env.randInt n < n)
    (hm : mkRecipientOutputs env s.nFeeRet
      ((vecSend.filter (fun r => r.fSubtractFeeFromAmount)).length) vecSend true
        = some voutRecip) :
    ∀ res, buildStepTail env vecSend ctd req s voutRecip setCoins nValueIn = res →
      res = StepRes.fail ∨
      (∃ r, res = StepRes.done r ∧ r.setCoins = setCoins ∧ r.nValueIn = nValueIn ∧
        ((vecSend.map (fun r => r.nAmount)).sum +
            (if (vecSend.filter (fun r => r.fSubtractFeeFromAmount)).length = 0
             then s.nFeeRet else 0) ≤ nValueIn →
          sumOuts r.vout + r.nFeeRet = nValueIn) ∧
        (env.dustThresholdChange env.changeScript ≤ MIN_FINAL_CHANGE → req = -1 →
          r.nChangePosInOut = -1 ∨
          ∃ o, changeIndexGet r.vout r.nChangePosInOut = some (r.nChangePosInOut.toNat, o) ∧
            isDustChange env o = false ∧ o.scriptPubKey = env.changeScript)) ∨
      (∃ s2, res = StepRes.again s2 ∧ s2.setCoins = setCoins ∧ s2.nValueIn = nValueIn ∧
        (0 ≤ env.discardThreshold env.changeScript →
          (vecSend.map (fun r => r.nAmount)).sum +
            (if (vecSend.filter (fun r => r.fSubtractFeeFromAmount)).length = 0
             then s.nFeeRet else 0) ≤ nValueIn →
          s2.pickNewInputs = false →
          (vecSend.map (fun r => r.nAmount)).sum +
            (if (vecSend.filter (fun r => r.fSubtractFeeFromAmount)).length = 0
             then s2.nFeeRet else 0) ≤ nValueIn)) := by
  intro res hres
  unfold buildStepTail at hres
  dsimp only at hres
  have hlen : voutRecip.length = vecSend.length :=
    mkRecipientOutputs_length env s.nFeeRet _ vecSend true voutRecip hm
  rcases applyChange_cases env vecSend ctd
      ((vecSend.filter (fun r => r.fSubtractFeeFromAmount)).length) voutRecip s.nFeeRet
      (nValueIn - ((vecSend.map (fun r => r.nAmount)).sum +
        (if (vecSend.filter (fun r => r.fSubtractFeeFromAmount)).length = 0
         then s.nFeeRet else 0)))
      req hlen rfl hrand _ rfl
    with hfail | ⟨vout, fee1, pos, hmk, hsum, hposout, hposprop⟩
  · rw [hfail] at hres
    dsimp only at hres
    exact Or.inl hres.symm
  · rw [hmk] at hres
    dsimp only at hres
    have key : (vecSend.map (fun r => r.nAmount)).sum +
        (if (vecSend.filter (fun r => r.fSubtractFeeFromAmount)).length = 0
         then s.nFeeRet else 0) ≤ nValueIn →
        sumOuts vout + fee1 = nValueIn := by
      intro hcov
      have htot := mkRecipientOutputs_total env vecSend s.nFeeRet voutRecip hm
      unfold sendTotal nSubOf at htot
      have hsum2 := hsum (sub_nonneg.mpr hcov)
      by_cases h00 : (vecSend.filter (fun r => r.fSubtractFeeFromAmount)).length = 0
      · rw [if_pos h00] at htot hsum2
        linarith
      · rw [if_neg h00] at htot hsum2
        linarith
    by_cases hds : ¬env.dummySignOk = true
    · rw [if_pos hds] at hres
      exact Or.inl hres.symm
    · rw [if_neg hds] at hres
      by_cases hrelay : env.getMinimumFee (env.txSize setCoins vout) <
          env.minRelayFee (env.txSize setCoins vout)
      · rw [if_pos hrelay] at hres
        exact Or.inl hres.symm
      · rw [if_neg hrelay] at hres
        by_cases hfee : env.getMinimumFee (env.txSize setCoins vout) ≤ fee1
        · rw [if_pos hfee] at hres
          by_cases hretry : pos = -1 ∧
              (vecSend.filter (fun r => r.fSubtractFeeFromAmount)).length = 0 ∧
              s.pickNewInputs = true ∧
              env.getMinimumFee (env.txSize setCoins vout + env.changePrototypeSize + 2) +
                env.discardThreshold env.changeScript ≤ fee1
          · rw [if_pos hretry] at hres
            refine Or.inr (Or.inr ⟨_, hres.symm, rfl, rfl, ?_⟩)
            intro hdisc hcov _
            obtain ⟨hpos1, hns0, _, hfcond⟩ := hretry
            have hkey := key hcov
            dsimp only
            rw [if_pos hns0] at hcov ⊢
            have hvout : vout = voutRecip := hposout hpos1
            have htot := mkRecipientOutputs_total env vecSend s.nFeeRet voutRecip hm
            unfold sendTotal nSubOf at htot
            rw [if_pos hns0] at htot
            rw [hvout] at hkey
            linarith
          · rw [if_neg hretry] at hres
            by_cases hinc : env.getMinimumFee (env.txSize setCoins vout) < fee1 ∧
                pos ≠ -1 ∧
                (vecSend.filter (fun r => r.fSubtractFeeFromAmount)).length = 0
            · rw [if_pos hinc] at hres
              rcases hcig : changeIndexGet vout pos with _ | po
              · rw [hcig] at hres
                dsimp only at hres
                exact Or.inl hres.symm
              · rw [hcig] at hres
                obtain ⟨p, o⟩ := po
                dsimp only at hres
                obtain ⟨hp, hget, hge0⟩ := changeIndexGet_inv vout pos p o hcig
                refine Or.inr (Or.inl ⟨_, hres.symm, rfl, rfl, ?_, ?_⟩)
                · intro hcov
                  have hkey := key hcov
                  dsimp only
                  rw [sumOuts_set vout p o _ (by rw [hp]; exact hget)]
                  dsimp only
                  linarith
                · intro hthr hreq
                  rcases hposprop hreq with hneg | ⟨o2, hcig2, hdust2, hscr2⟩
                  · exact absurd hneg hinc.2.1
                  · rw [hcig] at hcig2
                    injection hcig2 with h3
                    have h4 := congrArg Prod.fst h3
                    have h5 := congrArg Prod.snd h3
                    dsimp only at h4 h5
                    refine Or.inr
                      ⟨{ nValue := o.nValue +
                            (fee1 - env.getMinimumFee (env.txSize setCoins vout)),
                          scriptPubKey := o.scriptPubKey }, ?_, ?_, ?_⟩
                    · dsimp only
                      unfold changeIndexGet
                      rw [if_neg (not_lt.mpr hge0)]
                      rw [show pos.toNat = p from h4.symm]
                      rw [get_set_self vout p o _ (by rw [hp]; exact hget)]
                    · unfold isDustChange at hdust2 ⊢
                      rw [← h5] at hdust2
                      simp only [decide_eq_false_iff_not, not_lt] at hdust2 ⊢
                      show env.dustThresholdChange o.scriptPubKey ≤
                        o.nValue + (fee1 - env.getMinimumFee (env.txSize setCoins vout))
                      have hextra : 0 < fee1 - env.getMinimumFee (env.txSize setCoins vout) := by
                        linarith [hinc.1]
                      linarith
                    · show o.scriptPubKey = env.changeScript
                      rw [h5]
                      exact hscr2
            · rw [if_neg hinc] at hres
              refine Or.inr (Or.inl ⟨_, hres.symm, rfl, rfl, ?_, ?_⟩)
              · intro hcov
                exact key hcov
              · intro _ hreq
                exact hposprop hreq
        · rw [if_neg hfee] at hres
          by_cases hpk2 : s.pickNewInputs = false
          · rw [if_pos hpk2] at hres
            exact Or.inl hres.symm
          · rw [if_neg hpk2] at hres
            have againConc :
                0 ≤ env.discardThreshold env.changeScript →
                (vecSend.map (fun r => r.nAmount)).sum +
                  (if (vecSend.filter (fun r => r.fSubtractFeeFromAmount)).length = 0
                   then s.nFeeRet else 0) ≤ nValueIn →
                (if 0 < (vecSend.filter (fun r => r.fSubtractFeeFromAmount)).length
                 then false else s.pickNewInputs) = false →
                (vecSend.map (fun r => r.nAmount)).sum +
                  (if (vecSend.filter (fun r => r.fSubtractFeeFromAmount)).length = 0
                   then env.getMinimumFee (env.txSize setCoins vout) else 0) ≤ nValueIn := by
              intro _ hcov hpf
              by_cases hns : 0 < (vecSend.filter (fun r => r.fSubtractFeeFromAmount)).length
              · have hne : (vecSend.filter (fun r => r.fSubtractFeeFromAmount)).length ≠ 0 := by
                  omega
                rw [if_neg hne] at hcov ⊢
                exact hcov
              · rw [if_neg hns] at hpf
                exact absurd hpf hpk2
            by_cases hred : pos ≠ -1 ∧
                (vecSend.filter (fun r => r.fSubtractFeeFromAmount)).length = 0
            · rw [if_pos hred] at hres
              rcases hcig : changeIndexGet vout pos with _ | po
              · rw [hcig] at hres
                dsimp only at hres
                exact Or.inr (Or.inr ⟨_, hres.symm, rfl, rfl, againConc⟩)
              · rw [hcig] at hres
                obtain ⟨p, o⟩ := po
                dsimp only at hres
                obtain ⟨hp, hget, hge0⟩ := changeIndexGet_inv vout pos p o hcig
                by_cases hbig : MIN_FINAL_CHANGE +
                    (env.getMinimumFee (env.txSize setCoins vout) - fee1) ≤ o.nValue
                · rw [if_pos hbig] at hres
                  dsimp only at hres
                  refine Or.inr (Or.inl ⟨_, hres.symm, rfl, rfl, ?_, ?_⟩)
                  · intro hcov
                    have hkey := key hcov
                    dsimp only
                    rw [sumOuts_set vout p o _ (by rw [hp]; exact hget)]
                    dsimp only
                    linarith
                  · intro hthr hreq
                    rcases hposprop hreq with hneg | ⟨o2, hcig2, hdust2, hscr2⟩
                    · exact absurd hneg hred.1
                    · rw [hcig] at hcig2
                      injection hcig2 with h3
                      have h4 := congrArg Prod.fst h3
                      have h5 := congrArg Prod.snd h3
                      dsimp only at h4 h5
                      refine Or.inr
                        ⟨{ nValue := o.nValue -
                              (env.getMinimumFee (env.txSize setCoins vout) - fee1),
                            scriptPubKey := o.scriptPubKey }, ?_, ?_, ?_⟩
                      · dsimp only
                        unfold changeIndexGet
                        rw [if_neg (not_lt.mpr hge0)]
                        rw [show pos.toNat = p from h4.symm]
                        rw [get_set_self vout p o _ (by rw [hp]; exact hget)]
                      · unfold isDustChange
                        simp only [decide_eq_false_iff_not, not_lt]
                        show env.dustThresholdChange o.scriptPubKey ≤
                          o.nValue - (env.getMinimumFee (env.txSize setCoins vout) - fee1)
                        rw [← h5] at hscr2
                        rw [hscr2]
                        linarith
                      · show o.scriptPubKey = env.changeScript
                        rw [h5]
                        exact hscr2
                · rw [if_neg hbig] at hres
                  dsimp only at hres
                  exact Or.inr (Or.inr ⟨_, hres.symm, rfl, rfl, againConc⟩)
            · rw [if_neg hred] at hres
              dsimp only at hres
              exact Or.inr (Or.inr ⟨_, hres.symm, rfl, rfl, againConc⟩)

/-- Characterization of one whole fee-loop iteration, in terms of the
loop invariant. -/
theorem buildStep_cases (env : BuildEnv) (vecSend : List CRecipient) (ctd : Bool) (req : Int)
    (s : BuildLoopState)
    (hrand : ∀ n : Nat, 0 < n → env.randInt n < n) :
    ∀ res, buildStep env vecSend ctd req s = res →
      res = StepRes.fail ∨
      (∃ r, res = StepRes.done r ∧
        ((∀ t coins, env.selectCoins t = some coins → t ≤ sumValues coins) →
          buildInv vecSend s →
          r.nValueIn = sumValues r.setCoins ∧
          sumValues r.setCoins = sumOuts r.vout + r.nFeeRet) ∧
        (env.dustThresholdChange env.changeScript ≤ MIN_FINAL_CHANGE → req = -1 →
          r.nChangePosInOut = -1 ∨
          ∃ o, changeIndexGet r.vout r.nChangePosInOut = some (r.nChangePosInOut.toNat, o) ∧
            isDustChange env o = false ∧ o.scriptPubKey = env.changeScript)) ∨
      (∃ s2, res = StepRes.again s2 ∧
        ((∀ t coins, env.selectCoins t = some coins → t ≤ sumValues coins) →
          0 ≤ env.discardThreshold env.changeScript →
          buildInv vecSend s → buildInv vecSend s2)) := by
  intro res hres
  unfold buildStep at hres
  rcases hm : mkRecipientOutputs env s.nFeeRet
      ((vecSend.filter (fun r => r.fSubtractFeeFromAmount)).length) vecSend true
    with _ | voutRecip
  · rw [hm] at hres
    dsimp only at hres
    exact Or.inl hres.symm
  · rw [hm] at hres
    dsimp only at hres
    cases hpick : s.pickNewInputs with
    | true =>
      simp only [hpick, if_true] at hres
      rcases hsc : env.selectCoins ((vecSend.map (fun r => r.nAmount)).sum +
          (if (vecSend.filter (fun r => r.fSubtractFeeFromAmount)).length = 0
           then s.nFeeRet else 0)) with _ | coins
      · rw [hsc] at hres
        dsimp only at hres
        exact Or.inl hres.symm
      · rw [hsc] at hres
        dsimp only at hres
        rcases buildStepTail_cases env vecSend ctd req s voutRecip coins (sumValues coins)
            hrand hm res hres
          with hfail | ⟨r, hdone, hsetc, hvi, hsum, hpos⟩ | ⟨s2, hagain, hsetc, hvi, hcovp⟩
        · exact Or.inl hfail
        · refine Or.inr (Or.inl ⟨r, hdone, ?_, hpos⟩)
          intro hsel _
          have hcov := hsel _ _ hsc
          constructor
          · rw [hvi, hsetc]
          · rw [hsetc]
            exact (hsum hcov).symm
        · refine Or.inr (Or.inr ⟨s2, hagain, ?_⟩)
          intro hsel hdisc _
          have hcov := hsel _ _ hsc
          refine ⟨?_, ?_⟩
          · rw [hvi, hsetc]
          · intro hpf
            have hres2 := hcovp hdisc hcov hpf
            show sendTotal vecSend + (if nSubOf vecSend = 0 then s2.nFeeRet else 0) ≤
              s2.nValueIn
            rw [hvi]
            exact hres2
    | false =>
      simp only [hpick, Bool.false_eq_true, if_false] at hres
      rcases buildStepTail_cases env vecSend ctd req s voutRecip s.setCoins s.nValueIn
          hrand hm res hres
        with hfail | ⟨r, hdone, hsetc, hvi, hsum, hpos⟩ | ⟨s2, hagain, hsetc, hvi, hcovp⟩
      · exact Or.inl hfail
      · refine Or.inr (Or.inl ⟨r, hdone, ?_, hpos⟩)
        intro _ hinv
        have hcov := hinv.2 hpick
        constructor
        · rw [hvi, hsetc]
          exact hinv.1
        · rw [hsetc, ← hinv.1]
          exact (hsum hcov).symm
      · refine Or.inr (Or.inr ⟨s2, hagain, ?_⟩)
        intro _ hdisc hinv
        have hcov := hinv.2 hpick
        refine ⟨?_, ?_⟩
        · rw [hvi, hsetc]
          exact hinv.1
        · intro hpf
          have hres2 := hcovp hdisc hcov hpf
          show sendTotal vecSend + (if nSubOf vecSend = 0 then s2.nFeeRet else 0) ≤
            s2.nValueIn
          rw [hvi]
          exact hres2

theorem buildLoop_conservation (env : BuildEnv) (vecSend : List CRecipient) (ctd : Bool)
    (req : Int)
    (hsel : ∀ t coins, env.selectCoins t = some coins → t ≤ sumValues coins)
    (hrand : ∀ n : Nat, 0 < n → env.randInt n < n)
    (hdisc : 0 ≤ env.discardThreshold env.changeScript) :
    ∀ (fuel : Nat) (s : BuildLoopState) (r : BuildResult), buildInv vecSend s →
      buildLoop env vecSend ctd req fuel s = some r →
      r.nValueIn = sumValues r.setCoins ∧
        sumValues r.setCoins = sumOuts r.vout + r.nFeeRet := by
  intro fuel
  induction fuel with
  | zero =>
    intro s r _ h
    rw [show buildLoop env vecSend ctd req 0 s = none from rfl] at h
    exact Option.noConfusion h
  | succ f ih =>
    intro s r hinv h
    rw [show buildLoop env vecSend ctd req (f + 1) s =
        (match buildStep env vecSend ctd req s with
         | StepRes.fail => none
         | StepRes.done r => some r
         | StepRes.again s2 => buildLoop env vecSend ctd req f s2) from rfl] at h
    rcases buildStep_cases env vecSend ctd req s hrand _ rfl
      with hfail | ⟨r2, hdone, hc, _⟩ | ⟨s2, hagain, hinv2⟩
    · rw [hfail] at h
      exact Option.noConfusion h
    · rw [hdone] at h
      dsimp only at h
      injection h with h
      rw [← h]
      exact hc hsel hinv
    · rw [hagain] at h
      dsimp only at h
      exact ih s2 r (hinv2 hsel hdisc hinv) h

theorem buildLoop_changePos (env : BuildEnv) (vecSend : List CRecipient) (ctd : Bool)
    (hrand : ∀ n : Nat, 0 < n → env.randInt n < n)
    (hthr : env.dustThresholdChange env.changeScript ≤ MIN_FINAL_CHANGE) :
    ∀ (fuel : Nat) (s : BuildLoopState) (r : BuildResult),
      buildLoop env vecSend ctd (-1) fuel s = some r →
      r.nChangePosInOut = -1 ∨
        ∃ o, changeIndexGet r.vout r.nChangePosInOut = some (r.nChangePosInOut.toNat, o) ∧
          isDustChange env o = false ∧ o.scriptPubKey = env.changeScript := by
  intro fuel
  induction fuel with
  | zero =>
    intro s r h
    rw [show buildLoop env vecSend ctd (-1) 0 s = none from rfl] at h
    exact Option.noConfusion h
  | succ f ih =>
    intro s r h
    rw [show buildLoop env vecSend ctd (-1) (f + 1) s =
        (match buildStep env vecSend ctd (-1) s with
         | StepRes.fail => none
         | StepRes.done r => some r
         | StepRes.again s2 => buildLoop env vecSend ctd (-1) f s2) from rfl] at h
    rcases buildStep_cases env vecSend ctd (-1) s hrand _ rfl
      with hfail | ⟨r2, hdone, _, hpos⟩ | ⟨s2, hagain, _⟩
    · rw [hfail] at h
      exact Option.noConfusion h
    · rw [hdone] at h
      dsimp only at h
      injection h with h
      rw [← h]
      exact hpos hthr rfl
    · rw [hagain] at h
      dsimp only at h
      exact ih s2 r h

/-- C1: every successful CreateTransaction conserves value exactly: the
sum of the selected input coin values equals the sum of the produced
outputs plus the returned fee, through every path of the fee loop,
under the collaborators' contracts — SelectCoins only succeeds covering
its target, GetRandInt(n) < n, and the discard threshold is
nonnegative. -/
theorem createTransaction_conservation (env : BuildEnv) (vecSend : List CRecipient)
    (ctd : Bool) (req : Int) (fuel : Nat) (r : BuildResult)
    (hsel : ∀ t coins, env.selectCoins t = some coins → t ≤ sumValues coins)
    (hrand : ∀ n : Nat, 0 < n → env.randInt n < n)
    (hdisc : 0 ≤ env.discardThreshold env.changeScript)
    (hres : createTransaction env vecSend ctd req fuel = some r) :
    sumValues r.setCoins = sumOuts r.vout + r.nFeeRet ∧
      r.nValueIn = sumValues r.setCoins := by
  unfold createTransaction at hres
  by_cases h1 : vecSend.any (fun r => r.nAmount < 0) = true
  · rw [if_pos h1] at hres
    exact Option.noConfusion hres
  · rw [if_neg h1] at hres
    by_cases h2 : vecSend.isEmpty = true
    · rw [if_pos h2] at hres
      exact Option.noConfusion hres
    · rw [if_neg h2] at hres
      by_cases h3 : ¬env.changeDestSet = true ∧ ¬env.keypoolOk = true
      · rw [if_pos h3] at hres
        exact Option.noConfusion hres
      · rw [if_neg h3] at hres
        rcases hl : buildLoop env vecSend ctd req fuel
            { nFeeRet := 0, pickNewInputs := true, setCoins := [], nValueIn := 0 }
          with _ | r2
        · rw [hl] at hres
          exact Option.noConfusion hres
        · rw [hl] at hres
          dsimp only at hres
          by_cases h4 : env.signRequested = true ∧ ¬env.signOk = true
          · rw [if_pos h4] at hres
            exact Option.noConfusion hres
          · rw [if_neg h4] at hres
            by_cases h5 : ¬env.withinWeightLimit = true
            · rw [if_pos h5] at hres
              exact Option.noConfusion hres
            · rw [if_neg h5] at hres
              by_cases h6 : env.rejectLongChains = true ∧ ¬env.chainLimitOk = true
              · rw [if_pos h6] at hres
                exact Option.noConfusion hres
              · rw [if_neg h6] at hres
                injection hres with hres
                have hC := buildLoop_conservation env vecSend ctd req hsel hrand hdisc fuel
                  { nFeeRet := 0, pickNewInputs := true, setCoins := [], nValueIn := 0 } r2
                  ⟨rfl, by intro hfalse; simp at hfalse⟩ hl
                rw [← hres]
                exact ⟨hC.2, hC.1⟩

/-- C1 witness: on the concrete free-fee instance the build succeeds,
selecting the 60-coin against a 50-recipient with a 10 change output,
and the sums balance. -/
theorem createTransaction_conservation_witness :
    createTransaction envB [recB] false (-1) 5 = some rB ∧
      sumValues rB.setCoins = sumOuts rB.vout + rB.nFeeRet ∧
      rB.nValueIn = sumValues rB.setCoins :=
  ⟨by decide,
   createTransaction_conservation envB [recB] false (-1) 5 rB
     (by
       intro t coins h
       by_cases ht : t ≤ 60
       · rw [show envB.selectCoins t =
             (if t ≤ 60 then
                some [{ outpoint := { txhash := 30, n := 0 }, nValue := 60 }] else none)
             from rfl, if_pos ht] at h
         injection h with h
         rw [← h]
         show t ≤ 60 + 0
         linarith
       · rw [show envB.selectCoins t =
             (if t ≤ 60 then
                some [{ outpoint := { txhash := 30, n := 0 }, nValue := 60 }] else none)
             from rfl, if_neg ht] at h
         exact Option.noConfusion h)
     (fun n h => h)
     (by decide)
     (by decide)⟩

/-- C8: the change block folds a dust change into the fee only in the
no-fee-subtraction case — with a fee-subtracting recipient it instead
raises the change to the threshold at that recipient's expense and
emits it — and in every successful build with the default change
request the transaction either reports no change or carries, at the
reported position, a change output paying the wallet change script at
least the change-dust threshold (never a sub-threshold change output),
provided GetRandInt(n) < n and the change-dust threshold is at most
MIN_FINAL_CHANGE. -/
theorem createTransaction_dust_policy :
    (∀ (env : BuildEnv) (vecSend : List CRecipient) (voutRecip : List CTxOut)
       (nFeeRet nChange : Amount) (req : Int),
      0 < nChange →
      (env.changeDestSet = true ∨ env.keypoolOk = true) →
      isDustChange env { nValue := nChange, scriptPubKey := env.changeScript } = true →
      applyChange env vecSend false 0 voutRecip nFeeRet nChange req =
        ChangeRes.mk voutRecip (nFeeRet + nChange) (-1)) ∧
    (∀ (env : BuildEnv) (vecSend : List CRecipient) (ctd : Bool) (fuel : Nat)
       (r : BuildResult),
      (∀ n : Nat, 0 < n → env.randInt n < n) →
      env.dustThresholdChange env.changeScript ≤ MIN_FINAL_CHANGE →
      createTransaction env vecSend ctd (-1) fuel = some r →
      r.nChangePosInOut = -1 ∨
        ∃ o, changeIndexGet r.vout r.nChangePosInOut = some (r.nChangePosInOut.toNat, o) ∧
          isDustChange env o = false ∧ o.scriptPubKey = env.changeScript) := by
  constructor
  · intro env vecSend voutRecip nFeeRet nChange req h0 hdk hdust
    unfold applyChange
    rw [if_pos h0]
    simp only [Bool.false_eq_true, if_false]
    rw [if_neg (by
      rintro ⟨hnd, hnk⟩
      rcases hdk with h | h
      · exact hnd h
      · exact hnk h)]
    rw [if_neg (fun hcon => absurd hcon.1 (lt_irrefl 0))]
    dsimp only
    rw [if_pos hdust]
  · intro env vecSend ctd fuel r hrand hthr hres
    unfold createTransaction at hres
    by_cases h1 : vecSend.any (fun r => r.nAmount < 0) = true
    · rw [if_pos h1] at hres
      exact Option.noConfusion hres
    · rw [if_neg h1] at hres
      by_cases h2 : vecSend.isEmpty = true
      · rw [if_pos h2] at hres
        exact Option.noConfusion hres
      · rw [if_neg h2] at hres
        by_cases h3 : ¬env.changeDestSet = true ∧ ¬env.keypoolOk = true
        · rw [if_pos h3] at hres
          exact Option.noConfusion hres
        · rw [if_neg h3] at hres
          rcases hl : buildLoop env vecSend ctd (-1) fuel
              { nFeeRet := 0, pickNewInputs := true, setCoins := [], nValueIn := 0 }
            with _ | r2
          · rw [hl] at hres
            exact Option.noConfusion hres
          · rw [hl] at hres
            dsimp only at hres
            by_cases h4 : env.signRequested = true ∧ ¬env.signOk = true
            · rw [if_pos h4] at hres
              exact Option.noConfusion hres
            · rw [if_neg h4] at hres
              by_cases h5 : ¬env.withinWeightLimit = true
              · rw [if_pos h5] at hres
                exact Option.noConfusion hres
              · rw [if_neg h5] at hres
                by_cases h6 : env.rejectLongChains = true ∧ ¬env.chainLimitOk = true
                · rw [if_pos h6] at hres
                  exact Option.noConfusion hres
                · rw [if_neg h6] at hres
                  injection hres with hres
                  rw [← hres]
                  exact buildLoop_changePos env vecSend ctd hrand hthr fuel
                    { nFeeRet := 0, pickNewInputs := true, setCoins := [], nValueIn := 0 }
                    r2 hl

/-- C8 witness: the fold lemma at a concrete dust change of 10 against
threshold 50 with no fee-subtracting recipients, and the emitted-change
property of the concrete C8 build. -/
theorem createTransaction_dust_policy_witness :
    (applyChange env8 [recB] false 0 [{ nValue := 50, scriptPubKey := 5 }] 0 10 (-1) =
      ChangeRes.mk [{ nValue := 50, scriptPubKey := 5 }] 10 (-1)) ∧
    (r8.nChangePosInOut = -1 ∨
      ∃ o, changeIndexGet r8.vout r8.nChangePosInOut = some (r8.nChangePosInOut.toNat, o) ∧
        isDustChange env8 o = false ∧ o.scriptPubKey = env8.changeScript) :=
  ⟨createTransaction_dust_policy.1 env8 [recB] [{ nValue := 50, scriptPubKey := 5 }] 0 10
     (-1) (by decide) (Or.inl (by decide)) (by decide),
   createTransaction_dust_policy.2 env8 [rec8] false 10 r8 (fun n h => h) (by decide)
     (by decide)⟩

/-- C8 counterexample: on the concrete instance the candidate change of
10 is below the change-dust threshold of 50, yet the successful build
emits a change output (raised to 50 at the expense of the
fee-subtracting recipient, which drops to 960) instead of folding the
surplus into the fee: the change position is 0 and the fee stays 0. -/
theorem createTransaction_dust_change_emitted :
    createTransaction env8 [rec8] false (-1) 10 = some r8 ∧
      isDustChange env8
        { nValue := r8.nValueIn - sendTotal [rec8],
          scriptPubKey := env8.changeScript } = true ∧
      r8.nChangePosInOut = 0 ∧
      r8.vout = [{ nValue := 50, scriptPubKey := env8.changeScript },
                 { nValue := 960, scriptPubKey := 5 }] ∧
      r8.nFeeRet = 0 := by decide

end NixWallet
